import Mathlib

/-!
Ripples: batched reverse-reachability sampling and the distributed sampling controller.

A shallow embedding of `include/ripples/batched_add_rrrset.h` (`BatchedBFS` and its variant
`BatchedBFSNeighborColor`) and of `include/im/mpi/imm.h` (`ThetaPrime`, `Sampling`, and the
splitting of the generator in `IMM`), and the properties proved about them.

Conventions of the embedding.

* Vertex identifiers and 64-bit words are natural numbers.  Every 64-bit word that the code
  builds stays below `2 ^ 64` (this is proved, see `Safe.cmap` and `Safe.nmap`), so no operation
  on them wraps.
* `float` / `double` values (edge weights, uniform draws, thresholds, coverage fractions) are
  rational numbers: comparisons are the exact ones, arithmetic is exact (no rounding).
* `generator` is a vector of random engines.  It is represented by the family of value streams
  it will produce, `gen k j` being the `j`-th value that `value(generator[k])` yields, and by the
  number of values already taken of each engine (`State.pos`).
* Indexing `visited_matrix` outside its `m × num_nodes` bounds is undefined behaviour in C++; the
  embedding reports it as `Fault.out_of_range`.  A failed `assert` is `Fault.assertion`, the bare
  `throw;` of an unrecognised diffusion tag is `Fault.rethrow`.
* The `while (frontier.size() != 0)` loop is given a bound on the number of rounds it may run
  (`Fault.fuel` when the bound is hit); `BatchedBFS` runs it with `m * num_nodes + 1` rounds, which
  is proved to be enough.  The `while (colors != 0)` loop over a 64-bit word is given 64
  iterations, which is proved to be enough as well.
-/

namespace ripples

/-- The tag type selecting the diffusion model.  `BatchedBFS` is a template over the tag type:
the two recognised tags, and any other type (`unrecognised`), which reaches `throw;`. -/
inductive diff_model_tag
  | independent_cascade_tag
  | linear_threshold_tag
  | unrecognised
  deriving DecidableEq, Repr

/-- One element of `G.neighbors(v)`: the neighbour `u.vertex` and the edge weight `u.weight`. -/
structure Edge where
  vertex : Nat
  weight : ℚ
  deriving DecidableEq

/-- The graph interface that `BatchedBFS` uses: `G.num_nodes()` and `G.neighbors(v)`. -/
structure Graph where
  num_nodes : Nat
  neighbors : Nat → List Edge

/-- The ways in which a call does not return normally. -/
inductive Fault
  | assertion
  | rethrow
  | out_of_range
  | fuel
  deriving DecidableEq, Repr

/-- The local variables of `BatchedBFS` together with the output slots `O + i` and the state of
the generator vector.  `draws` is a ghost log: one entry `(color, k)` for every evaluation of
`value(generator[k])` made while expanding under `color`, in program order. -/
structure State where
  visited_matrix : Nat → Nat → Bool
  O : Nat → List Nat
  color_map : Nat → Option Nat
  new_color_map : Nat → Option Nat
  frontier : List Nat
  new_frontier : List Nat
  pos : Nat → Nat
  draws : List (Nat × Nat)

/-- The number of binary digits of `x`, looking at no more than `k` digits. -/
def bit_length : Nat → Nat → Nat
  | 0, _ => 0
  | k + 1, x => if x = 0 then 0 else bit_length k (x / 2) + 1

/-- The intrinsic `__builtin_clzl` on a 64-bit word: the number of leading zero bits, that is
64 minus the number of binary digits.  Its result for `0` is undefined in C++; the code guards
every call by `colors != 0`. -/
def __builtin_clzl (x : Nat) : Nat := 64 - bit_length 64 x

/-- The expression `value(generator[k])` evaluated while expanding under `color`: the next
value of engine `k`, which advances that engine. -/
def State.value (gen : Nat → Nat → ℚ) (s : State) (color k : Nat) : ℚ × State :=
  (gen k (s.pos k),
   { s with pos := Function.update s.pos k (s.pos k + 1), draws := s.draws ++ [(color, k)] })

/-- The activation block shared by both diffusion models (lines 113-121 and 141-149):
mark `u` visited under `color`, append it to output slot `color`, and merge the colour bit
`1ul << (63 - color)` into `new_color_map[u]`, pushing `u` on `new_frontier` when it had no
entry yet. -/
def State.activate (s : State) (color u : Nat) : State :=
  { s with
    visited_matrix := fun c v => if c = color ∧ v = u then true else s.visited_matrix c v
    O := fun c => if c = color then s.O c ++ [u] else s.O c
    new_frontier :=
      match s.new_color_map u with
      | none => s.new_frontier ++ [u]
      | some _ => s.new_frontier
    new_color_map := fun v =>
      if v = u then
        match s.new_color_map u with
        | none => some (1 <<< (63 - color))
        | some old => some (old ||| (1 <<< (63 - color)))
      else s.new_color_map v }

/-- The seeding loop (lines 77-89): root number `i` gets the colour word `2^63 / 2^i`, is
entered in `color_map` (and in `frontier` when it has no entry yet), is marked visited under
colour `__builtin_clzl(color)` and pushed on that output slot. -/
def seed_roots (G : Graph) (m : Nat) : List Nat → Nat → State → Except Fault State
  | [], _, s => .ok s
  | r :: rs, color, s =>
    if __builtin_clzl color < m ∧ r < G.num_nodes then
      seed_roots G m rs (color / 2)
        { s with
          frontier :=
            match s.color_map r with
            | none => s.frontier ++ [r]
            | some _ => s.frontier
          color_map := fun v =>
            if v = r then
              match s.color_map r with
              | none => some color
              | some old => some (old ||| color)
            else s.color_map v
          visited_matrix := fun c v =>
            if c = __builtin_clzl color ∧ v = r then true else s.visited_matrix c v
          O := fun c => if c = __builtin_clzl color then s.O c ++ [r] else s.O c }
    else .error .out_of_range

/-- The neighbour loop of the independent-cascade branch (lines 107-123) for one colour.  The
draw is only made when the neighbour is not yet visited under the colour (`&&` short-circuits),
and it is always taken from `generator[0]`. -/
def ic_neighbors (gen : Nat → Nat → ℚ) (G : Graph) (m color : Nat) :
    List Edge → State → Except Fault State
  | [], s => .ok s
  | u :: us, s =>
    if color < m ∧ u.vertex < G.num_nodes then
      if s.visited_matrix color u.vertex = false then
        if (s.value gen color 0).1 ≤ u.weight then
          ic_neighbors gen G m color us ((s.value gen color 0).2.activate color u.vertex)
        else ic_neighbors gen G m color us (s.value gen color 0).2
      else ic_neighbors gen G m color us s
    else .error .out_of_range

/-- The neighbour loop of the linear-threshold branch (lines 136-152) for one colour:
`threshold -= u.weight; if (threshold > 0) continue;` then the activation of `u` when it is not
yet visited under the colour, then `break`. -/
def lt_neighbors (G : Graph) (m color : Nat) : List Edge → ℚ → State → Except Fault State
  | [], _, s => .ok s
  | u :: us, threshold, s =>
    if threshold - u.weight > 0 then lt_neighbors G m color us (threshold - u.weight) s
    else if color < m ∧ u.vertex < G.num_nodes then
      if s.visited_matrix color u.vertex = false then .ok (s.activate color u.vertex)
      else .ok s
    else .error .out_of_range

/-- The loop `while (colors != 0) { color = __builtin_clzl(colors); body; colors -= 1ul << (63 -
color); }` that both branches use to dispatch the colours of a frontier vertex.  Every iteration
clears one set bit of a 64-bit word, so the loop is given 64 iterations (`Fault.fuel` beyond). -/
def color_loop (body : Nat → State → Except Fault State) :
    Nat → Nat → State → Except Fault State
  | 0, colors, s => if colors ≠ 0 then .error .fuel else .ok s
  | fuel + 1, colors, s =>
    if colors ≠ 0 then
      match body (__builtin_clzl colors) s with
      | .error e => .error e
      | .ok s1 => color_loop body fuel (colors - (1 <<< (63 - __builtin_clzl colors))) s1
    else .ok s

/-- The body of the `std::for_each` over the frontier (lines 97-159), for the vertex `v`. -/
def visit (tag : diff_model_tag) (gen : Nat → Nat → ℚ) (G : Graph) (m v : Nat) (s : State) :
    Except Fault State :=
  match tag with
  | .independent_cascade_tag =>
    color_loop (fun color s1 => ic_neighbors gen G m color (G.neighbors v) s1) 64
      ((s.color_map v).getD 0) s
  | .linear_threshold_tag =>
    color_loop (fun color s1 =>
        lt_neighbors G m color (G.neighbors v) (s1.value gen color 0).1 (s1.value gen color 0).2)
      64 ((s.color_map v).getD 0) s
  | .unrecognised => .error .rethrow

/-- The traversal `std::for_each(frontier.begin(), frontier.end(), ...)`. -/
def for_each (f : Nat → State → Except Fault State) : List Nat → State → Except Fault State
  | [], s => .ok s
  | v :: vs, s =>
    match f v s with
    | .error e => .error e
    | .ok s1 => for_each f vs s1

/-- One round of the main loop (lines 94-162): reset `new_frontier` and `new_color_map`, visit
every frontier vertex, then swap the maps and the frontiers. -/
def round (tag : diff_model_tag) (gen : Nat → Nat → ℚ) (G : Graph) (m : Nat) (s : State) :
    Except Fault State :=
  match for_each (visit tag gen G m) s.frontier
      { s with new_frontier := [], new_color_map := fun _ => none } with
  | .error e => .error e
  | .ok s1 =>
    .ok { s1 with
          color_map := s1.new_color_map
          new_color_map := s1.color_map
          frontier := s1.new_frontier
          new_frontier := s1.frontier }

/-- The loop `while (frontier.size() != 0)` (lines 93-163), allowed to run `fuel` rounds. -/
def main_loop (tag : diff_model_tag) (gen : Nat → Nat → ℚ) (G : Graph) (m : Nat) :
    Nat → State → Except Fault State
  | 0, s => if s.frontier.length ≠ 0 then .error .fuel else .ok s
  | fuel + 1, s =>
    if s.frontier.length ≠ 0 then
      match round tag gen G m s with
      | .error e => .error e
      | .ok s1 => main_loop tag gen G m fuel s1
    else .ok s

/-- The state in which `BatchedBFS` starts: all of `visited_matrix` false, empty maps and
frontiers, the output slots as the caller passes them, no value taken of any engine yet. -/
def State.init (O : Nat → List Nat) : State :=
  { visited_matrix := fun _ _ => false
    O := O
    color_map := fun _ => none
    new_color_map := fun _ => none
    frontier := []
    new_frontier := []
    pos := fun _ => 0
    draws := [] }

/-- The function `BatchedBFS(G, B, E, O, generator, tag)` run for at most `fuel` rounds of its
main loop.  `roots` is the range `[B, E)`, `O i` the vector `*(O + i)` on entry. -/
def BatchedBFS_rounds (fuel : Nat) (G : Graph) (roots : List Nat) (O : Nat → List Nat)
    (gen : Nat → Nat → ℚ) (tag : diff_model_tag) : Except Fault State :=
  if ¬ roots.length ≤ 64 then .error .assertion
  else
    match seed_roots G roots.length roots (1 <<< 63) (State.init O) with
    | .error e => .error e
    | .ok s1 =>
      if ¬ s1.frontier.length ≠ 0 then .error .assertion
      else
        match main_loop tag gen G roots.length fuel s1 with
        | .error e => .error e
        | .ok s2 =>
          .ok { s2 with
                O := fun i =>
                  if i < roots.length then List.insertionSort (· ≤ ·) (s2.O i) else s2.O i }

/-- The function `BatchedBFS`: the main loop may run `m * num_nodes + 1` rounds. -/
def BatchedBFS (G : Graph) (roots : List Nat) (O : Nat → List Nat) (gen : Nat → Nat → ℚ)
    (tag : diff_model_tag) : Except Fault State :=
  BatchedBFS_rounds (roots.length * G.num_nodes + 1) G roots O gen tag

/-- The `m` vectors `*(O + 0) … *(O + (m-1))` of a state. -/
def State.outputs (s : State) (m : Nat) : List (List Nat) :=
  (List.range m).map s.O

/-- The outputs of a call: `none` when the call does not return normally. -/
def outputs_of (r : Except Fault State) (m : Nat) : Option (List (List Nat)) :=
  match r with
  | .error _ => none
  | .ok s => some (s.outputs m)

/-! Notions used to state and prove the properties of the traversal: colour words. -/

/-- Colour `c` is present in the 64-bit word `mask`: bit `63 - c` is set. -/
def has_color (mask c : Nat) : Prop := c < 64 ∧ mask.testBit (63 - c) = true

/-- The colours that `color_loop` dispatches for a word below `2 ^ k`, in dispatch order
(most significant bit first). -/
def colors_below : Nat → Nat → List Nat
  | 0, _ => []
  | k + 1, mask =>
    if mask.testBit k then (63 - k) :: colors_below k mask else colors_below k mask

/-- The traversal of a list of colours by a loop body. -/
def for_colors (body : Nat → State → Except Fault State) : List Nat → State → Except Fault State
  | [], s => .ok s
  | c :: cs, s =>
    match body c s with
    | .error e => .error e
    | .ok s1 => for_colors body cs s1

/-! Relations on the graph used to state what the traversal computes. -/

/-- The vertex `u` is listed among `G.neighbors(v)`. -/
def Graph.edge (G : Graph) (v u : Nat) : Prop := ∃ e ∈ G.neighbors v, e.vertex = u

/-- Every neighbour identifier of the graph is a vertex, that is below `num_nodes`. -/
def Graph.wf (G : Graph) : Prop := ∀ v, ∀ e ∈ G.neighbors v, e.vertex < G.num_nodes

/-- The vertex `b` is reachable from `a` along neighbour edges, `a` itself included. -/
def Reach (G : Graph) (a b : Nat) : Prop := Relation.ReflTransGen G.edge a b

/-- The neighbour that the linear-threshold scan selects for threshold `t`: the first one at
which the running value `t - w_1 - ... - w_j` is no longer positive. -/
def lt_select : List Edge → ℚ → Option Nat
  | [], _ => none
  | u :: us, t => if t - u.weight > 0 then lt_select us (t - u.weight) else some u.vertex

/-- Some value of engine 0 makes the expansion of `v` activate `u`: under independent cascade
a value not above the weight of an edge to `u`, under linear threshold a value whose scan
selects `u`. -/
def fires (tag : diff_model_tag) (gen : Nat → Nat → ℚ) (G : Graph) (v u : Nat) : Prop :=
  match tag with
  | .independent_cascade_tag => ∃ e ∈ G.neighbors v, e.vertex = u ∧ ∃ j, gen 0 j ≤ e.weight
  | .linear_threshold_tag => ∃ j, lt_select (G.neighbors v) (gen 0 j) = some u
  | .unrecognised => False

/-- The outcome of every test of the model is the same whichever value of engine 0 it uses. -/
def insensitive (tag : diff_model_tag) (gen : Nat → Nat → ℚ) (G : Graph) : Prop :=
  match tag with
  | .independent_cascade_tag =>
    ∀ v, ∀ e ∈ G.neighbors v, ∀ j k, gen 0 j ≤ e.weight → gen 0 k ≤ e.weight
  | .linear_threshold_tag =>
    ∀ v j k, lt_select (G.neighbors v) (gen 0 j) = lt_select (G.neighbors v) (gen 0 k)
  | .unrecognised => True

/-- The work done for one colour of one frontier vertex, in either recognised model. -/
def expand (tag : diff_model_tag) (gen : Nat → Nat → ℚ) (G : Graph) (m v color : Nat)
    (s : State) : Except Fault State :=
  match tag with
  | .independent_cascade_tag => ic_neighbors gen G m color (G.neighbors v) s
  | .linear_threshold_tag =>
    lt_neighbors G m color (G.neighbors v) (s.value gen color 0).1 (s.value gen color 0).2
  | .unrecognised => .error .rethrow

/-- Every word stored in a colour map is a 64-bit word whose colours are below `m`. -/
def colors_ok (m : Nat) (cm : Nat → Option Nat) : Prop :=
  ∀ v mask, cm v = some mask → mask < 2 ^ 64 ∧ ∀ c, has_color mask c → c < m

/-! The invariants of the traversal. -/

/-- What holds of the state throughout the traversal, for `m` colours with roots `root c`,
output slots holding `O0 c` on entry, and a relation `R` that contains every activation the
code can make: the visited marks are in bounds, slot `c` is its content on entry followed by
the vertices visited under `c`, listed without repetition, every visited vertex is
`R`-reachable from the root of its colour, the words of both colour maps are 64-bit words
whose colours are visited at that vertex, and every key of a map is on its frontier. -/
structure Safe (G : Graph) (m : Nat) (O0 : Nat → List Nat) (root : Nat → Nat)
    (R : Nat → Nat → Prop) (s : State) : Prop where
  bound : ∀ c v, s.visited_matrix c v = true → c < m ∧ v < G.num_nodes
  out : ∀ c, c < m → ∃ l, s.O c = O0 c ++ l ∧ l.Nodup ∧
    ∀ v, v ∈ l ↔ s.visited_matrix c v = true
  reach : ∀ c v, s.visited_matrix c v = true → Relation.ReflTransGen R (root c) v
  cmap : ∀ v mask, s.color_map v = some mask →
    mask < 2 ^ 64 ∧ ∀ c, has_color mask c → s.visited_matrix c v = true
  nmap : ∀ v mask, s.new_color_map v = some mask →
    mask < 2 ^ 64 ∧ ∀ c, has_color mask c → s.visited_matrix c v = true
  cfront : ∀ v, s.color_map v ≠ none → v ∈ s.frontier
  nfront : ∀ v, s.new_color_map v ≠ none → v ∈ s.new_frontier

/-- The number of vertices in the first `m` output slots. -/
def total (m : Nat) (s : State) : Nat := ((List.range m).map (fun c => (s.O c).length)).sum

/-- The mid-round invariant: `Safe`, and every vertex pushed on `new_frontier` in this round
was also pushed on an output slot (`T` is the value of `total` when the round started). -/
def Mid (G : Graph) (m : Nat) (O0 : Nat → List Nat) (root : Nat → Nat) (R : Nat → Nat → Prop)
    (T : Nat) (s : State) : Prop :=
  Safe G m O0 root R s ∧ T + s.new_frontier.length ≤ total m s

/-- No visited mark of `s` is cleared in `s1`. -/
def mono (s s1 : State) : Prop :=
  ∀ c v, s.visited_matrix c v = true → s1.visited_matrix c v = true

/-- The root of colour `c`: element number `c` of the range `[B, E)`. -/
def root_of (roots : List Nat) (c : Nat) : Nat := roots.getD c 0

/-- The state of the seeding loop after `i` roots: exactly the pairs `(c, root c)` with `c < i`
are visited, slot `c` has got `root c` appended, every word of `color_map` carries only colours
`c < i` of roots equal to its vertex, and nothing has been drawn. -/
structure Seeded (G : Graph) (m : Nat) (O0 : Nat → List Nat) (root : Nat → Nat) (i : Nat)
    (s : State) : Prop where
  vis : ∀ c v, s.visited_matrix c v = true ↔ (c < i ∧ v = root c)
  out : ∀ c, c < m → s.O c = O0 c ++ if c < i then [root c] else []
  cmap : ∀ v mask, s.color_map v = some mask →
    mask < 2 ^ 64 ∧ ∀ c, has_color mask c → (c < i ∧ root c = v)
  chas : ∀ c, c < i → ∃ mask, s.color_map (root c) = some mask ∧ has_color mask c
  cfront : ∀ v, s.color_map v ≠ none → v ∈ s.frontier
  fne : 0 < i → s.frontier ≠ []
  nmap : ∀ v, s.new_color_map v = none
  nfront : s.new_frontier = []
  rng : ∀ c, c < i → root c < G.num_nodes
  nodraw : s.draws = [] ∧ ∀ k, s.pos k = 0

/-! Notions for completeness: when the outcome of the tests does not depend on the value
drawn, the expansion of a vertex under a colour visits every vertex it fires on. -/

/-- Within a round: `color_map` is not written and no visited mark is cleared. -/
def within (s s1 : State) : Prop := s1.color_map = s.color_map ∧ mono s s1

/-- At a round boundary: every visited pair is either still carried by `color_map` or has all
the vertices it fires on visited. -/
def Closed (R : Nat → Nat → Prop) (s : State) : Prop :=
  ∀ c v, s.visited_matrix c v = true →
    (∃ mask, s.color_map v = some mask ∧ has_color mask c) ∨
    ∀ u, R v u → s.visited_matrix c u = true

/-- Inside a round that started with colour map `cm`: a visited pair is carried by `cm`, or by
`new_color_map`, or has all the vertices it fires on visited. -/
def Comp (R : Nat → Nat → Prop) (cm : Nat → Option Nat) (s : State) : Prop :=
  ∀ c v, s.visited_matrix c v = true →
    (∃ mask, cm v = some mask ∧ has_color mask c) ∨
    (∃ mask, s.new_color_map v = some mask ∧ has_color mask c) ∨
    ∀ u, R v u → s.visited_matrix c u = true

/-- The state `s2` with which the main loop ends, after the final `std::sort` of the `m`
output slots. -/
def State.sorted (s2 : State) (m : Nat) : State :=
  { s2 with O := fun i => if i < m then List.insertionSort (· ≤ ·) (s2.O i) else s2.O i }

/-- The graph whose vertex `v` has the neighbour list number `v` of `adj`. -/
def graph_of (adj : List (List Edge)) : Graph :=
  { num_nodes := adj.length
    neighbors := fun v => adj.getD v [] }

/-- Scenario A: the path `0 → 1 → 2 → 3` with all weights `1.0`, given by its transposed
neighbour lists `3:[2]`, `2:[1]`, `1:[0]`. -/
def path_a : Graph := graph_of [[], [⟨0, 1⟩], [⟨1, 1⟩], [⟨2, 1⟩]]

/-- The ghost log of draws of a call: `none` when the call does not return normally. -/
def draws_of (r : Except Fault State) : Option (List (Nat × Nat)) :=
  match r with
  | .error _ => none
  | .ok s => some s.draws

/-- Every draw logged so far was taken from engine 0, and no other engine was advanced. -/
def engine_zero (s : State) : Prop :=
  (∀ d ∈ s.draws, d.2 = 0) ∧ ∀ k, k ≠ 0 → s.pos k = 0

/-- A graph on which the outcome of a draw matters: vertex 0 has the neighbour 2 and vertex 1
the neighbour 3, both with weight `0.5`. -/
def fork : Graph := graph_of [[⟨2, 1 / 2⟩], [⟨3, 1 / 2⟩], [], []]

/-- A generator all of whose engines yield `0.9` first and `0.1` from then on. -/
def high_then_low : Nat → Nat → ℚ := fun _ j => if j = 0 then 9 / 10 else 1 / 10

/-- Scenario B: the path `0 → 1 → 2 → 3` whose edge `2 → 3` has weight `0.0` and whose other
edges have weight `1.0` (transposed neighbours `3:[(2,0.0)]`, `2:[(1,1.0)]`, `1:[(0,1.0)]`). -/
def path_b : Graph := graph_of [[], [⟨0, 1⟩], [⟨1, 1⟩], [⟨2, 0⟩]]

/-! The description of the linear-threshold scan by prefix sums. -/

/-- The state at the head of the main loop after `k` of its rounds, or the state with which the
loop ended when it ended before. -/
def rounds (tag : diff_model_tag) (gen : Nat → Nat → ℚ) (G : Graph) (m : Nat) :
    Nat → State → Except Fault State
  | 0, s => .ok s
  | k + 1, s =>
    if s.frontier.length ≠ 0 then
      match round tag gen G m s with
      | .error e => .error e
      | .ok s1 => rounds tag gen G m k s1
    else .ok s

/-- The state of a call of `BatchedBFS` at the head of its main loop after `k` rounds (or the
state with which the loop ended when it ended before): the seeding loop, then `rounds`. -/
def loop_state (tag : diff_model_tag) (gen : Nat → Nat → ℚ) (G : Graph) (roots : List Nat)
    (O : Nat → List Nat) (k : Nat) : Except Fault State :=
  match seed_roots G roots.length roots (1 <<< 63) (State.init O) with
  | .error e => .error e
  | .ok s0 => rounds tag gen G roots.length k s0

/-- The word that the colour map `cm` holds for the vertex `v` carries colour `c`. -/
def carried (cm : Nat → Option Nat) (v c : Nat) : Prop :=
  ∃ mask, cm v = some mask ∧ has_color mask c

/-- At the head of a round: the frontier lists every vertex once, every frontier vertex has a
word in `color_map`, and every word of `color_map` carries a colour (it is not zero). -/
structure Tidy (s : State) : Prop where
  nodup : s.frontier.Nodup
  entry : ∀ v ∈ s.frontier, s.color_map v ≠ none
  word : ∀ v mask, s.color_map v = some mask → ∃ c, has_color mask c

/-- Inside a round that started in `s`: `new_frontier` lists every vertex once, its vertices
have a word in `new_color_map`, every such word carries a colour, and the pairs carried by
`new_color_map` are exactly the pairs visited since the round started. -/
structure Fresh (s s1 : State) : Prop where
  nodup : s1.new_frontier.Nodup
  entry : ∀ v ∈ s1.new_frontier, s1.new_color_map v ≠ none
  word : ∀ v mask, s1.new_color_map v = some mask → ∃ c, has_color mask c
  new : ∀ v c, carried s1.new_color_map v c → s.visited_matrix c v = false
  all : ∀ c v, s1.visited_matrix c v = true → s.visited_matrix c v = false →
    carried s1.new_color_map v c

/-! Notions for the linear-threshold model, in which a colour advances along a path. -/

/-- Inside a round that started in `s`: nothing was activated under colour `c` yet. -/
def untouched (s s1 : State) (c : Nat) : Prop :=
  s1.O c = s.O c ∧ ∀ w, ¬ carried s1.new_color_map w c

/-- Inside a round that started in `s`: under colour `c` nothing was activated yet, or exactly
one vertex `u` was, a neighbour of a vertex that carried `c` when the round started, and `u`
is the only vertex for which `new_color_map` carries `c`. -/
def at_most_one (G : Graph) (s s1 : State) (c : Nat) : Prop :=
  untouched s s1 c ∨
  ∃ v u, carried s.color_map v c ∧ G.edge v u ∧ s1.O c = s.O c ++ [u] ∧
    ∀ w, carried s1.new_color_map w c ↔ w = u

/-- At the head of the loop after `k` rounds, for colour `c`: slot `c` is its content on entry
followed by a list `p` that starts with the root of `c`, in which every vertex is a neighbour
of the one before it, and whose last vertex is the only one that can carry `c`; `p` has at most
`k + 1` vertices, and so many only if `c` is still carried. -/
def Trail (G : Graph) (O0 : Nat → List Nat) (root : Nat → Nat) (k : Nat) (s : State)
    (c : Nat) : Prop :=
  ∃ p, s.O c = O0 c ++ p ∧ p.head? = some (root c) ∧ List.Chain' G.edge p ∧
    (∀ v, carried s.color_map v c → p.getLast? = some v) ∧
    p.length ≤ k + 1 ∧ (p.length = k + 1 → ∃ v, carried s.color_map v c)

/-! The variant `BatchedBFSNeighborColor` (lines 170-254), which keeps one 64-bit word of
visited colours per vertex and evaluates all colours of a frontier vertex at each neighbour.

Conventions, in addition to those of `BatchedBFS`.

* The two `std::unordered_map`s are association lists in insertion order.  The order in which
  `for (auto& [vertex, colors] : color_map)` enumerates the entries is not specified by the
  language; it is a parameter `order`, a function of the list.
* `engines` is the number of elements of the `generator` vector; indexing it at or beyond
  `engines` is reported as `Fault.out_of_range`.
* The function does not look at `tag`: it applies the independent-cascade test.
* The statement `assert(!frontier.empty())` of line 204 names a variable whose declaration
  (line 190) and whose only update (line 196) are commented out, and it lacks its semicolon.
  It is not represented: the embedding is the traversal that the remaining lines describe.
* The loop body clears `colors`, a reference into `color_map`, while it extracts the colour
  masks; the cleared words are never read again (the map is swapped and then cleared), and
  the embedding leaves them as they are. -/

end ripples

namespace im

/-!
The distributed sampling controller of `include/im/mpi/imm.h`.

The functions that `Sampling` calls and whose source is in other headers (the shared-memory
`ThetaPrime`, `Theta`, `GenerateRRRSets`, `FindMostInfluentialSet`) and the values it reads of
its environment (`G.num_nodes()`, `MPI_Comm_size`) are parameters, collected in `Env`.  The
graph, the diffusion tag and the execution tags are fixed arguments of those functions and are
not represented.  `double` values are rational numbers; the loop guard
`x < std::log2(G.num_nodes())` is the exact comparison `2 ^ x < num_nodes` (see `guard_iff`).
`size_t` results of the code are taken modulo `2 ^ 64`; the values that the environment supplies
are natural numbers, and a property that depends on their being `size_t` values says so
(`increasing_omp`, `num_nodes < 2 ^ 64`).
-/

/-- The environment of `Sampling`, for RR sets of type `R` and generator states of type `γ`. -/
structure Env (R γ : Type) where
  num_nodes : Nat
  world_size : Nat
  ThetaPrime_omp : Nat → ℚ → ℚ → Nat → Nat → Nat
  Theta : ℚ → ℚ → Nat → ℚ → Nat → Nat
  GenerateRRRSets : Nat → γ → List R × γ
  FindMostInfluentialSet : Nat → List R → ℚ × List Nat

/-- The overload `ThetaPrime(x, epsilonPrime, l, k, num_nodes, mpi_omp_parallel_tag&)`
(lines 25-32), in `size_t` arithmetic. -/
def ThetaPrime {R γ : Type} (E : Env R γ) (x : Nat) (epsilonPrime l : ℚ) (k num_nodes : Nat) :
    Nat :=
  (E.ThetaPrime_omp x epsilonPrime l k num_nodes / E.world_size + 1) % 2 ^ 64

/-- The difference `a - RR.size()` of two `size_t` values, which wraps around modulo `2^64`. -/
def size_sub (a size : Nat) : Nat := (a % 2 ^ 64 + 2 ^ 64 - size % 2 ^ 64) % 2 ^ 64

/-- The variables of the bound-search loop of `Sampling` (lines 44-68).  `ran` is a ghost log:
the values of `x` for which the loop body was executed, in order. -/
structure Search (R γ : Type) where
  x : Nat
  RR : List R
  generator : γ
  LB : ℚ
  ran : List Nat

/-- The body of the bound-search loop (lines 50-67) for the current `x`: extend the pool to
`thetaPrime` sets, ask the oracle for the coverage `f`, and on `f >= pow(2, -x)` set `LB` and
`break` (second component `true`); otherwise go on with `x + 1`. -/
def search_body {R γ : Type} (E : Env R γ) (k : Nat) (epsilonPrime l : ℚ) (st : Search R γ) :
    Search R γ × Bool :=
  let thetaPrime := ThetaPrime E st.x epsilonPrime l k E.num_nodes
  let deltaRR := E.GenerateRRRSets (size_sub thetaPrime st.RR.length) st.generator
  let RR := st.RR ++ deltaRR.1
  let f := (E.FindMostInfluentialSet k RR).1
  if f ≥ 1 / 2 ^ st.x then
    ({ x := st.x, RR := RR, generator := deltaRR.2,
       LB := (E.num_nodes * f) / (1 + epsilonPrime), ran := st.ran ++ [st.x] }, true)
  else
    ({ x := st.x + 1, RR := RR, generator := deltaRR.2, LB := st.LB,
       ran := st.ran ++ [st.x] }, false)

/-- The loop `for (ssize_t x = 1; x < std::log2(G.num_nodes()); ++x)` (lines 49-68), allowed to
run `fuel` iterations (`none` when that is not enough). -/
def bound_search {R γ : Type} (E : Env R γ) (k : Nat) (epsilonPrime l : ℚ) :
    Nat → Search R γ → Option (Search R γ)
  | 0, st => if 2 ^ st.x < E.num_nodes then none else some st
  | fuel + 1, st =>
    if 2 ^ st.x < E.num_nodes then
      if (search_body E k epsilonPrime l st).2 then some (search_body E k epsilonPrime l st).1
      else bound_search E k epsilonPrime l fuel (search_body E k epsilonPrime l st).1
    else some st

/-- What `Sampling` leaves behind: the returned pool `RR`, the generator, `record.Theta`, and
(ghosts) the lower bound `LB` that was passed to `Theta` and the iterations that ran. -/
structure Sampled (R γ : Type) where
  RR : List R
  generator : γ
  Theta : Nat
  LB : ℚ
  ran : List Nat

/-- The literal `1.4142135623730951` of line 42. -/
def sqrt_2 : ℚ := 14142135623730951 / 10000000000000000

/-- The state in which the bound-search loop starts: `x = 1`, `LB = 0`, empty pool. -/
def Search.start {R γ : Type} (generator : γ) : Search R γ :=
  { x := 1, RR := [], generator := generator, LB := 0, ran := [] }

/-- The function `Sampling(G, k, epsilon, l, generator, record, model_tag, ex_tag)` (lines
35-95).  The loop is given `num_nodes` iterations, which is proved to be enough. -/
def Sampling {R γ : Type} (E : Env R γ) (k : Nat) (epsilon l : ℚ) (generator : γ) :
    Option (Sampled R γ) :=
  match bound_search E k (sqrt_2 * epsilon) l E.num_nodes (Search.start generator) with
  | none => none
  | some st =>
    let theta := E.Theta epsilon l k st.LB E.num_nodes
    let thetaLocal := (theta / E.world_size + 1) % 2 ^ 64
    if thetaLocal > st.RR.length then
      let deltaRR := E.GenerateRRRSets (size_sub thetaLocal st.RR.length) st.generator
      some { RR := st.RR ++ deltaRR.1, generator := deltaRR.2, Theta := theta, LB := st.LB,
             ran := st.ran }
    else
      some { RR := st.RR, generator := st.generator, Theta := theta, LB := st.LB,
             ran := st.ran }

/-- The pool and the generator after the iterations `1, ..., x` of the bound search, none of
which was accepted before: iteration `x` extends the pool of iteration `x - 1`. -/
def pool {R γ : Type} (E : Env R γ) (k : Nat) (epsilonPrime l : ℚ) (generator : γ) :
    Nat → List R × γ
  | 0 => ([], generator)
  | x + 1 =>
    let p := pool E k epsilonPrime l generator x
    let deltaRR := E.GenerateRRRSets
      (size_sub (ThetaPrime E (x + 1) epsilonPrime l k E.num_nodes) p.1.length) p.2
    (p.1 ++ deltaRR.1, deltaRR.2)

/-- The loop state at the head of iteration `x` when the iterations before it all ran and none
was accepted. -/
def head {R γ : Type} (E : Env R γ) (k : Nat) (epsilonPrime l : ℚ) (generator : γ)
    (x : Nat) : Search R γ :=
  { x := x, RR := (pool E k epsilonPrime l generator (x - 1)).1,
    generator := (pool E k epsilonPrime l generator (x - 1)).2, LB := 0,
    ran := List.range' 1 (x - 1) }

/-- An environment with a single vertex. -/
def single_vertex : Env Nat Unit :=
  { num_nodes := 1
    world_size := 1
    ThetaPrime_omp := fun _ _ _ _ _ => 1
    Theta := fun _ _ _ lb _ => if lb = 0 then 5 else 7
    GenerateRRRSets := fun count g => (List.replicate count 0, g)
    FindMostInfluentialSet := fun _ _ => (1, []) }

/-- The value of the variable `thetaLocal` (line 74) for a given `theta`, in `size_t`
arithmetic. -/
def thetaLocal {R γ : Type} (E : Env R γ) (theta : Nat) : Nat :=
  (theta / E.world_size + 1) % 2 ^ 64

/-- The generator of RR sets returns exactly the number of sets it is asked for. -/
def exact_generation {R γ : Type} (E : Env R γ) : Prop :=
  ∀ count generator, (E.GenerateRRRSets count generator).1.length = count

/-- The shared-memory `ThetaPrime` that the distributed overload wraps, a function of an
`ssize_t` index with `size_t` values, is strictly increasing in the iteration index. -/
def increasing_omp {R γ : Type} (E : Env R γ) (epsilonPrime l : ℚ) (k : Nat) : Prop :=
  (∀ x, x < 2 ^ 63 → E.ThetaPrime_omp x epsilonPrime l k E.num_nodes < 2 ^ 64) ∧
  ∀ x y, x < y → y < 2 ^ 63 →
    E.ThetaPrime_omp x epsilonPrime l k E.num_nodes < E.ThetaPrime_omp y epsilonPrime l k E.num_nodes

/-- An environment with two processes whose shared-memory `ThetaPrime` is `x + 1`. -/
def two_ranks : Env Nat Unit :=
  { num_nodes := 8
    world_size := 2
    ThetaPrime_omp := fun x _ _ _ _ => x + 1
    Theta := fun _ _ _ _ _ => 1
    GenerateRRRSets := fun count g => (List.replicate count 0, g)
    FindMostInfluentialSet := fun _ _ => (0, []) }

/-- An environment with three processes, 40 vertices, shared-memory `ThetaPrime` `x + 4` and an
oracle that never reports any coverage, so that every iteration of the bound search runs. -/
def three_ranks : Env Nat Unit :=
  { num_nodes := 40
    world_size := 3
    ThetaPrime_omp := fun x _ _ _ _ => x + 4
    Theta := fun _ _ _ _ _ => 100
    GenerateRRRSets := fun count g => (List.replicate count 0, g)
    FindMostInfluentialSet := fun _ _ => (0, []) }

/-- Modelled from the spec: `split(count, index)` of the random engine (`trng::lcg64`, whose
source is not part of these headers) as the leapfrog partition of a stream into `count`
substreams: element `j` of substream `index` is element `index + count * j` of the parent.  A
stream is represented by the positions of the base stream that it yields. -/
def split (count index : Nat) (stream : Nat → Nat) : Nat → Nat :=
  fun j => stream (index + count * j)

/-- The base stream of `gen` on entry of `IMM`: its element `j` is at base position `j`. -/
def base_stream : Nat → Nat := fun j => j

/-- The stream of `generator[t]` on process `r` after lines 115-123 of `IMM`:
`gen.split(world_size, world_rank)`, a copy of `gen` for every thread, and on the copy of thread
`t` the call `split(omp_get_num_threads(), omp_get_thread_num())`. -/
def IMM_stream (world_size num_threads world_rank thread_num : Nat) : Nat → Nat :=
  split num_threads thread_num (split world_size world_rank base_stream)

end im

namespace ripples

theorem testBit_top {k x : Nat} (h1 : 2 ^ k ≤ x) (h2 : x < 2 ^ (k + 1)) : x.testBit k = true := by
  have h3 : x = 2 ^ k + (x - 2 ^ k) := by omega
  have h4 : x - 2 ^ k < 2 ^ k := by rw [pow_succ] at h2; omega
  rw [h3, Nat.testBit_two_pow_add_eq, Nat.testBit_lt_two_pow h4]; rfl

theorem bit_length_zero (n : Nat) : bit_length n 0 = 0 := by
  cases n <;> simp [bit_length]

theorem bit_length_of_top : ∀ (k n x : Nat), 2 ^ k ≤ x → x < 2 ^ (k + 1) → k + 1 ≤ n →
    bit_length n x = k + 1 := by
  intro k
  induction k with
  | zero =>
    intro n x h1 h2 hn
    have hx : x = 1 := by simp at h1 h2; omega
    obtain ⟨n1, rfl⟩ : ∃ n1, n = n1 + 1 := ⟨n - 1, by omega⟩
    subst hx
    simp [bit_length, bit_length_zero]
  | succ k ih =>
    intro n x h1 h2 hn
    obtain ⟨n1, rfl⟩ : ∃ n1, n = n1 + 1 := ⟨n - 1, by omega⟩
    have hpos : 0 < 2 ^ (k + 1) := Nat.pos_pow_of_pos _ (by decide)
    have hx : x ≠ 0 := by omega
    have h3 : 2 ^ k ≤ x / 2 := by
      rw [pow_succ] at h1
      omega
    have h4 : x / 2 < 2 ^ (k + 1) := by
      rw [pow_succ] at h2
      omega
    simp only [bit_length, hx, if_false]
    rw [ih n1 (x / 2) h3 h4 (by omega)]

theorem clz_of_top {k x : Nat} (h1 : 2 ^ k ≤ x) (h2 : x < 2 ^ (k + 1)) (hk : k ≤ 63) :
    __builtin_clzl x = 63 - k := by
  unfold __builtin_clzl
  rw [bit_length_of_top k 64 x h1 h2 (by omega)]
  omega

theorem colors_below_congr (k : Nat) (x y : Nat) (h : ∀ j, j < k → x.testBit j = y.testBit j) :
    colors_below k x = colors_below k y := by
  induction k with
  | zero => rfl
  | succ k ih =>
    simp only [colors_below]
    rw [h k (Nat.lt_succ_self k), ih (fun j hj => h j (Nat.lt_succ_of_lt hj))]

theorem colors_below_of_lt (k : Nat) (x : Nat) (h : x < 2 ^ k) :
    colors_below (k + 1) x = colors_below k x := by
  simp only [colors_below, Nat.testBit_lt_two_pow h]
  rfl

/-- The loop `color_loop` on a word below `2 ^ k` (with `k ≤ 64`) runs its body on the colours of
the set bits, most significant first, when it is given at least `k` iterations. -/
theorem color_loop_eq (body : Nat → State → Except Fault State) (k : Nat) (hk : k ≤ 64) :
    ∀ (fuel colors : Nat) (s : State), colors < 2 ^ k → k ≤ fuel →
      color_loop body fuel colors s = for_colors body (colors_below k colors) s := by
  induction k with
  | zero =>
    intro fuel colors s h _
    have h0 : colors = 0 := by simpa using h
    subst h0
    cases fuel <;> simp [color_loop, colors_below, for_colors]
  | succ k ih =>
    intro fuel colors s h hfuel
    by_cases hlt : colors < 2 ^ k
    · rw [colors_below_of_lt k colors hlt]
      exact ih (by omega) fuel colors s hlt (by omega)
    · have hge : 2 ^ k ≤ colors := Nat.le_of_not_lt hlt
      have hpos : 0 < 2 ^ k := Nat.pos_pow_of_pos _ (by decide)
      have hne : colors ≠ 0 := by omega
      have hbit : colors.testBit k = true := testBit_top hge h
      have hc : __builtin_clzl colors = 63 - k := clz_of_top hge h (by omega)
      have hclz : 63 - __builtin_clzl colors = k := by rw [hc]; omega
      have hsub : colors - 2 ^ k < 2 ^ k := by rw [pow_succ] at h; omega
      have hrest : colors_below k colors = colors_below k (colors - 2 ^ k) := by
        apply colors_below_congr
        intro j hj
        have h3 : colors = 2 ^ k + (colors - 2 ^ k) := by omega
        conv_lhs => rw [h3]
        exact Nat.testBit_two_pow_add_gt hj _
      obtain ⟨f1, rfl⟩ : ∃ f1, fuel = f1 + 1 := ⟨fuel - 1, by omega⟩
      simp only [color_loop, hne, ne_eq, not_false_eq_true, if_true, colors_below, hbit,
        for_colors]
      rw [hclz, Nat.one_shiftLeft, hc, hrest]
      cases body (63 - k) s with
      | error e => rfl
      | ok s1 => exact ih (by omega) f1 _ s1 hsub (by omega)

theorem mem_colors_below (k : Nat) (hk : k ≤ 64) (mask c : Nat) :
    c ∈ colors_below k mask ↔ (63 - k < c ∨ k = 64) ∧ has_color mask c := by
  induction k with
  | zero => simp [colors_below, has_color]; omega
  | succ k ih =>
    have ih1 := ih (by omega)
    unfold has_color at ih1 ⊢
    by_cases hb : mask.testBit k = true
    · simp only [colors_below, hb, if_true, List.mem_cons, ih1]
      constructor
      · rintro (h | h)
        · subst h
          refine ⟨by omega, by omega, ?_⟩
          have : 63 - (63 - k) = k := by omega
          rw [this]; exact hb
        · exact ⟨by omega, h.2⟩
      · rintro ⟨h1, h2, h3⟩
        by_cases hc : c = 63 - k
        · exact Or.inl hc
        · exact Or.inr ⟨by omega, h2, h3⟩
    · simp only [colors_below, hb, Bool.false_eq_true, if_false, ih1]
      constructor
      · rintro ⟨h1, h2⟩
        exact ⟨by omega, h2⟩
      · rintro ⟨h1, h2, h3⟩
        refine ⟨?_, h2, h3⟩
        by_cases hc : c = 63 - k
        · exfalso
          have : 63 - c = k := by omega
          rw [this] at h3; exact hb h3
        · omega

theorem mem_colors_below_64 (mask c : Nat) : c ∈ colors_below 64 mask ↔ has_color mask c := by
  rw [mem_colors_below 64 (le_refl _)]; simp

theorem lt_select_mem : ∀ (es : List Edge) (t : ℚ) (u : Nat),
    lt_select es t = some u → ∃ e ∈ es, e.vertex = u := by
  intro es
  induction es with
  | nil => intro t u h; simp [lt_select] at h
  | cons e es ih =>
    intro t u h
    simp only [lt_select] at h
    split_ifs at h with h1
    · obtain ⟨e1, he1, hu⟩ := ih _ _ h
      exact ⟨e1, List.mem_cons_of_mem _ he1, hu⟩
    · exact ⟨e, List.mem_cons_self _ _, by simpa using h⟩

theorem fires_edge {tag : diff_model_tag} {gen : Nat → Nat → ℚ} {G : Graph} {v u : Nat}
    (h : fires tag gen G v u) : G.edge v u := by
  cases tag with
  | independent_cascade_tag =>
    obtain ⟨e, he, hu, _⟩ := h
    exact ⟨e, he, hu⟩
  | linear_threshold_tag =>
    obtain ⟨j, hj⟩ := h
    exact lt_select_mem _ _ _ hj
  | unrecognised => exact h.elim

/-! Hoare-style rules: a predicate kept by every draw and by every guarded activation is
kept by the loops. -/

theorem ic_neighbors_spec (gen : Nat → Nat → ℚ) (G : Graph) (m color : Nat) (P : State → Prop)
    (hc : color < m) (hdraw : ∀ s, P s → P (s.value gen color 0).2) :
    ∀ (es : List Edge), (∀ e ∈ es, e.vertex < G.num_nodes) →
      (∀ s e, P s → e ∈ es → (∃ j, gen 0 j ≤ e.weight) →
        s.visited_matrix color e.vertex = false → P (s.activate color e.vertex)) →
      ∀ s, P s → ∃ s1, ic_neighbors gen G m color es s = .ok s1 ∧ P s1 := by
  intro es
  induction es with
  | nil => intro _ _ s hs; exact ⟨s, rfl, hs⟩
  | cons e es ih =>
    intro hes hact s hs
    have he : e.vertex < G.num_nodes := hes e (List.mem_cons_self _ _)
    have ih1 := ih (fun e1 h1 => hes e1 (List.mem_cons_of_mem _ h1))
      (fun s1 e1 h1 h2 h3 h4 => hact s1 e1 h1 (List.mem_cons_of_mem _ h2) h3 h4)
    simp only [ic_neighbors, hc, he, and_self, if_true]
    by_cases hv : s.visited_matrix color e.vertex = false
    · simp only [hv, if_true]
      by_cases hd : (s.value gen color 0).1 ≤ e.weight
      · simp only [hd, if_true]
        exact ih1 _ (hact _ e (hdraw s hs) (List.mem_cons_self _ _) ⟨_, hd⟩ hv)
      · simp only [hd, if_false]
        exact ih1 _ (hdraw s hs)
    · simp only [hv, if_false]
      exact ih1 s hs

theorem lt_neighbors_spec (G : Graph) (m color : Nat) (P : State → Prop) (hc : color < m) :
    ∀ (es : List Edge) (t : ℚ), (∀ e ∈ es, e.vertex < G.num_nodes) →
      (∀ s u, P s → lt_select es t = some u →
        s.visited_matrix color u = false → P (s.activate color u)) →
      ∀ s, P s → ∃ s1, lt_neighbors G m color es t s = .ok s1 ∧ P s1 := by
  intro es
  induction es with
  | nil => intro _ _ _ s hs; exact ⟨s, rfl, hs⟩
  | cons e es ih =>
    intro t hes hact s hs
    have he : e.vertex < G.num_nodes := hes e (List.mem_cons_self _ _)
    simp only [lt_neighbors]
    by_cases ht : t - e.weight > 0
    · simp only [ht, if_true]
      refine ih _ (fun e1 h1 => hes e1 (List.mem_cons_of_mem _ h1)) ?_ s hs
      intro s1 u h1 h2 h3
      exact hact s1 u h1 (by simp only [lt_select, ht, if_true]; exact h2) h3
    · simp only [ht, if_false, hc, he, and_self, if_true]
      by_cases hv : s.visited_matrix color e.vertex = false
      · simp only [hv, if_true]
        exact ⟨_, rfl, hact s e.vertex hs (by simp only [lt_select, ht, if_false]) hv⟩
      · simp only [hv, if_false]
        exact ⟨s, rfl, hs⟩

theorem expand_spec (tag : diff_model_tag) (gen : Nat → Nat → ℚ) (G : Graph) (m v color : Nat)
    (P : State → Prop) (htag : tag ≠ .unrecognised) (hwf : G.wf) (hc : color < m)
    (hdraw : ∀ s, P s → P (s.value gen color 0).2)
    (hact : ∀ s u, P s → fires tag gen G v u → s.visited_matrix color u = false →
      P (s.activate color u)) :
    ∀ s, P s → ∃ s1, expand tag gen G m v color s = .ok s1 ∧ P s1 := by
  intro s hs
  cases tag with
  | independent_cascade_tag =>
    refine ic_neighbors_spec gen G m color P hc hdraw _ (hwf v) ?_ s hs
    intro s1 e h1 h2 h3 h4
    exact hact s1 e.vertex h1 ⟨e, h2, rfl, h3⟩ h4
  | linear_threshold_tag =>
    refine lt_neighbors_spec G m color P hc _ _ (hwf v) ?_ _ (hdraw s hs)
    intro s1 u h1 h2 h3
    exact hact s1 u h1 ⟨_, h2⟩ h3
  | unrecognised => exact absurd rfl htag

theorem for_colors_spec (tag : diff_model_tag) (gen : Nat → Nat → ℚ) (G : Graph) (m v : Nat)
    (P : State → Prop) (htag : tag ≠ .unrecognised) (hwf : G.wf)
    (hdraw : ∀ c s, P s → P (s.value gen c 0).2) :
    ∀ (cs : List Nat), (∀ c ∈ cs, c < m) →
      (∀ s c u, P s → c ∈ cs → fires tag gen G v u → s.visited_matrix c u = false →
        P (s.activate c u)) →
      ∀ s, P s → ∃ s1, for_colors (expand tag gen G m v) cs s = .ok s1 ∧ P s1 := by
  intro cs
  induction cs with
  | nil => intro _ _ s hs; exact ⟨s, rfl, hs⟩
  | cons c cs ih =>
    intro hcs hact s hs
    obtain ⟨s1, h1, hP1⟩ := expand_spec tag gen G m v c P htag hwf
      (hcs c (List.mem_cons_self _ _)) (hdraw c)
      (fun s2 u h2 h3 h4 => hact s2 c u h2 (List.mem_cons_self _ _) h3 h4) s hs
    obtain ⟨s2, h2, hP2⟩ := ih (fun c1 hc1 => hcs c1 (List.mem_cons_of_mem _ hc1))
      (fun s3 c1 u h3 h4 h5 h6 => hact s3 c1 u h3 (List.mem_cons_of_mem _ h4) h5 h6) s1 hP1
    refine ⟨s2, ?_, hP2⟩
    simp only [for_colors, h1]
    exact h2

theorem visit_eq (tag : diff_model_tag) (gen : Nat → Nat → ℚ) (G : Graph) (m v : Nat)
    (s : State) (htag : tag ≠ .unrecognised) (h : (s.color_map v).getD 0 < 2 ^ 64) :
    visit tag gen G m v s
      = for_colors (expand tag gen G m v) (colors_below 64 ((s.color_map v).getD 0)) s := by
  cases tag with
  | independent_cascade_tag =>
    unfold visit
    exact color_loop_eq _ 64 (le_refl _) 64 _ _ h (le_refl _)
  | linear_threshold_tag =>
    unfold visit
    exact color_loop_eq _ 64 (le_refl _) 64 _ _ h (le_refl _)
  | unrecognised => exact absurd rfl htag

theorem has_color_zero (c : Nat) : ¬ has_color 0 c := by
  simp [has_color]

theorem has_color_bit {c : Nat} (hc : c < 64) (c1 : Nat) :
    has_color (1 <<< (63 - c)) c1 ↔ c1 = c := by
  unfold has_color
  rw [Nat.one_shiftLeft, Nat.testBit_two_pow]
  simp only [decide_eq_true_eq]
  omega

theorem has_color_or (a b c : Nat) : has_color (a ||| b) c ↔ has_color a c ∨ has_color b c := by
  unfold has_color
  rw [Nat.testBit_or]
  simp only [Bool.or_eq_true]
  tauto

theorem bit_lt (c : Nat) : 1 <<< (63 - c) < 2 ^ 64 := by
  rw [Nat.one_shiftLeft]
  exact Nat.pow_lt_pow_right (by decide) (by omega)

theorem colors_ok_getD {m : Nat} {cm : Nat → Option Nat} (h : colors_ok m cm) (v : Nat) :
    (cm v).getD 0 < 2 ^ 64 ∧ ∀ c, has_color ((cm v).getD 0) c →
      c < m ∧ ∃ mask, cm v = some mask ∧ has_color mask c := by
  cases hv : cm v with
  | none =>
    refine ⟨by simp, ?_⟩
    intro c hc
    exact absurd hc (has_color_zero c)
  | some mask =>
    refine ⟨(h v mask hv).1, ?_⟩
    intro c hc
    exact ⟨(h v mask hv).2 c hc, mask, rfl, hc⟩

/-- The rule for the traversal of the frontier: a predicate kept by every draw and by every
activation of a not yet visited `u` under a colour `c` carried by a frontier vertex `v` that
fires on `u`, is kept by the whole traversal, which ends normally. -/
theorem for_each_spec (tag : diff_model_tag) (gen : Nat → Nat → ℚ) (G : Graph) (m : Nat)
    (P : State → Prop) (htag : tag ≠ .unrecognised) (hwf : G.wf)
    (cm : Nat → Option Nat) (hcm : colors_ok m cm)
    (hdraw : ∀ c s, P s → P (s.value gen c 0).2) :
    ∀ (vs : List Nat),
      (∀ s c v u, P s → v ∈ vs → (∃ mask, cm v = some mask ∧ has_color mask c) →
        fires tag gen G v u → s.visited_matrix c u = false → P (s.activate c u)) →
      ∀ s, s.color_map = cm → P s →
        ∃ s1, for_each (visit tag gen G m) vs s = .ok s1 ∧ s1.color_map = cm ∧ P s1 := by
  intro vs
  induction vs with
  | nil => intro _ s hs hP; exact ⟨s, rfl, hs, hP⟩
  | cons v vs ih =>
    intro hact s hs hP
    have hv := colors_ok_getD hcm v
    have hlt : (s.color_map v).getD 0 < 2 ^ 64 := by rw [hs]; exact hv.1
    obtain ⟨s1, h1, hc1, hP1⟩ := for_colors_spec tag gen G m v
      (fun s1 => s1.color_map = cm ∧ P s1) htag hwf
      (fun c s1 h => ⟨h.1, hdraw c s1 h.2⟩)
      (colors_below 64 ((cm v).getD 0))
      (fun c hc => (hv.2 c ((mem_colors_below_64 _ _).1 hc)).1)
      (fun s1 c u h1 h2 h3 h4 =>
        ⟨h1.1, hact s1 c v u h1.2 (List.mem_cons_self _ _)
          (hv.2 c ((mem_colors_below_64 _ _).1 h2)).2 h3 h4⟩)
      s ⟨hs, hP⟩
    obtain ⟨s2, h2, hc2, hP2⟩ := ih
      (fun s3 c v1 u h3 h4 h5 h6 h7 => hact s3 c v1 u h3 (List.mem_cons_of_mem _ h4) h5 h6 h7)
      s1 hc1 hP1
    refine ⟨s2, ?_, hc2, hP2⟩
    simp only [for_each]
    rw [visit_eq tag gen G m v s htag hlt, hs, h1]
    exact h2

theorem Safe.colors_ok {G : Graph} {m : Nat} {O0 : Nat → List Nat} {root : Nat → Nat} {R : Nat → Nat → Prop}
    {s : State} (h : Safe G m O0 root R s) : colors_ok m s.color_map := by
  intro v mask hv
  exact ⟨(h.cmap v mask hv).1, fun c hc => (h.bound c v ((h.cmap v mask hv).2 c hc)).1⟩

theorem Safe.value {G : Graph} {m : Nat} {O0 : Nat → List Nat} {root : Nat → Nat} {R : Nat → Nat → Prop}
    {s : State} (h : Safe G m O0 root R s) (gen : Nat → Nat → ℚ) (c k : Nat) :
    Safe G m O0 root R (s.value gen c k).2 :=
  ⟨h.bound, h.out, h.reach, h.cmap, h.nmap, h.cfront, h.nfront⟩

theorem Safe.activate {G : Graph} {m : Nat} {O0 : Nat → List Nat} {root : Nat → Nat} {R : Nat → Nat → Prop}
    {s : State} (h : Safe G m O0 root R s) (hm : m ≤ 64) {c v u : Nat} (hc : c < m)
    (hu : u < G.num_nodes) (hv : s.visited_matrix c v = true) (hR : R v u)
    (hnew : s.visited_matrix c u = false) : Safe G m O0 root R (s.activate c u) := by
  have hc64 : c < 64 := lt_of_lt_of_le hc hm
  refine ⟨?_, ?_, ?_, ?_, ?_, ?_, ?_⟩
  · intro c1 v1 h1
    simp only [State.activate] at h1
    by_cases hcv : c1 = c ∧ v1 = u
    · rw [hcv.1, hcv.2]; exact ⟨hc, hu⟩
    · rw [if_neg hcv] at h1; exact h.bound c1 v1 h1
  · intro c1 hc1
    obtain ⟨l, hl, hnd, hmem⟩ := h.out c1 hc1
    simp only [State.activate]
    by_cases hcc : c1 = c
    · subst hcc
      have hnot : u ∉ l := by
        intro hin
        have := (hmem u).1 hin
        rw [hnew] at this
        exact Bool.noConfusion this
      refine ⟨l ++ [u], by simp [hl], ?_, ?_⟩
      · exact List.Nodup.append hnd (List.nodup_singleton u)
          (by
            intro x hx hx1
            rw [List.mem_singleton] at hx1
            subst hx1
            exact hnot hx)
      · intro v1
        simp only [List.mem_append, List.mem_singleton, true_and]
        by_cases hvu : v1 = u
        · simp [hvu]
        · simp [hvu, hmem v1]
    · refine ⟨l, by simp [hcc, hl], hnd, ?_⟩
      intro v1
      simp [hcc, hmem v1]
  · intro c1 v1 h1
    simp only [State.activate] at h1
    by_cases hcv : c1 = c ∧ v1 = u
    · rw [hcv.1, hcv.2]
      exact Relation.ReflTransGen.tail (h.reach c v hv) hR
    · rw [if_neg hcv] at h1; exact h.reach c1 v1 h1
  · intro v1 mask h1
    refine ⟨(h.cmap v1 mask h1).1, ?_⟩
    intro c1 hc1
    have := (h.cmap v1 mask h1).2 c1 hc1
    simp only [State.activate]
    by_cases hcv : c1 = c ∧ v1 = u
    · simp [hcv]
    · simp [hcv, this]
  · intro v1 mask h1
    simp only [State.activate] at h1 ⊢
    by_cases hvu : v1 = u
    · subst hvu
      simp only [if_true] at h1
      cases hold : s.new_color_map v1 with
      | none =>
        rw [hold] at h1
        simp only [Option.some.injEq] at h1
        subst h1
        refine ⟨bit_lt c, ?_⟩
        intro c1 hc1
        have := (has_color_bit hc64 c1).1 hc1
        simp [this]
      | some old =>
        rw [hold] at h1
        simp only [Option.some.injEq] at h1
        subst h1
        refine ⟨Nat.or_lt_two_pow (h.nmap v1 old hold).1 (bit_lt c), ?_⟩
        intro c1 hc1
        rcases (has_color_or _ _ _).1 hc1 with h2 | h2
        · have := (h.nmap v1 old hold).2 c1 h2
          by_cases hcc : c1 = c
          · simp [hcc]
          · simp [hcc, this]
        · have := (has_color_bit hc64 c1).1 h2
          simp [this]
    · simp only [hvu, if_false] at h1
      refine ⟨(h.nmap v1 mask h1).1, ?_⟩
      intro c1 hc1
      have := (h.nmap v1 mask h1).2 c1 hc1
      simp [hvu, this]
  · exact h.cfront
  · intro v1 h1
    simp only [State.activate] at h1 ⊢
    by_cases hvu : v1 = u
    · subst hvu
      cases hold : s.new_color_map v1 with
      | none => simp
      | some old =>
        simp only
        exact h.nfront v1 (by rw [hold]; simp)
    · simp only [hvu, if_false] at h1
      have := h.nfront v1 h1
      cases hold : s.new_color_map u with
      | none => simp [this]
      | some old => simpa using this

theorem total_succ (m : Nat) (s : State) : total (m + 1) s = total m s + (s.O m).length := by
  simp [total, List.range_succ]

theorem total_activate (m : Nat) (s : State) (c u : Nat) :
    total m (s.activate c u) = total m s + (if c < m then 1 else 0) := by
  induction m with
  | zero => simp [total]
  | succ m ih =>
    rw [total_succ, total_succ, ih]
    simp only [State.activate]
    by_cases h1 : m = c
    · subst h1
      simp
      omega
    · have h2 : (c < m + 1) = (c < m) := by
        apply propext
        constructor <;> intro h <;> omega
      simp only [h1, if_false, h2]
      omega

theorem new_frontier_activate (s : State) (c u : Nat) :
    (s.activate c u).new_frontier.length ≤ s.new_frontier.length + 1 := by
  simp only [State.activate]
  cases s.new_color_map u <;> simp

theorem length_le_of_nodup_lt {l : List Nat} {n : Nat} (hn : l.Nodup) (hb : ∀ x ∈ l, x < n) :
    l.length ≤ n := by
  have h1 : l.toFinset ⊆ Finset.range n := by
    intro x hx
    rw [List.mem_toFinset] at hx
    exact Finset.mem_range.2 (hb x hx)
  have h2 := Finset.card_le_card h1
  rw [List.toFinset_card_of_nodup hn, Finset.card_range] at h2
  exact h2

theorem total_le (G : Graph) (m : Nat) (O0 : Nat → List Nat) (s : State)
    (h : ∀ c, c < m → (s.O c).length ≤ (O0 c).length + G.num_nodes) :
    total m s ≤ total m (State.init O0) + m * G.num_nodes := by
  induction m with
  | zero => simp [total]
  | succ m ih =>
    rw [total_succ, total_succ, Nat.succ_mul]
    have h1 := ih (fun c hc => h c (Nat.lt_succ_of_lt hc))
    have h2 := h m (Nat.lt_succ_self m)
    have h3 : (State.init O0).O m = O0 m := rfl
    rw [h3]
    omega

theorem Safe.total_bound {G : Graph} {m : Nat} {O0 : Nat → List Nat} {root : Nat → Nat} {R : Nat → Nat → Prop}
    {s : State} (h : Safe G m O0 root R s) :
    total m s ≤ total m (State.init O0) + m * G.num_nodes := by
  apply ripples.total_le
  intro c hc
  obtain ⟨l, hl, hnd, hmem⟩ := h.out c hc
  rw [hl, List.length_append]
  have := length_le_of_nodup_lt hnd (fun x hx => (h.bound c x ((hmem x).1 hx)).2)
  omega

theorem mono_refl (s : State) : mono s s := fun _ _ h => h

theorem mono_trans {s s1 s2 : State} (h1 : mono s s1) (h2 : mono s1 s2) : mono s s2 :=
  fun c v h => h2 c v (h1 c v h)

theorem mono_activate (s : State) (c u : Nat) : mono s (s.activate c u) := by
  intro c1 v1 h
  simp only [State.activate]
  by_cases hcv : c1 = c ∧ v1 = u
  · simp [hcv]
  · simp [hcv, h]

theorem visited_activate (s : State) (c u : Nat) : (s.activate c u).visited_matrix c u = true := by
  simp [State.activate]

/-- One round keeps `Safe`, ends normally, and pushes at least as many vertices on the output
slots as it leaves on the next frontier. -/
theorem round_safe (tag : diff_model_tag) (gen : Nat → Nat → ℚ) (G : Graph) (m : Nat)
    (O0 : Nat → List Nat) (root : Nat → Nat) (htag : tag ≠ .unrecognised) (hwf : G.wf) (hm : m ≤ 64) (s : State)
    (h : Safe G m O0 root (fires tag gen G) s) :
    ∃ s1, round tag gen G m s = .ok s1 ∧ Safe G m O0 root (fires tag gen G) s1 ∧
      total m s + s1.frontier.length ≤ total m s1 ∧ mono s s1 := by
  have h0 : Mid G m O0 root (fires tag gen G) (total m s)
      { s with new_frontier := [], new_color_map := fun _ => none } ∧
      mono s { s with new_frontier := [], new_color_map := fun _ => none } := by
    refine ⟨⟨⟨h.bound, h.out, h.reach, h.cmap, ?_, h.cfront, ?_⟩, ?_⟩, mono_refl s⟩
    · intro v mask hv; exact Option.noConfusion hv
    · intro v hv; exact absurd rfl hv
    · simp [total]
  obtain ⟨s1, h1, hc1, hP1, hmono⟩ := for_each_spec tag gen G m
    (fun s1 => Mid G m O0 root (fires tag gen G) (total m s) s1 ∧ mono s s1)
    htag hwf s.color_map h.colors_ok
    (fun c s1 hs1 => ⟨⟨hs1.1.1.value gen c 0, hs1.1.2⟩, hs1.2⟩)
    s.frontier
    (by
      intro s1 c v u hs1 _ hcol hf hnew
      obtain ⟨mask, hmask, hcm⟩ := hcol
      have hvis : s.visited_matrix c v = true := (h.cmap v mask hmask).2 c hcm
      have hc : c < m := (h.bound c v hvis).1
      obtain ⟨e, he, heu⟩ := fires_edge hf
      have hu : u < G.num_nodes := heu ▸ hwf v e he
      refine ⟨⟨hs1.1.1.activate hm hc hu (hs1.2 c v hvis) hf hnew, ?_⟩,
        mono_trans hs1.2 (mono_activate s1 c u)⟩
      have ht := total_activate m s1 c u
      rw [if_pos hc] at ht
      have hn := new_frontier_activate s1 c u
      have := hs1.1.2
      omega)
    { s with new_frontier := [], new_color_map := fun _ => none } rfl h0
  refine ⟨{ s1 with
            color_map := s1.new_color_map
            new_color_map := s1.color_map
            frontier := s1.new_frontier
            new_frontier := s1.frontier }, by simp only [round, h1], ?_, ?_, hmono⟩
  · exact ⟨hP1.1.bound, hP1.1.out, hP1.1.reach, hP1.1.nmap, hP1.1.cmap,
      hP1.1.nfront, hP1.1.cfront⟩
  · exact hP1.2

theorem main_loop_nil (tag : diff_model_tag) (gen : Nat → Nat → ℚ) (G : Graph) (m fuel : Nat)
    (s : State) (h : s.frontier = []) : main_loop tag gen G m fuel s = .ok s := by
  cases fuel <;> simp [main_loop, h]

/-- The main loop ends normally within `m * num_nodes - total + 1` rounds (`total` counting
the vertices pushed so far), with an empty frontier; it keeps `Safe` and every predicate `P`
that each round keeps. -/
theorem main_loop_spec (tag : diff_model_tag) (gen : Nat → Nat → ℚ) (G : Graph) (m : Nat)
    (O0 : Nat → List Nat) (root : Nat → Nat) (htag : tag ≠ .unrecognised) (hwf : G.wf) (hm : m ≤ 64)
    (P : State → Prop)
    (hround : ∀ s s1, Safe G m O0 root (fires tag gen G) s → P s →
      round tag gen G m s = .ok s1 → P s1) :
    ∀ (fuel : Nat) (s : State), Safe G m O0 root (fires tag gen G) s → P s →
      total m (State.init O0) + m * G.num_nodes < total m s + fuel →
      ∃ s1, main_loop tag gen G m fuel s = .ok s1 ∧ Safe G m O0 root (fires tag gen G) s1 ∧
        P s1 ∧ s1.frontier = [] ∧ mono s s1 := by
  intro fuel
  induction fuel with
  | zero =>
    intro s hs _ hlt
    have := hs.total_bound
    omega
  | succ fuel ih =>
    intro s hs hP hlt
    by_cases hf : s.frontier = []
    · exact ⟨s, main_loop_nil tag gen G m _ s hf, hs, hP, hf, mono_refl s⟩
    · obtain ⟨s1, h1, hs1, hcount, hmono⟩ := round_safe tag gen G m O0 root htag hwf hm s hs
      have hP1 := hround s s1 hs hP h1
      have hlen : s.frontier.length ≠ 0 := fun h => hf (List.length_eq_zero.1 h)
      by_cases hf1 : s1.frontier = []
      · refine ⟨s1, ?_, hs1, hP1, hf1, hmono⟩
        simp only [main_loop, hlen, ne_eq, not_false_eq_true, if_true, h1]
        exact main_loop_nil tag gen G m _ s1 hf1
      · have hpos : 0 < s1.frontier.length := List.length_pos.2 hf1
        obtain ⟨s2, h2, hs2, hP2, hf2, hmono2⟩ := ih s1 hs1 hP1 (by omega)
        refine ⟨s2, ?_, hs2, hP2, hf2, mono_trans hmono hmono2⟩
        simp only [main_loop, hlen, ne_eq, not_false_eq_true, if_true, h1]
        exact h2

theorem clz_bit {i : Nat} (hi : i ≤ 63) : __builtin_clzl (1 <<< (63 - i)) = i := by
  rw [Nat.one_shiftLeft, clz_of_top (le_refl _)
    (Nat.pow_lt_pow_right (by decide) (Nat.lt_succ_self _)) (by omega)]
  omega

theorem bit_half {i : Nat} (hi : i < 63) : (1 <<< (63 - i)) / 2 = 1 <<< (63 - (i + 1)) := by
  rw [Nat.one_shiftLeft, Nat.one_shiftLeft]
  have h : 63 - i = (63 - (i + 1)) + 1 := by omega
  rw [h, pow_succ]
  simp

theorem root_of_append_length (pre : List Nat) (r : Nat) (rs : List Nat) :
    root_of (pre ++ r :: rs) pre.length = r := by
  unfold root_of
  induction pre with
  | nil => rfl
  | cons a pre ih => simpa using ih

theorem seed_roots_spec (G : Graph) (m : Nat) (O0 : Nat → List Nat) (roots : List Nat)
    (hm : m ≤ 64)
    (hr : ∀ r ∈ roots, r < G.num_nodes) :
    ∀ (rs pre : List Nat) (color : Nat) (s : State), roots = pre ++ rs →
      pre.length + rs.length = m → (rs ≠ [] → color = 1 <<< (63 - pre.length)) →
      Seeded G m O0 (root_of roots) pre.length s →
      ∃ s1, seed_roots G m rs color s = .ok s1 ∧ Seeded G m O0 (root_of roots) m s1 := by
  intro rs
  induction rs with
  | nil =>
    intro pre color s _ hlen _ hs
    simp only [List.length_nil, Nat.add_zero] at hlen
    rw [hlen] at hs
    exact ⟨s, rfl, hs⟩
  | cons r rs ih =>
    intro pre color s hroots hlen hcolor hs
    simp only [List.length_cons] at hlen
    have hi : pre.length < m := by omega
    have hi63 : pre.length ≤ 63 := by omega
    have hi64 : pre.length < 64 := by omega
    have hcol : color = 1 <<< (63 - pre.length) := hcolor (List.cons_ne_nil _ _)
    have hclz : __builtin_clzl color = pre.length := by rw [hcol]; exact clz_bit hi63
    have hrn : r < G.num_nodes := hr r (by rw [hroots]; simp)
    have hroot : root_of roots pre.length = r := by
      rw [hroots]; exact root_of_append_length pre r rs
    simp only [seed_roots, hclz, hi, hrn, and_self, if_true]
    refine ih (pre ++ [r]) (color / 2) _ (by rw [hroots]; simp) (by simp; omega) ?_ ?_
    · intro hne
      have : rs.length ≠ 0 := fun h => hne (List.length_eq_zero.1 h)
      have hlt : pre.length < 63 := by omega
      rw [hcol, bit_half hlt]
      simp
    · have hlen1 : (pre ++ [r]).length = pre.length + 1 := by simp
      rw [hlen1]
      refine ⟨?_, ?_, ?_, ?_, ?_, ?_, hs.nmap, hs.nfront, ?_, hs.nodraw⟩
      · intro c v
        simp only
        by_cases hcv : c = pre.length ∧ v = r
        · simp only [hcv, and_self, if_true, true_iff]
          exact ⟨by omega, hroot.symm⟩
        · rw [if_neg hcv, hs.vis c v]
          constructor
          · rintro ⟨h1, h2⟩; exact ⟨by omega, h2⟩
          · rintro ⟨h1, h2⟩
            refine ⟨?_, h2⟩
            by_contra hge
            have hc : c = pre.length := by omega
            exact hcv ⟨hc, by rw [h2, hc]; exact hroot⟩
      · intro c hc
        simp only
        by_cases hcc : c = pre.length
        · subst hcc
          rw [hs.out _ hc]
          simp [hroot]
        · rw [if_neg hcc, hs.out c hc]
          by_cases hlt : c < pre.length
          · simp [hlt, Nat.lt_succ_of_lt hlt]
          · have : ¬ c < pre.length + 1 := by omega
            simp [hlt, this]
      · intro v mask hv
        simp only at hv
        by_cases hvr : v = r
        · subst hvr
          simp only [if_true] at hv
          cases hold : s.color_map v with
          | none =>
            rw [hold] at hv
            simp only [Option.some.injEq] at hv
            subst hv
            refine ⟨by rw [hcol]; exact bit_lt _, ?_⟩
            intro c hc
            rw [hcol] at hc
            have := (has_color_bit hi64 c).1 hc
            subst this
            exact ⟨by omega, hroot⟩
          | some old =>
            rw [hold] at hv
            simp only [Option.some.injEq] at hv
            subst hv
            refine ⟨Nat.or_lt_two_pow (hs.cmap v old hold).1 (by rw [hcol]; exact bit_lt _), ?_⟩
            intro c hc
            rcases (has_color_or _ _ _).1 hc with h2 | h2
            · have := (hs.cmap v old hold).2 c h2
              exact ⟨by omega, this.2⟩
            · rw [hcol] at h2
              have := (has_color_bit hi64 c).1 h2
              subst this
              exact ⟨by omega, hroot⟩
        · simp only [hvr, if_false] at hv
          refine ⟨(hs.cmap v mask hv).1, ?_⟩
          intro c hc
          have := (hs.cmap v mask hv).2 c hc
          exact ⟨by omega, this.2⟩
      · intro c hc
        simp only
        by_cases hcc : c = pre.length
        · subst hcc
          rw [hroot]
          simp only [if_true]
          cases hold : s.color_map r with
          | none =>
            refine ⟨color, rfl, ?_⟩
            rw [hcol]; exact (has_color_bit hi64 _).2 rfl
          | some old =>
            refine ⟨old ||| color, rfl, ?_⟩
            rw [hcol]
            exact (has_color_or _ _ _).2 (Or.inr ((has_color_bit hi64 _).2 rfl))
        · have hlt : c < pre.length := by omega
          obtain ⟨mask, h1, h2⟩ := hs.chas c hlt
          by_cases hvr : root_of roots c = r
          · simp only [hvr, if_true]
            rw [hvr] at h1
            rw [h1]
            exact ⟨mask ||| color, rfl, (has_color_or _ _ _).2 (Or.inl h2)⟩
          · simp only [hvr, if_false]
            exact ⟨mask, h1, h2⟩
      · intro v hv
        simp only at hv ⊢
        by_cases hvr : v = r
        · subst hvr
          cases hold : s.color_map v with
          | none => simp
          | some old =>
            simp only
            exact hs.cfront v (by rw [hold]; simp)
        · simp only [hvr, if_false] at hv
          have := hs.cfront v hv
          cases hold : s.color_map r with
          | none => simp [this]
          | some old => simpa using this
      · intro _
        simp only
        cases hold : s.color_map r with
        | none => simp
        | some old =>
          simp only
          intro hnil
          have := hs.cfront r (by rw [hold]; simp)
          rw [hnil] at this
          exact absurd this (List.not_mem_nil _)
      · intro c hc
        by_cases hcc : c = pre.length
        · subst hcc; rw [hroot]; exact hrn
        · exact hs.rng c (by omega)

theorem within_refl (s : State) : within s s := ⟨rfl, mono_refl s⟩

theorem within_trans {s s1 s2 : State} (h1 : within s s1) (h2 : within s1 s2) : within s s2 :=
  ⟨h2.1.trans h1.1, mono_trans h1.2 h2.2⟩

theorem within_activate (s : State) (c u : Nat) : within s (s.activate c u) :=
  ⟨rfl, mono_activate s c u⟩

theorem within_value (gen : Nat → Nat → ℚ) (s : State) (c k : Nat) :
    within s (s.value gen c k).2 := ⟨rfl, fun _ _ h => h⟩

theorem ic_neighbors_closed (gen : Nat → Nat → ℚ) (G : Graph) (m color : Nat) :
    ∀ (es : List Edge), (∀ e ∈ es, ∀ j k, gen 0 j ≤ e.weight → gen 0 k ≤ e.weight) →
      ∀ s s1, ic_neighbors gen G m color es s = .ok s1 →
        within s s1 ∧
        ∀ e ∈ es, (∃ j, gen 0 j ≤ e.weight) → s1.visited_matrix color e.vertex = true := by
  intro es
  induction es with
  | nil =>
    intro _ s s1 h
    simp only [ic_neighbors, Except.ok.injEq] at h
    subst h
    exact ⟨within_refl s, fun e he => absurd he (List.not_mem_nil _)⟩
  | cons e es ih =>
    intro hins s s1 h
    have ih1 := ih (fun e1 h1 => hins e1 (List.mem_cons_of_mem _ h1))
    simp only [ic_neighbors] at h
    split_ifs at h with hb hv hd
    · obtain ⟨hw, hcl⟩ := ih1 _ _ h
      have hw1 : within s s1 :=
        within_trans (within_trans (within_value gen s color 0) (within_activate _ _ _)) hw
      refine ⟨hw1, ?_⟩
      intro e1 he1 hf
      rcases List.mem_cons.1 he1 with h1 | h1
      · subst h1
        exact hw.2 _ _ (visited_activate _ _ _)
      · exact hcl e1 h1 hf
    · obtain ⟨hw, hcl⟩ := ih1 _ _ h
      have hw1 : within s s1 := within_trans (within_value gen s color 0) hw
      refine ⟨hw1, ?_⟩
      intro e1 he1 hf
      rcases List.mem_cons.1 he1 with h1 | h1
      · subst h1
        obtain ⟨j, hj⟩ := hf
        exact absurd (hins e1 (List.mem_cons_self _ _) j _ hj) hd
      · exact hcl e1 h1 hf
    · obtain ⟨hw, hcl⟩ := ih1 _ _ h
      refine ⟨hw, ?_⟩
      intro e1 he1 hf
      rcases List.mem_cons.1 he1 with h1 | h1
      · subst h1
        have hv1 : s.visited_matrix color e1.vertex = true := by
          cases hx : s.visited_matrix color e1.vertex with
          | true => rfl
          | false => exact absurd hx hv
        exact hw.2 _ _ hv1
      · exact hcl e1 h1 hf

theorem lt_neighbors_closed (G : Graph) (m color : Nat) :
    ∀ (es : List Edge) (t : ℚ) (s s1 : State), lt_neighbors G m color es t s = .ok s1 →
      within s s1 ∧ ∀ u, lt_select es t = some u → s1.visited_matrix color u = true := by
  intro es
  induction es with
  | nil =>
    intro t s s1 h
    simp only [lt_neighbors, Except.ok.injEq] at h
    subst h
    exact ⟨within_refl s, fun u hu => by simp [lt_select] at hu⟩
  | cons e es ih =>
    intro t s s1 h
    simp only [lt_neighbors] at h
    split_ifs at h with ht hb hv
    · obtain ⟨hw, hcl⟩ := ih _ _ _ h
      refine ⟨hw, ?_⟩
      intro u hu
      simp only [lt_select, ht, if_true] at hu
      exact hcl u hu
    · simp only [Except.ok.injEq] at h
      subst h
      refine ⟨within_activate _ _ _, ?_⟩
      intro u hu
      simp only [lt_select, ht, if_false, Option.some.injEq] at hu
      subst hu
      exact visited_activate _ _ _
    · simp only [Except.ok.injEq] at h
      subst h
      refine ⟨within_refl _, ?_⟩
      intro u hu
      simp only [lt_select, ht, if_false, Option.some.injEq] at hu
      subst hu
      cases hx : s.visited_matrix color e.vertex with
      | true => rfl
      | false => exact absurd hx hv

theorem expand_closed (tag : diff_model_tag) (gen : Nat → Nat → ℚ) (G : Graph) (m v color : Nat)
    (hins : insensitive tag gen G) (s s1 : State)
    (h : expand tag gen G m v color s = .ok s1) :
    within s s1 ∧ ∀ u, fires tag gen G v u → s1.visited_matrix color u = true := by
  cases tag with
  | independent_cascade_tag =>
    obtain ⟨hw, hcl⟩ := ic_neighbors_closed gen G m color (G.neighbors v) (hins v) s s1 h
    refine ⟨hw, ?_⟩
    rintro u ⟨e, he, heu, hj⟩
    rw [← heu]
    exact hcl e he hj
  | linear_threshold_tag =>
    obtain ⟨hw, hcl⟩ := lt_neighbors_closed G m color (G.neighbors v) _ _ s1 h
    refine ⟨within_trans (within_value gen s color 0) hw, ?_⟩
    rintro u ⟨j, hj⟩
    apply hcl u
    rw [← hj]
    exact hins v _ _
  | unrecognised => simp [expand] at h

theorem for_colors_closed (tag : diff_model_tag) (gen : Nat → Nat → ℚ) (G : Graph) (m v : Nat)
    (hins : insensitive tag gen G) :
    ∀ (cs : List Nat) (s s1 : State), for_colors (expand tag gen G m v) cs s = .ok s1 →
      within s s1 ∧ ∀ c ∈ cs, ∀ u, fires tag gen G v u → s1.visited_matrix c u = true := by
  intro cs
  induction cs with
  | nil =>
    intro s s1 h
    simp only [for_colors, Except.ok.injEq] at h
    subst h
    exact ⟨within_refl s, fun c hc => absurd hc (List.not_mem_nil _)⟩
  | cons c cs ih =>
    intro s s1 h
    simp only [for_colors] at h
    cases h1 : expand tag gen G m v c s with
    | error e => rw [h1] at h; exact Except.noConfusion h
    | ok s2 =>
      rw [h1] at h
      obtain ⟨hw1, hcl1⟩ := expand_closed tag gen G m v c hins s s2 h1
      obtain ⟨hw2, hcl2⟩ := ih s2 s1 h
      refine ⟨within_trans hw1 hw2, ?_⟩
      intro c1 hc1 u hu
      rcases List.mem_cons.1 hc1 with h2 | h2
      · subst h2; exact hw2.2 _ _ (hcl1 u hu)
      · exact hcl2 c1 h2 u hu

theorem for_each_closed (tag : diff_model_tag) (gen : Nat → Nat → ℚ) (G : Graph) (m : Nat)
    (htag : tag ≠ .unrecognised) (hins : insensitive tag gen G)
    (cm : Nat → Option Nat) (hcm : colors_ok m cm) :
    ∀ (vs : List Nat) (s s1 : State), s.color_map = cm →
      for_each (visit tag gen G m) vs s = .ok s1 →
      within s s1 ∧ ∀ v ∈ vs, ∀ mask c, cm v = some mask → has_color mask c →
        ∀ u, fires tag gen G v u → s1.visited_matrix c u = true := by
  intro vs
  induction vs with
  | nil =>
    intro s s1 _ h
    simp only [for_each, Except.ok.injEq] at h
    subst h
    exact ⟨within_refl s, fun v hv => absurd hv (List.not_mem_nil _)⟩
  | cons v vs ih =>
    intro s s1 hs h
    simp only [for_each] at h
    have hlt : (s.color_map v).getD 0 < 2 ^ 64 := by rw [hs]; exact (colors_ok_getD hcm v).1
    rw [visit_eq tag gen G m v s htag hlt] at h
    cases h1 : for_colors (expand tag gen G m v) (colors_below 64 ((s.color_map v).getD 0)) s with
    | error e => rw [h1] at h; exact Except.noConfusion h
    | ok s2 =>
      rw [h1] at h
      obtain ⟨hw1, hcl1⟩ := for_colors_closed tag gen G m v hins _ s s2 h1
      obtain ⟨hw2, hcl2⟩ := ih s2 s1 (hw1.1.trans hs) h
      refine ⟨within_trans hw1 hw2, ?_⟩
      intro v1 hv1 mask c hmask hc u hu
      rcases List.mem_cons.1 hv1 with h2 | h2
      · subst h2
        refine hw2.2 _ _ (hcl1 c ?_ u hu)
        rw [mem_colors_below_64, hs, hmask]
        exact hc
      · exact hcl2 v1 h2 mask c hmask hc u hu

theorem Comp.keep_activate {R : Nat → Nat → Prop} {cm : Nat → Option Nat} {s : State}
    (h : Comp R cm s) {c : Nat} (hc : c < 64) (u : Nat) : Comp R cm (s.activate c u) := by
  intro c1 v1 h1
  by_cases hcv : c1 = c ∧ v1 = u
  · right; left
    rw [hcv.1, hcv.2]
    simp only [State.activate, if_true]
    cases hold : s.new_color_map u with
    | none => exact ⟨_, rfl, (has_color_bit hc c).2 rfl⟩
    | some old =>
      exact ⟨_, rfl, (has_color_or _ _ _).2 (Or.inr ((has_color_bit hc c).2 rfl))⟩
  · have h2 : s.visited_matrix c1 v1 = true := by
      simp only [State.activate] at h1
      rw [if_neg hcv] at h1
      exact h1
    rcases h c1 v1 h2 with h3 | ⟨mask, h3, h4⟩ | h3
    · exact Or.inl h3
    · right; left
      simp only [State.activate]
      by_cases hvu : v1 = u
      · subst hvu
        simp only [if_true, h3]
        exact ⟨_, rfl, (has_color_or _ _ _).2 (Or.inl h4)⟩
      · simp only [hvu, if_false]
        exact ⟨mask, h3, h4⟩
    · right; right
      intro u1 hu1
      exact mono_activate s c u _ _ (h3 u1 hu1)

theorem round_closed (tag : diff_model_tag) (gen : Nat → Nat → ℚ) (G : Graph) (m : Nat)
    (O0 : Nat → List Nat) (root : Nat → Nat) (htag : tag ≠ .unrecognised) (hwf : G.wf) (hm : m ≤ 64)
    (hins : insensitive tag gen G) (s s1 : State)
    (hs : Safe G m O0 root (fires tag gen G) s) (hcl : Closed (fires tag gen G) s)
    (h1 : round tag gen G m s = .ok s1) : Closed (fires tag gen G) s1 := by
  have h0 : Comp (fires tag gen G) s.color_map
      { s with new_frontier := [], new_color_map := fun _ => none } := by
    intro c v hv
    rcases hcl c v hv with h2 | h2
    · exact Or.inl h2
    · exact Or.inr (Or.inr h2)
  obtain ⟨s2, h2, _, hP2⟩ := for_each_spec tag gen G m
    (fun s1 => Comp (fires tag gen G) s.color_map s1)
    htag hwf s.color_map hs.colors_ok
    (fun c s1 hs1 => hs1)
    s.frontier
    (by
      intro s3 c v u hs3 _ hcol _ _
      obtain ⟨mask, hmask, hcm⟩ := hcol
      have hc : c < m := (hs.bound c v ((hs.cmap v mask hmask).2 c hcm)).1
      exact hs3.keep_activate (lt_of_lt_of_le hc hm) u)
    { s with new_frontier := [], new_color_map := fun _ => none } rfl h0
  obtain ⟨_, hcov⟩ := for_each_closed tag gen G m htag hins s.color_map hs.colors_ok
    s.frontier { s with new_frontier := [], new_color_map := fun _ => none } s2 rfl h2
  simp only [round, h2, Except.ok.injEq] at h1
  subst h1
  intro c v hv
  rcases hP2 c v hv with ⟨mask, h3, h4⟩ | h3 | h3
  · right
    intro u hu
    exact hcov v (hs.cfront v (by rw [h3]; simp)) mask c h3 h4 u hu
  · exact Or.inl h3
  · exact Or.inr h3

theorem Seeded.safe {G : Graph} {m : Nat} {root : Nat → Nat} {s : State}
    (h : Seeded G m O0 root m s) (R : Nat → Nat → Prop) : Safe G m O0 root R s := by
  refine ⟨?_, ?_, ?_, ?_, ?_, h.cfront, ?_⟩
  · intro c v hv
    obtain ⟨h1, h2⟩ := (h.vis c v).1 hv
    exact ⟨h1, h2 ▸ h.rng c h1⟩
  · intro c hc
    refine ⟨[root c], by rw [h.out c hc]; simp [hc], List.nodup_singleton _, ?_⟩
    intro v
    rw [h.vis c v]
    simp [hc]
  · intro c v hv
    obtain ⟨_, h2⟩ := (h.vis c v).1 hv
    rw [h2]
  · intro v mask hv
    refine ⟨(h.cmap v mask hv).1, ?_⟩
    intro c hc
    obtain ⟨h1, h2⟩ := (h.cmap v mask hv).2 c hc
    exact (h.vis c v).2 ⟨h1, h2.symm⟩
  · intro v mask hv
    rw [h.nmap v] at hv
    exact Option.noConfusion hv
  · intro v hv
    exact absurd (h.nmap v) hv

theorem Seeded.closed {G : Graph} {m : Nat} {root : Nat → Nat} {s : State}
    (h : Seeded G m O0 root m s) (R : Nat → Nat → Prop) : Closed R s := by
  intro c v hv
  obtain ⟨h1, h2⟩ := (h.vis c v).1 hv
  left
  rw [h2]
  exact h.chas c h1

theorem Seeded.total_eq {G : Graph} {m : Nat} {root : Nat → Nat} {s : State}
    (h : Seeded G m O0 root m s) :
    ripples.total m s = ripples.total m (State.init O0) + m := by
  have key : ∀ k, k ≤ m → ripples.total k s = ripples.total k (State.init O0) + k := by
    intro k
    induction k with
    | zero => intro _; simp [total]
    | succ k ih =>
      intro hk
      rw [total_succ, total_succ, ih (by omega), h.out k (by omega)]
      have h3 : (State.init O0).O k = O0 k := rfl
      rw [h3]
      simp [show k < m by omega]
      omega
  exact key m (le_refl m)

theorem Seeded.init (G : Graph) (m : Nat) (root : Nat → Nat) (O : Nat → List Nat) :
    Seeded G m O root 0 (State.init O) := by
  refine ⟨?_, ?_, ?_, ?_, ?_, ?_, ?_, rfl, ?_, ⟨rfl, fun _ => rfl⟩⟩
  · intro c v; simp [State.init]
  · intro c hc; simp [State.init]
  · intro v mask hv; simp [State.init] at hv
  · intro c hc; exact absurd hc (Nat.not_lt_zero c)
  · intro v hv; simp [State.init] at hv
  · intro h; exact absurd h (lt_irrefl 0)
  · intro v; rfl
  · intro c hc; exact absurd hc (Nat.not_lt_zero c)

/-- The run of `BatchedBFS` on a well-formed input: seeding succeeds, the main loop ends
normally within the given number of rounds, and the state `s2` at its end satisfies the
invariant, has an empty frontier, has every root visited under its colour, and satisfies
every predicate that holds after seeding and that each round keeps. -/
theorem BatchedBFS_rounds_spec (fuel : Nat) (G : Graph) (roots : List Nat) (O : Nat → List Nat)
    (gen : Nat → Nat → ℚ) (tag : diff_model_tag) (P : State → Prop)
    (hm1 : 0 < roots.length) (hm : roots.length ≤ 64) (hr : ∀ r ∈ roots, r < G.num_nodes)
    (hwf : G.wf) (htag : tag ≠ .unrecognised)
    (hfuel : roots.length * (G.num_nodes - 1) < fuel)
    (hinit : ∀ s, Seeded G roots.length O (root_of roots) roots.length s → P s)
    (hround : ∀ s s1, Safe G roots.length O (root_of roots) (fires tag gen G) s → P s →
      round tag gen G roots.length s = .ok s1 → P s1) :
    ∃ s2, BatchedBFS_rounds fuel G roots O gen tag = .ok (s2.sorted roots.length) ∧
      Safe G roots.length O (root_of roots) (fires tag gen G) s2 ∧ P s2 ∧ s2.frontier = [] ∧
      ∀ c, c < roots.length → s2.visited_matrix c (root_of roots c) = true := by
  obtain ⟨s1, h1, hseed⟩ := seed_roots_spec G roots.length O roots hm hr roots [] (1 <<< 63)
    (State.init O) rfl (by simp) (fun _ => rfl)
    (Seeded.init G roots.length (root_of roots) O)
  have hsafe := hseed.safe (fires tag gen G)
  have htot := hseed.total_eq
  have hlt : total roots.length (State.init O) + roots.length * G.num_nodes
      < total roots.length s1 + fuel := by
    rw [htot]
    cases hn : G.num_nodes with
    | zero => simp; omega
    | succ n =>
      rw [hn] at hfuel
      simp only [Nat.add_sub_cancel] at hfuel
      rw [Nat.mul_succ]
      omega
  obtain ⟨s2, h2, hsafe2, hP2, hf2, hmono⟩ := main_loop_spec tag gen G roots.length O
    (root_of roots) htag hwf hm P hround fuel s1 hsafe (hinit s1 hseed) hlt
  refine ⟨s2, ?_, hsafe2, hP2, hf2, ?_⟩
  · have hne : s1.frontier.length ≠ 0 := fun h => hseed.fne hm1 (List.length_eq_zero.1 h)
    simp only [BatchedBFS_rounds, hm, not_true_eq_false, if_false, h1, hne, ne_eq,
      not_false_eq_true, h2, State.sorted]
  · intro c hc
    exact hmono c _ ((hseed.vis c _).2 ⟨hc, rfl⟩)

/-! The final sort, and the faults that cannot occur. -/

theorem sorted_slot {G : Graph} {m : Nat} {O0 : Nat → List Nat} {root : Nat → Nat} {R : Nat → Nat → Prop}
    {s2 : State} (h : Safe G m O0 root R s2) {i : Nat} (hi : i < m) (h0 : O0 i = []) :
    ((s2.sorted m).O i).Sorted (· < ·) ∧
      ∀ v, v ∈ (s2.sorted m).O i ↔ s2.visited_matrix i v = true := by
  have hO : (s2.sorted m).O i = List.insertionSort (· ≤ ·) (s2.O i) := by
    simp [State.sorted, hi]
  have hperm := List.perm_insertionSort (· ≤ ·) (s2.O i)
  obtain ⟨l, hl, hnd, hmem⟩ := h.out i hi
  rw [h0, List.nil_append] at hl
  rw [hO]
  refine ⟨?_, ?_⟩
  · exact (List.sorted_insertionSort (· ≤ ·) (s2.O i)).lt_of_le
      (hperm.nodup_iff.2 (hl ▸ hnd))
  · intro v
    rw [hperm.mem_iff, hl]
    exact hmem v

theorem sorted_lt_ext {l1 l2 : List Nat} (h1 : l1.Sorted (· < ·)) (h2 : l2.Sorted (· < ·))
    (h : ∀ v, v ∈ l1 ↔ v ∈ l2) : l1 = l2 :=
  List.eq_of_perm_of_sorted ((List.perm_ext_iff_of_nodup h1.nodup h2.nodup).2 h) h1 h2

theorem ic_neighbors_fault (gen : Nat → Nat → ℚ) (G : Graph) (m color : Nat) :
    ∀ (es : List Edge) (s : State), ic_neighbors gen G m color es s ≠ .error .assertion := by
  intro es
  induction es with
  | nil => intro s h; simp [ic_neighbors] at h
  | cons e es ih =>
    intro s h
    simp only [ic_neighbors] at h
    split_ifs at h
    · exact ih _ h
    · exact ih _ h
    · exact ih _ h
    · simp at h

theorem lt_neighbors_fault (G : Graph) (m color : Nat) :
    ∀ (es : List Edge) (t : ℚ) (s : State),
      lt_neighbors G m color es t s ≠ .error .assertion := by
  intro es
  induction es with
  | nil => intro t s h; simp [lt_neighbors] at h
  | cons e es ih =>
    intro t s h
    simp only [lt_neighbors] at h
    split_ifs at h
    · exact ih _ _ h
    · simp at h

theorem color_loop_fault (body : Nat → State → Except Fault State)
    (hb : ∀ c s, body c s ≠ .error .assertion) :
    ∀ (fuel colors : Nat) (s : State), color_loop body fuel colors s ≠ .error .assertion := by
  intro fuel
  induction fuel with
  | zero =>
    intro colors s h
    simp only [color_loop] at h
    split_ifs at h
    simp at h
  | succ fuel ih =>
    intro colors s h
    simp only [color_loop] at h
    split_ifs at h
    cases hb1 : body (__builtin_clzl colors) s with
    | error e =>
      rw [hb1] at h
      simp only [Except.error.injEq] at h
      exact hb _ _ (h ▸ hb1)
    | ok s1 =>
      rw [hb1] at h
      exact ih _ _ h

theorem visit_fault (tag : diff_model_tag) (gen : Nat → Nat → ℚ) (G : Graph) (m v : Nat)
    (s : State) : visit tag gen G m v s ≠ .error .assertion := by
  cases tag with
  | independent_cascade_tag =>
    exact color_loop_fault _ (fun c s1 => ic_neighbors_fault gen G m c _ s1) _ _ _
  | linear_threshold_tag =>
    exact color_loop_fault _ (fun c s1 => lt_neighbors_fault G m c _ _ _) _ _ _
  | unrecognised => simp [visit]

theorem for_each_fault (f : Nat → State → Except Fault State)
    (hf : ∀ v s, f v s ≠ .error .assertion) :
    ∀ (vs : List Nat) (s : State), for_each f vs s ≠ .error .assertion := by
  intro vs
  induction vs with
  | nil => intro s h; simp [for_each] at h
  | cons v vs ih =>
    intro s h
    simp only [for_each] at h
    cases h1 : f v s with
    | error e =>
      rw [h1] at h
      simp only [Except.error.injEq] at h
      exact hf _ _ (h ▸ h1)
    | ok s1 =>
      rw [h1] at h
      exact ih _ h

theorem round_fault (tag : diff_model_tag) (gen : Nat → Nat → ℚ) (G : Graph) (m : Nat)
    (s : State) : round tag gen G m s ≠ .error .assertion := by
  intro h
  simp only [round] at h
  cases h1 : for_each (visit tag gen G m) s.frontier
      { s with new_frontier := [], new_color_map := fun _ => none } with
  | error e =>
    rw [h1] at h
    simp only [Except.error.injEq] at h
    exact for_each_fault _ (visit_fault tag gen G m) _ _ (h ▸ h1)
  | ok s1 =>
    rw [h1] at h
    simp at h

theorem main_loop_fault (tag : diff_model_tag) (gen : Nat → Nat → ℚ) (G : Graph) (m : Nat) :
    ∀ (fuel : Nat) (s : State), main_loop tag gen G m fuel s ≠ .error .assertion := by
  intro fuel
  induction fuel with
  | zero =>
    intro s h
    simp only [main_loop] at h
    split_ifs at h
    simp at h
  | succ fuel ih =>
    intro s h
    simp only [main_loop] at h
    split_ifs at h
    cases h1 : round tag gen G m s with
    | error e =>
      rw [h1] at h
      simp only [Except.error.injEq] at h
      exact round_fault tag gen G m s (h ▸ h1)
    | ok s1 =>
      rw [h1] at h
      exact ih _ h

theorem seed_roots_fault (G : Graph) (m : Nat) :
    ∀ (rs : List Nat) (color : Nat) (s : State),
      seed_roots G m rs color s ≠ .error .assertion := by
  intro rs
  induction rs with
  | nil => intro color s h; simp [seed_roots] at h
  | cons r rs ih =>
    intro color s h
    simp only [seed_roots] at h
    split_ifs at h
    · exact ih _ _ h
    · simp at h

theorem seed_roots_frontier (G : Graph) (m : Nat) :
    ∀ (rs : List Nat) (color : Nat) (s s1 : State),
      (∀ v, s.color_map v ≠ none → v ∈ s.frontier) → seed_roots G m rs color s = .ok s1 →
      (rs ≠ [] ∨ s.frontier ≠ []) → s1.frontier ≠ [] := by
  intro rs
  induction rs with
  | nil =>
    intro color s s1 _ h hne
    simp only [seed_roots, Except.ok.injEq] at h
    subst h
    rcases hne with h1 | h1
    · exact absurd rfl h1
    · exact h1
  | cons r rs ih =>
    intro color s s1 hcf h _
    simp only [seed_roots] at h
    split_ifs at h
    refine ih _ _ _ ?_ h (Or.inr ?_)
    · intro v hv
      simp only at hv ⊢
      by_cases hvr : v = r
      · subst hvr
        cases hold : s.color_map v with
        | none => simp
        | some old =>
          simp only
          exact hcf v (by rw [hold]; simp)
      · simp only [hvr, if_false] at hv
        have := hcf v hv
        cases hold : s.color_map r with
        | none => simp [this]
        | some old => simpa using this
    · simp only
      cases hold : s.color_map r with
      | none => simp
      | some old =>
        simp only
        intro hnil
        have := hcf r (by rw [hold]; simp)
        rw [hnil] at this
        exact absurd this (List.not_mem_nil _)

/-- The first assertion fails exactly for more than 64 roots, the second exactly for no root;
no other fault of the embedding is an assertion failure. -/
theorem BatchedBFS_rounds_assertion (fuel : Nat) (G : Graph) (roots : List Nat)
    (O : Nat → List Nat) (gen : Nat → Nat → ℚ) (tag : diff_model_tag) :
    BatchedBFS_rounds fuel G roots O gen tag = .error .assertion ↔
      (roots.length = 0 ∨ 64 < roots.length) := by
  constructor
  · intro h
    by_contra hcon
    have hm : roots.length ≤ 64 := by omega
    have hne : roots ≠ [] := fun h0 => hcon (Or.inl (by rw [h0]; rfl))
    simp only [BatchedBFS_rounds, hm, not_true_eq_false, if_false] at h
    cases h1 : seed_roots G roots.length roots (1 <<< 63) (State.init O) with
    | error e =>
      rw [h1] at h
      simp only [Except.error.injEq] at h
      exact seed_roots_fault G _ _ _ _ (h ▸ h1)
    | ok s1 =>
      rw [h1] at h
      have hf : s1.frontier ≠ [] :=
        seed_roots_frontier G _ roots _ _ s1 (fun v hv => absurd rfl hv) h1 (Or.inl hne)
      have hlen : s1.frontier.length ≠ 0 := fun h0 => hf (List.length_eq_zero.1 h0)
      simp only [hlen, ne_eq, not_false_eq_true, not_true_eq_false, if_false] at h
      cases h2 : main_loop tag gen G roots.length fuel s1 with
      | error e =>
        rw [h2] at h
        simp only [Except.error.injEq] at h
        exact main_loop_fault tag gen G _ _ _ (h ▸ h2)
      | ok s2 =>
        rw [h2] at h
        simp at h
  · rintro (h | h)
    · have h0 : roots = [] := List.length_eq_zero.1 h
      subst h0
      simp [BatchedBFS_rounds, seed_roots, State.init]
    · have : ¬ roots.length ≤ 64 := by omega
      simp [BatchedBFS_rounds, this]

/-! What a call returns. -/

/-- A call on a well-formed input returns normally; every output slot is strictly ascending,
contains its root, and contains only vertices that the root reaches along firing edges. -/
theorem BatchedBFS_sound (G : Graph) (roots : List Nat) (O : Nat → List Nat)
    (gen : Nat → Nat → ℚ) (tag : diff_model_tag)
    (hm1 : 0 < roots.length) (hm : roots.length ≤ 64) (hr : ∀ r ∈ roots, r < G.num_nodes)
    (hwf : G.wf) (htag : tag ≠ .unrecognised) (hO : ∀ i, i < roots.length → O i = []) :
    ∃ s, BatchedBFS G roots O gen tag = .ok s ∧ ∀ i, i < roots.length →
      (s.O i).Sorted (· < ·) ∧ root_of roots i ∈ s.O i ∧
      ∀ v, v ∈ s.O i → Relation.ReflTransGen (fires tag gen G) (root_of roots i) v := by
  obtain ⟨s2, h2, hsafe, _, _, hroot⟩ := BatchedBFS_rounds_spec
    (roots.length * G.num_nodes + 1) G roots O gen tag (fun _ => True) hm1 hm hr hwf htag
    (by
      have : roots.length * (G.num_nodes - 1) ≤ roots.length * G.num_nodes :=
        Nat.mul_le_mul_left _ (Nat.sub_le _ _)
      omega)
    (fun _ _ => trivial) (fun _ _ _ _ _ => trivial)
  refine ⟨_, h2, ?_⟩
  intro i hi
  obtain ⟨hsorted, hmem⟩ := sorted_slot hsafe hi (hO i hi)
  exact ⟨hsorted, (hmem _).2 (hroot i hi), fun v hv => hsafe.reach i v ((hmem v).1 hv)⟩

/-- When the outcome of the tests does not depend on the value drawn, output slot `i` is the
strictly ascending list of the vertices that root `i` reaches along firing edges. -/
theorem BatchedBFS_insensitive (G : Graph) (roots : List Nat) (O : Nat → List Nat)
    (gen : Nat → Nat → ℚ) (tag : diff_model_tag)
    (hm1 : 0 < roots.length) (hm : roots.length ≤ 64) (hr : ∀ r ∈ roots, r < G.num_nodes)
    (hwf : G.wf) (htag : tag ≠ .unrecognised) (hO : ∀ i, i < roots.length → O i = [])
    (hins : insensitive tag gen G) :
    ∃ s, BatchedBFS G roots O gen tag = .ok s ∧ ∀ i, i < roots.length →
      (s.O i).Sorted (· < ·) ∧
      ∀ v, v ∈ s.O i ↔ Relation.ReflTransGen (fires tag gen G) (root_of roots i) v := by
  obtain ⟨s2, h2, hsafe, hclosed, hfr, hroot⟩ := BatchedBFS_rounds_spec
    (roots.length * G.num_nodes + 1) G roots O gen tag (Closed (fires tag gen G))
    hm1 hm hr hwf htag
    (by
      have : roots.length * (G.num_nodes - 1) ≤ roots.length * G.num_nodes :=
        Nat.mul_le_mul_left _ (Nat.sub_le _ _)
      omega)
    (fun s hs => hs.closed _)
    (fun s s1 hs hP h => round_closed tag gen G _ O _ htag hwf hm hins s s1 hs hP h)
  refine ⟨_, h2, ?_⟩
  intro i hi
  obtain ⟨hsorted, hmem⟩ := sorted_slot hsafe hi (hO i hi)
  refine ⟨hsorted, ?_⟩
  intro v
  rw [hmem v]
  constructor
  · exact hsafe.reach i v
  · intro hreach
    induction hreach with
    | refl => exact hroot i hi
    | tail _ hbc ih =>
      rcases hclosed i _ ih with ⟨mask, hmask, _⟩ | hcl
      · have := hsafe.cfront _ (by rw [hmask]; simp)
        rw [hfr] at this
        exact absurd this (List.not_mem_nil _)
      · exact hcl _ hbc

/-- A call with 1 to 64 in-range roots on a well-formed graph returns normally, whatever the
output slots hold on entry. -/
theorem BatchedBFS_normal (G : Graph) (roots : List Nat) (O : Nat → List Nat)
    (gen : Nat → Nat → ℚ) (tag : diff_model_tag)
    (hm1 : 0 < roots.length) (hm : roots.length ≤ 64) (hr : ∀ r ∈ roots, r < G.num_nodes)
    (hwf : G.wf) (htag : tag ≠ .unrecognised) :
    ∃ s, BatchedBFS G roots O gen tag = .ok s := by
  obtain ⟨s2, h2, _⟩ := BatchedBFS_rounds_spec
    (roots.length * G.num_nodes + 1) G roots O gen tag (fun _ => True) hm1 hm hr hwf htag
    (by
      have : roots.length * (G.num_nodes - 1) ≤ roots.length * G.num_nodes :=
        Nat.mul_le_mul_left _ (Nat.sub_le _ _)
      omega)
    (fun _ _ => trivial) (fun _ _ _ _ _ => trivial)
  exact ⟨_, h2⟩

theorem recognised {tag : diff_model_tag}
    (h : tag = .independent_cascade_tag ∨ tag = .linear_threshold_tag) :
    tag ≠ .unrecognised := by
  rcases h with h | h <;> rw [h] <;> decide

theorem graph_of_wf (adj : List (List Edge))
    (h : ∀ l ∈ adj, ∀ e ∈ l, e.vertex < adj.length) : (graph_of adj).wf := by
  intro v e he
  simp only [graph_of] at he ⊢
  by_cases hv : v < adj.length
  · rw [List.getD_eq_getElem _ _ hv] at he
    exact h _ (List.getElem_mem _) e he
  · rw [List.getD_eq_default _ _ (by omega)] at he
    exact absurd he (List.not_mem_nil _)

theorem path_a_wf : path_a.wf := graph_of_wf _ (by decide)

/-- C1: for every graph, every batch of 1..64 in-range roots, either diffusion model and every
stream of draws, when the output slots are empty on entry, `BatchedBFS` returns normally and
each of its `m` output sequences is strictly ascending in vertex id. -/
theorem C1_outputs_strictly_ascending (G : Graph) (roots : List Nat) (O : Nat → List Nat)
    (gen : Nat → Nat → ℚ) (tag : diff_model_tag)
    (hm1 : 1 ≤ roots.length) (hm : roots.length ≤ 64) (hr : ∀ r ∈ roots, r < G.num_nodes)
    (hwf : G.wf) (htag : tag = .independent_cascade_tag ∨ tag = .linear_threshold_tag)
    (hO : ∀ i, i < roots.length → O i = []) :
    ∃ s, BatchedBFS G roots O gen tag = .ok s ∧
      (s.outputs roots.length).length = roots.length ∧
      ∀ o ∈ s.outputs roots.length, o.Sorted (· < ·) := by
  obtain ⟨s, hs, hall⟩ := BatchedBFS_sound G roots O gen tag hm1 hm hr hwf (recognised htag) hO
  refine ⟨s, hs, by simp [State.outputs], ?_⟩
  intro o ho
  simp only [State.outputs, List.mem_map, List.mem_range] at ho
  obtain ⟨i, hi, rfl⟩ := ho
  exact (hall i hi).1

theorem C1_witness :
    ∃ s, BatchedBFS path_a [3, 0] (fun _ => []) (fun _ _ => 1 / 2) .linear_threshold_tag = .ok s ∧
      (s.outputs 2).length = 2 ∧ ∀ o ∈ s.outputs 2, o.Sorted (· < ·) :=
  C1_outputs_strictly_ascending path_a [3, 0] (fun _ => []) (fun _ _ => 1 / 2)
    .linear_threshold_tag (by decide) (by decide) (by decide) path_a_wf (Or.inr rfl)
    (fun _ _ => rfl)

/-- The seeding loop gives root number `i` the colour `i`: bit `63 - i` of the word that
`color_map` holds for the root is set, also when several roots coincide, and the root is marked
visited under that colour. -/
theorem seed_roots_colors (G : Graph) (roots : List Nat) (O : Nat → List Nat)
    (hm : roots.length ≤ 64) (hr : ∀ r ∈ roots, r < G.num_nodes) :
    ∃ s0, seed_roots G roots.length roots (1 <<< 63) (State.init O) = .ok s0 ∧
      ∀ i, i < roots.length →
        (∃ mask, s0.color_map (root_of roots i) = some mask ∧ has_color mask i) ∧
        s0.visited_matrix i (root_of roots i) = true := by
  obtain ⟨s1, h1, hseed⟩ := seed_roots_spec G roots.length O roots hm hr roots [] (1 <<< 63)
    (State.init O) rfl (by simp) (fun _ => rfl)
    (Seeded.init G roots.length (root_of roots) O)
  exact ⟨s1, h1, fun i hi => ⟨hseed.chas i hi, (hseed.vis i _).2 ⟨hi, rfl⟩⟩⟩

/-- C3: for every graph, either diffusion model, every stream of draws and every batch of
1..64 in-range roots, the seeding loop gives root number `i` its own colour bit `i`, counted
from the most significant bit (coinciding roots included), output slot `i` of `BatchedBFS`
(empty on entry) contains root `i`, and every vertex of output slot `i` is reachable from
root `i` along neighbour edges of the graph. -/
theorem C3_outputs_reachable_from_root (G : Graph) (roots : List Nat) (O : Nat → List Nat)
    (gen : Nat → Nat → ℚ) (tag : diff_model_tag)
    (hm1 : 1 ≤ roots.length) (hm : roots.length ≤ 64) (hr : ∀ r ∈ roots, r < G.num_nodes)
    (hwf : G.wf) (htag : tag = .independent_cascade_tag ∨ tag = .linear_threshold_tag)
    (hO : ∀ i, i < roots.length → O i = []) :
    (∃ s0, seed_roots G roots.length roots (1 <<< 63) (State.init O) = .ok s0 ∧
      ∀ i, i < roots.length →
        ∃ mask, s0.color_map (root_of roots i) = some mask ∧ has_color mask i) ∧
    ∃ s, BatchedBFS G roots O gen tag = .ok s ∧ ∀ i, i < roots.length →
      root_of roots i ∈ s.O i ∧ ∀ v, v ∈ s.O i → Reach G (root_of roots i) v := by
  obtain ⟨s, hs, hall⟩ := BatchedBFS_sound G roots O gen tag hm1 hm hr hwf (recognised htag) hO
  obtain ⟨s0, hs0, hcol⟩ := seed_roots_colors G roots O hm hr
  refine ⟨⟨s0, hs0, fun i hi => (hcol i hi).1⟩, s, hs, ?_⟩
  intro i hi
  refine ⟨(hall i hi).2.1, ?_⟩
  intro v hv
  exact Relation.ReflTransGen.mono (fun _ _ h => fires_edge h) ((hall i hi).2.2 v hv)

theorem C3_witness :
    (∃ s0, seed_roots path_a 3 [2, 2, 3] (1 <<< 63) (State.init (fun _ => [])) = .ok s0 ∧
      ∀ i, i < 3 → ∃ mask, s0.color_map (root_of [2, 2, 3] i) = some mask ∧ has_color mask i) ∧
    ∃ s, BatchedBFS path_a [2, 2, 3] (fun _ => []) (fun _ _ => 1 / 2)
        .independent_cascade_tag = .ok s ∧ ∀ i, i < 3 →
      root_of [2, 2, 3] i ∈ s.O i ∧ ∀ v, v ∈ s.O i → Reach path_a (root_of [2, 2, 3] i) v :=
  C3_outputs_reachable_from_root path_a [2, 2, 3] (fun _ => []) (fun _ _ => 1 / 2)
    .independent_cascade_tag (by decide) (by decide) (by decide) path_a_wf (Or.inl rfl)
    (fun _ _ => rfl)

/-- C7: `BatchedBFS` fails on an assertion if and only if the number `m` of roots is 0 or
greater than 64; for every batch of 1..64 in-range roots and a recognised diffusion model it
returns normally, with `m` outputs. -/
theorem C7_assertion_iff_batch_size (G : Graph) (roots : List Nat) (O : Nat → List Nat)
    (gen : Nat → Nat → ℚ) (tag : diff_model_tag) :
    (BatchedBFS G roots O gen tag = .error .assertion ↔
      (roots.length = 0 ∨ 64 < roots.length)) ∧
    (1 ≤ roots.length → roots.length ≤ 64 → (∀ r ∈ roots, r < G.num_nodes) → G.wf →
      (tag = .independent_cascade_tag ∨ tag = .linear_threshold_tag) →
      ∃ s, BatchedBFS G roots O gen tag = .ok s ∧
        (s.outputs roots.length).length = roots.length) := by
  refine ⟨BatchedBFS_rounds_assertion _ G roots O gen tag, ?_⟩
  intro hm1 hm hr hwf htag
  obtain ⟨s, hs⟩ := BatchedBFS_normal G roots O gen tag hm1 hm hr hwf (recognised htag)
  exact ⟨s, hs, by simp [State.outputs]⟩

theorem C7_witness :
    (BatchedBFS path_a [] (fun _ => []) (fun _ _ => 1 / 2) .independent_cascade_tag
        = .error .assertion) ∧
    ∃ s, BatchedBFS path_a [3, 1] (fun _ => [7]) (fun _ _ => 1 / 2)
        .independent_cascade_tag = .ok s ∧ (s.outputs 2).length = 2 :=
  ⟨(C7_assertion_iff_batch_size path_a [] (fun _ => []) (fun _ _ => 1 / 2)
      .independent_cascade_tag).1.2 (Or.inl rfl),
   (C7_assertion_iff_batch_size path_a [3, 1] (fun _ => [7]) (fun _ _ => 1 / 2)
      .independent_cascade_tag).2 (by decide) (by decide) (by decide) path_a_wf (Or.inl rfl)⟩

/-- A predicate on the state that every draw and every activation keep, and that only looks
at the visited marks, the output slots and the generator, is kept by a round. -/
theorem round_keeps (tag : diff_model_tag) (gen : Nat → Nat → ℚ) (G : Graph) (m : Nat)
    (O0 : Nat → List Nat) (root : Nat → Nat) (htag : tag ≠ .unrecognised) (hwf : G.wf)
    (P : State → Prop)
    (hdraw : ∀ c s, P s → P (s.value gen c 0).2)
    (hact : ∀ s c u, P s → P (s.activate c u))
    (hframe : ∀ s s1 : State, s1.pos = s.pos → s1.draws = s.draws →
      s1.visited_matrix = s.visited_matrix → s1.O = s.O → P s → P s1)
    (s s1 : State) (hs : Safe G m O0 root (fires tag gen G) s) (hP : P s)
    (h : round tag gen G m s = .ok s1) : P s1 := by
  obtain ⟨s2, h2, _, hP2⟩ := for_each_spec tag gen G m P htag hwf s.color_map hs.colors_ok
    hdraw s.frontier (fun s3 c _ u h3 _ _ _ _ => hact s3 c u h3)
    { s with new_frontier := [], new_color_map := fun _ => none } rfl
    (hframe s _ rfl rfl rfl rfl hP)
  simp only [round, h2, Except.ok.injEq] at h
  subst h
  exact hframe s2 _ rfl rfl rfl rfl hP2

theorem engine_zero_value (gen : Nat → Nat → ℚ) (c : Nat) (s : State) (h : engine_zero s) :
    engine_zero (s.value gen c 0).2 := by
  refine ⟨?_, ?_⟩
  · intro d hd
    simp only [State.value, List.mem_append, List.mem_singleton] at hd
    rcases hd with hd | hd
    · exact h.1 d hd
    · rw [hd]
  · intro k hk
    simp only [State.value, Function.update_noteq hk]
    exact h.2 k hk

/-- Every draw of a call is taken from engine 0, and no other engine is advanced. -/
theorem BatchedBFS_engine_zero (G : Graph) (roots : List Nat) (O : Nat → List Nat)
    (gen : Nat → Nat → ℚ) (tag : diff_model_tag)
    (hm1 : 0 < roots.length) (hm : roots.length ≤ 64) (hr : ∀ r ∈ roots, r < G.num_nodes)
    (hwf : G.wf) (htag : tag ≠ .unrecognised) :
    ∃ s, BatchedBFS G roots O gen tag = .ok s ∧ engine_zero s := by
  obtain ⟨s2, h2, _, hP, _⟩ := BatchedBFS_rounds_spec
    (roots.length * G.num_nodes + 1) G roots O gen tag engine_zero hm1 hm hr hwf htag
    (by
      have : roots.length * (G.num_nodes - 1) ≤ roots.length * G.num_nodes :=
        Nat.mul_le_mul_left _ (Nat.sub_le _ _)
      omega)
    (fun s hs => by
      refine ⟨?_, fun k _ => hs.nodraw.2 k⟩
      rw [hs.nodraw.1]
      intro d hd
      exact absurd hd (List.not_mem_nil _))
    (fun s s1 hs hP h => round_keeps tag gen G _ O _ htag hwf engine_zero
      (engine_zero_value gen)
      (fun s3 c u h3 => h3)
      (by
        intro s3 s4 hpos hdraws _ _ h3
        unfold engine_zero
        rw [hpos, hdraws]
        exact h3)
      s s1 hs hP h)
  exact ⟨_, h2, hP⟩

theorem clz_word_0 : __builtin_clzl 9223372036854775808 = 0 := by decide

theorem path_a_edges (v : Nat) (e : Edge) (he : e ∈ path_a.neighbors v) : e.weight = 1 := by
  simp only [path_a, graph_of] at he
  by_cases hv : v < 4
  · interval_cases v <;> simp at he <;> simp [he]
  · rw [List.getD_eq_default _ _ (by simpa using hv)] at he
    exact absurd he (List.not_mem_nil _)

/-- C2: under independent cascade, for every graph whose edge weights are all `1.0`, every
batch of 1..64 in-range roots and every stream of draws in `[0,1)`, the output of `BatchedBFS`
for root `i` (slot `i`, empty on entry) is exactly the set of vertices reachable from root `i`
along neighbour edges, root included; and on the path `0→1→2→3` (transposed neighbours
`3:[2]`, `2:[1]`, `1:[0]`) the single root `3` gives `[0,1,2,3]`. -/
theorem C2_unit_weights_give_reachable_set :
    (∀ (G : Graph) (roots : List Nat) (O : Nat → List Nat) (gen : Nat → Nat → ℚ),
      1 ≤ roots.length → roots.length ≤ 64 → (∀ r ∈ roots, r < G.num_nodes) → G.wf →
      (∀ v, ∀ e ∈ G.neighbors v, e.weight = 1) → (∀ k j, 0 ≤ gen k j ∧ gen k j < 1) →
      (∀ i, i < roots.length → O i = []) →
      ∃ s, BatchedBFS G roots O gen .independent_cascade_tag = .ok s ∧
        ∀ i, i < roots.length → ∀ v, v ∈ s.O i ↔ Reach G (root_of roots i) v) ∧
    (∀ gen : Nat → Nat → ℚ, (∀ k j, 0 ≤ gen k j ∧ gen k j < 1) →
      outputs_of (BatchedBFS path_a [3] (fun _ => []) gen .independent_cascade_tag) 1
        = some [[0, 1, 2, 3]]) := by
  constructor
  · intro G roots O gen hm1 hm hr hwf hw hgen hO
    have hins : insensitive .independent_cascade_tag gen G := by
      intro v e he j k _
      rw [hw v e he]
      exact le_of_lt (hgen 0 k).2
    obtain ⟨s, hs, hall⟩ := BatchedBFS_insensitive G roots O gen .independent_cascade_tag
      hm1 hm hr hwf (by decide) hO hins
    refine ⟨s, hs, ?_⟩
    intro i hi v
    rw [(hall i hi).2 v]
    have hrel : ∀ a b, fires .independent_cascade_tag gen G a b ↔ G.edge a b := by
      intro a b
      constructor
      · exact fires_edge
      · rintro ⟨e, he, heb⟩
        exact ⟨e, he, heb, 0, by rw [hw a e he]; exact le_of_lt (hgen 0 0).2⟩
    constructor
    · exact Relation.ReflTransGen.mono (fun a b h => (hrel a b).1 h)
    · exact Relation.ReflTransGen.mono (fun a b h => (hrel a b).2 h)
  · intro gen h
    have h1 : ∀ k j, gen k j ≤ 1 := fun k j => le_of_lt (h k j).2
    simp [BatchedBFS, BatchedBFS_rounds, seed_roots, path_a, graph_of, State.init, main_loop,
      round, for_each, visit, color_loop, for_colors, ic_neighbors, State.value,
      State.activate, h1, outputs_of, State.outputs, List.range_succ, clz_word_0]

theorem C2_witness :
    (∃ s, BatchedBFS path_a [3] (fun _ => []) (fun _ _ => 1 / 2) .independent_cascade_tag
        = .ok s ∧ ∀ i, i < 1 → ∀ v, v ∈ s.O i ↔ Reach path_a (root_of [3] i) v) ∧
    outputs_of (BatchedBFS path_a [3] (fun _ => []) (fun _ _ => 1 / 2)
      .independent_cascade_tag) 1 = some [[0, 1, 2, 3]] :=
  ⟨C2_unit_weights_give_reachable_set.1 path_a [3] (fun _ => []) (fun _ _ => 1 / 2)
      (by decide) (by decide) (by decide) path_a_wf path_a_edges
      (fun _ _ => by norm_num) (fun _ _ => rfl),
   C2_unit_weights_give_reachable_set.2 (fun _ _ => 1 / 2) (fun _ _ => by norm_num)⟩

theorem root_of_mem (roots : List Nat) (i : Nat) (hi : i < roots.length) :
    root_of roots i ∈ roots := by
  unfold root_of
  rw [List.getD_eq_getElem _ _ hi]
  exact List.getElem_mem _

theorem fork_wf : fork.wf := graph_of_wf _ (by decide)

/-- C4, as stated, fails: with roots `[0, 1]` on `fork` the output for root 1 is `[1, 3]`,
because colour 1 gets the second value of engine 0; the single-root run with root 1 gives `[1]`,
whether it is given the engines of the batch or those shifted by one slot; and with the other
root replaced by 2 the output for root 1 is `[1]`. -/
theorem C4_counterexample :
    outputs_of (BatchedBFS fork [0, 1] (fun _ => []) high_then_low
      .independent_cascade_tag) 2 = some [[0], [1, 3]] ∧
    outputs_of (BatchedBFS fork [1] (fun _ => []) (fun k j => high_then_low (k + 1) j)
      .independent_cascade_tag) 1 = some [[1]] ∧
    outputs_of (BatchedBFS fork [1] (fun _ => []) high_then_low
      .independent_cascade_tag) 1 = some [[1]] ∧
    outputs_of (BatchedBFS fork [2, 1] (fun _ => []) high_then_low
      .independent_cascade_tag) 2 = some [[2], [1]] := by
  refine ⟨?_, ?_, ?_, ?_⟩ <;> decide!

/-- C4, amended: for every graph, either diffusion model, every batch of 1..64 in-range roots
and every generator whose engine 0 decides each test of the model the same way whichever of
its values is used (a constant engine, or weights that no value separates), the output of
`BatchedBFS` for root `i` equals the output of the single-root run with root `i` alone on the
same generator. -/
theorem C4_amended_insensitive_draws (G : Graph) (roots : List Nat) (O O1 : Nat → List Nat)
    (gen : Nat → Nat → ℚ) (tag : diff_model_tag)
    (hm1 : 1 ≤ roots.length) (hm : roots.length ≤ 64) (hr : ∀ r ∈ roots, r < G.num_nodes)
    (hwf : G.wf) (htag : tag = .independent_cascade_tag ∨ tag = .linear_threshold_tag)
    (hO : ∀ i, i < roots.length → O i = []) (hO1 : O1 0 = [])
    (hins : insensitive tag gen G) (i : Nat) (hi : i < roots.length) :
    ∃ s s1, BatchedBFS G roots O gen tag = .ok s ∧
      BatchedBFS G [root_of roots i] O1 gen tag = .ok s1 ∧ s.O i = s1.O 0 := by
  obtain ⟨s, hs, hall⟩ := BatchedBFS_insensitive G roots O gen tag hm1 hm hr hwf
    (recognised htag) hO hins
  obtain ⟨s1, hs1, hall1⟩ := BatchedBFS_insensitive G [root_of roots i] O1 gen tag
    (by simp) (by simp)
    (by
      intro r hr1
      rw [List.mem_singleton] at hr1
      rw [hr1]
      exact hr _ (root_of_mem roots i hi))
    hwf (recognised htag)
    (by
      intro j hj
      have : j = 0 := by simpa using hj
      rw [this]
      exact hO1)
    hins
  refine ⟨s, s1, hs, hs1, ?_⟩
  have h1 := hall1 0 (by simp)
  apply sorted_lt_ext (hall i hi).1 h1.1
  intro v
  rw [(hall i hi).2 v, h1.2 v]
  rfl

theorem C4_amended_witness :
    ∃ s s1, BatchedBFS fork [0, 1] (fun _ => []) (fun _ _ => 1 / 4)
        .independent_cascade_tag = .ok s ∧
      BatchedBFS fork [root_of [0, 1] 1] (fun _ => []) (fun _ _ => 1 / 4)
        .independent_cascade_tag = .ok s1 ∧ s.O 1 = s1.O 0 :=
  C4_amended_insensitive_draws fork [0, 1] (fun _ => []) (fun _ => []) (fun _ _ => 1 / 4)
    .independent_cascade_tag (by decide) (by decide) (by decide) fork_wf (Or.inl rfl)
    (fun _ _ => rfl) rfl (fun _ _ _ _ _ h => h) 1 (by decide)

/-- C5, as stated, fails: in the call with roots `[0, 1]` on `fork` the draw made for colour 1
is taken from engine 0, the engine from which colour 0 has drawn as well. -/
theorem C5_counterexample :
    draws_of (BatchedBFS fork [0, 1] (fun _ => []) high_then_low
      .independent_cascade_tag) = some [(0, 0), (1, 0)] := by
  decide!

/-- C5, amended: within one `BatchedBFS` call, every draw, whichever colour it is made for
(the independent-cascade edge draw and the linear-threshold threshold draw), is taken from
engine 0 of the generator vector, and no other engine is advanced. -/
theorem C5_amended_all_draws_from_engine_zero (G : Graph) (roots : List Nat)
    (O : Nat → List Nat) (gen : Nat → Nat → ℚ) (tag : diff_model_tag)
    (hm1 : 1 ≤ roots.length) (hm : roots.length ≤ 64) (hr : ∀ r ∈ roots, r < G.num_nodes)
    (hwf : G.wf) (htag : tag = .independent_cascade_tag ∨ tag = .linear_threshold_tag) :
    ∃ s, BatchedBFS G roots O gen tag = .ok s ∧ (∀ d ∈ s.draws, d.2 = 0) ∧
      ∀ k, k ≠ 0 → s.pos k = 0 :=
  BatchedBFS_engine_zero G roots O gen tag hm1 hm hr hwf (recognised htag)

theorem C5_amended_witness :
    ∃ s, BatchedBFS fork [0, 1] (fun _ => []) high_then_low .linear_threshold_tag = .ok s ∧
      (∀ d ∈ s.draws, d.2 = 0) ∧ ∀ k, k ≠ 0 → s.pos k = 0 :=
  C5_amended_all_draws_from_engine_zero fork [0, 1] (fun _ => []) high_then_low
    .linear_threshold_tag (by decide) (by decide) (by decide) fork_wf (Or.inr rfl)

/-- C6, as stated, fails: the value `0.0` lies in `[0,1)`, and with a generator that yields it
the test `value <= weight` succeeds on the edge of weight `0.0`: the output is `[0,1,2,3]`. -/
theorem C6_counterexample :
    (∀ k j : Nat, (0 : ℚ) ≤ (fun _ _ => (0 : ℚ)) k j ∧ (fun _ _ => (0 : ℚ)) k j < 1) ∧
    outputs_of (BatchedBFS path_b [3] (fun _ => []) (fun _ _ => 0)
      .independent_cascade_tag) 1 = some [[0, 1, 2, 3]] := by
  refine ⟨fun _ _ => by norm_num, ?_⟩
  decide!

/-- C6, amended: on the path of Scenario B under independent cascade, `BatchedBFS` with the
single root 3 returns exactly `[3]` for every generator whose first value of engine 0 is
strictly positive, in particular for every stream of draws in the open interval `(0,1)`. -/
theorem C6_amended_positive_first_draw (gen : Nat → Nat → ℚ) (h : 0 < gen 0 0) :
    outputs_of (BatchedBFS path_b [3] (fun _ => []) gen .independent_cascade_tag) 1
      = some [[3]] := by
  have h1 : ¬ gen 0 0 ≤ 0 := not_le.2 h
  simp [BatchedBFS, BatchedBFS_rounds, seed_roots, path_b, graph_of, State.init, main_loop,
    round, for_each, visit, color_loop, for_colors, ic_neighbors, State.value,
    State.activate, h1, outputs_of, State.outputs, List.range_succ, clz_word_0]

theorem C6_amended_witness :
    outputs_of (BatchedBFS path_b [3] (fun _ => []) (fun _ _ => 1 / 2)
      .independent_cascade_tag) 1 = some [[3]] :=
  C6_amended_positive_first_draw (fun _ _ => 1 / 2) (by norm_num)

theorem carried_activate (s : State) (c u w c1 : Nat) (hc : c < 64) :
    carried (s.activate c u).new_color_map w c1 ↔
      carried s.new_color_map w c1 ∨ (w = u ∧ c1 = c) := by
  unfold carried
  by_cases hw : w = u
  · subst hw
    cases hold : s.new_color_map w with
    | none => simp [State.activate, hold, has_color_bit hc]
    | some old => simp [State.activate, hold, has_color_or, has_color_bit hc]
  · simp [State.activate, hw]

theorem carried_none (v c : Nat) : ¬ carried (fun _ => none) v c := by
  rintro ⟨mask, h, _⟩
  exact Option.noConfusion h

/-- A rule for one round: a predicate that holds when the round starts, that every draw keeps,
and that every activation keeps which the round can make (of an unvisited neighbour `u` of a
vertex `v` under a colour `c` that the frontier carries for `v`), holds of the state in which the
traversal of the frontier ends; the round returns that state with maps and frontiers swapped. -/
theorem round_rule (tag : diff_model_tag) (gen : Nat → Nat → ℚ) (G : Graph) (m : Nat)
    (O0 : Nat → List Nat) (root : Nat → Nat) (htag : tag ≠ .unrecognised) (hwf : G.wf)
    (hm : m ≤ 64) (P : State → Prop) (s : State)
    (hs : Safe G m O0 root (fires tag gen G) s)
    (hdraw : ∀ c s1, P s1 → P (s1.value gen c 0).2)
    (hact : ∀ s1 c v u, Safe G m O0 root (fires tag gen G) s1 → mono s s1 → P s1 → c < m →
      carried s.color_map v c → fires tag gen G v u → s1.visited_matrix c u = false →
      P (s1.activate c u))
    (h0 : P { s with new_frontier := [], new_color_map := fun _ => none })
    (s1 : State) (h : round tag gen G m s = .ok s1) :
    ∃ s2, P s2 ∧ Safe G m O0 root (fires tag gen G) s2 ∧ mono s s2 ∧
      s2.color_map = s.color_map ∧ s2.frontier = s.frontier ∧
      s1 = { s2 with color_map := s2.new_color_map, new_color_map := s2.color_map,
                     frontier := s2.new_frontier, new_frontier := s2.frontier } := by
  have hsafe0 : Safe G m O0 root (fires tag gen G)
      { s with new_frontier := [], new_color_map := fun _ => none } :=
    ⟨hs.bound, hs.out, hs.reach, hs.cmap, fun v mask hv => Option.noConfusion hv, hs.cfront,
      fun v hv => absurd rfl hv⟩
  obtain ⟨s2, h2, hc2, ⟨hsafe2, hmono2, hfr2⟩, hP2⟩ := for_each_spec tag gen G m
    (fun s1 => (Safe G m O0 root (fires tag gen G) s1 ∧ mono s s1 ∧ s1.frontier = s.frontier)
      ∧ P s1)
    htag hwf s.color_map hs.colors_ok
    (fun c s1 h1 => ⟨⟨h1.1.1.value gen c 0, h1.1.2.1, h1.1.2.2⟩, hdraw c s1 h1.2⟩)
    s.frontier
    (by
      intro s1 c v u h1 _ hcol hf hnew
      obtain ⟨mask, hmask, hcm⟩ := hcol
      have hvis := (hs.cmap v mask hmask).2 c hcm
      have hc : c < m := (hs.bound c v hvis).1
      obtain ⟨e, he, heu⟩ := fires_edge hf
      have hu : u < G.num_nodes := heu ▸ hwf v e he
      exact ⟨⟨h1.1.1.activate hm hc hu (h1.1.2.1 c v hvis) hf hnew,
        mono_trans h1.1.2.1 (mono_activate s1 c u), h1.1.2.2⟩,
        hact s1 c v u h1.1.1 h1.1.2.1 h1.2 hc ⟨mask, hmask, hcm⟩ hf hnew⟩)
    { s with new_frontier := [], new_color_map := fun _ => none } rfl
    ⟨⟨hsafe0, mono_refl s, rfl⟩, h0⟩
  simp only [round, h2, Except.ok.injEq] at h
  exact ⟨s2, hP2, hsafe2, hmono2, hc2, hfr2, h.symm⟩

theorem Fresh.start (s : State) :
    Fresh s { s with new_frontier := [], new_color_map := fun _ => none } := by
  refine ⟨List.nodup_nil, fun v hv => absurd hv (List.not_mem_nil _),
    fun v mask hv => Option.noConfusion hv, fun v c hc => absurd hc (carried_none v c), ?_⟩
  intro c v h1 h2
  simp only at h1
  rw [h1] at h2
  exact Bool.noConfusion h2

theorem Fresh.draw {s s1 : State} (h : Fresh s s1) (gen : Nat → Nat → ℚ) (c k : Nat) :
    Fresh s (s1.value gen c k).2 :=
  ⟨h.nodup, h.entry, h.word, h.new, h.all⟩

theorem Fresh.push {s s1 : State} (h : Fresh s s1) (hmono : mono s s1) {c u : Nat} (hc : c < 64)
    (hnew : s1.visited_matrix c u = false) : Fresh s (s1.activate c u) := by
  refine ⟨?_, ?_, ?_, ?_, ?_⟩
  · simp only [State.activate]
    cases hold : s1.new_color_map u with
    | none =>
      simp only
      refine List.Nodup.append h.nodup (List.nodup_singleton u) ?_
      intro x hx1 hx2
      rw [List.mem_singleton] at hx2
      subst hx2
      exact h.entry x hx1 hold
    | some old => exact h.nodup
  · intro v hv
    simp only [State.activate] at hv ⊢
    by_cases hvu : v = u
    · subst hvu
      cases hold : s1.new_color_map v <;> simp
    · simp only [hvu, if_false]
      refine h.entry v ?_
      cases hold : s1.new_color_map u with
      | none =>
        rw [hold] at hv
        simp only [List.mem_append, List.mem_singleton] at hv
        rcases hv with hv | hv
        · exact hv
        · exact absurd hv hvu
      | some old =>
        rw [hold] at hv
        exact hv
  · intro v mask hv
    by_cases hvu : v = u
    · subst hvu
      obtain ⟨mask1, hm1, hc1⟩ := (carried_activate s1 c v v c hc).2 (Or.inr ⟨rfl, rfl⟩)
      rw [hv] at hm1
      cases hm1
      exact ⟨c, hc1⟩
    · simp only [State.activate, hvu, if_false] at hv
      exact h.word v mask hv
  · intro v c1 hcar
    rcases (carried_activate s1 c u v c1 hc).1 hcar with h1 | ⟨h1, h2⟩
    · exact h.new v c1 h1
    · subst h1 h2
      cases hv : s.visited_matrix c1 v with
      | false => rfl
      | true =>
        rw [hmono c1 v hv] at hnew
        exact Bool.noConfusion hnew
  · intro c1 v h1 h2
    by_cases hcv : c1 = c ∧ v = u
    · exact (carried_activate s1 c u v c1 hc).2 (Or.inr ⟨hcv.2, hcv.1⟩)
    · simp only [State.activate, hcv, if_false] at h1
      exact (carried_activate s1 c u v c1 hc).2 (Or.inl (h.all c1 v h1 h2))

/-- After a round, `color_map` carries exactly the pairs that the round newly visited, the
frontier lists exactly the vertices that have a word, once each, and no word is zero. -/
theorem round_next (tag : diff_model_tag) (gen : Nat → Nat → ℚ) (G : Graph) (m : Nat)
    (O0 : Nat → List Nat) (root : Nat → Nat) (htag : tag ≠ .unrecognised) (hwf : G.wf)
    (hm : m ≤ 64) (s s1 : State) (hs : Safe G m O0 root (fires tag gen G) s)
    (h : round tag gen G m s = .ok s1) :
    Safe G m O0 root (fires tag gen G) s1 ∧ Tidy s1 ∧ mono s s1 ∧
    ∀ v c, carried s1.color_map v c ↔
      (s1.visited_matrix c v = true ∧ s.visited_matrix c v = false) := by
  obtain ⟨s2, hF, hsafe2, hmono2, _, _, rfl⟩ := round_rule tag gen G m O0 root htag hwf hm
    (Fresh s) s hs
    (fun c s1 h1 => h1.draw gen c 0)
    (fun s1 c v u _ hmono h1 hc _ _ hnew => h1.push hmono (lt_of_lt_of_le hc hm) hnew)
    (Fresh.start s) s1 h
  refine ⟨⟨hsafe2.bound, hsafe2.out, hsafe2.reach, hsafe2.nmap, hsafe2.cmap, hsafe2.nfront,
    hsafe2.cfront⟩, ⟨hF.nodup, hF.entry, hF.word⟩, hmono2, ?_⟩
  intro v c
  constructor
  · rintro ⟨mask, hmask, hcol⟩
    exact ⟨(hsafe2.nmap v mask hmask).2 c hcol, hF.new v c ⟨mask, hmask, hcol⟩⟩
  · rintro ⟨h1, h2⟩
    exact hF.all c v h1 h2

theorem Tidy.initial (O : Nat → List Nat) : Tidy (State.init O) :=
  ⟨List.nodup_nil, fun _ hv => absurd hv (List.not_mem_nil _),
    fun _ _ hv => Option.noConfusion hv⟩

theorem seed_roots_tidy (G : Graph) (m : Nat) :
    ∀ (rs : List Nat) (i color : Nat) (s s1 : State), i + rs.length ≤ 64 →
      (rs ≠ [] → color = 1 <<< (63 - i)) → Tidy s → seed_roots G m rs color s = .ok s1 →
      Tidy s1 := by
  intro rs
  induction rs with
  | nil =>
    intro i color s s1 _ _ ht h
    simp only [seed_roots, Except.ok.injEq] at h
    subst h
    exact ht
  | cons r rs ih =>
    intro i color s s1 hlen hcol ht h
    have hcolor := hcol (List.cons_ne_nil _ _)
    simp only [List.length_cons] at hlen
    have hi : i < 64 := by omega
    simp only [seed_roots] at h
    split_ifs at h
    refine ih (i + 1) _ _ _ (by omega) ?_ ?_ h
    · intro hne
      have : 0 < rs.length := List.length_pos.2 hne
      rw [hcolor, bit_half (by omega)]
    · refine ⟨?_, ?_, ?_⟩
      · simp only
        cases hold : s.color_map r with
        | none =>
          simp only
          refine List.Nodup.append ht.nodup (List.nodup_singleton r) ?_
          intro x hx1 hx2
          rw [List.mem_singleton] at hx2
          subst hx2
          exact ht.entry x hx1 hold
        | some old => exact ht.nodup
      · intro v hv
        simp only at hv ⊢
        by_cases hvr : v = r
        · subst hvr
          cases hold : s.color_map v <;> simp
        · simp only [hvr, if_false]
          refine ht.entry v ?_
          cases hold : s.color_map r with
          | none =>
            rw [hold] at hv
            simp only [List.mem_append, List.mem_singleton] at hv
            rcases hv with hv | hv
            · exact hv
            · exact absurd hv hvr
          | some old =>
            rw [hold] at hv
            exact hv
      · intro v mask hv
        simp only at hv
        by_cases hvr : v = r
        · subst hvr
          refine ⟨i, ?_⟩
          cases hold : s.color_map v with
          | none =>
            simp only [hold, if_true, Option.some.injEq] at hv
            rw [← hv, hcolor]
            exact (has_color_bit hi i).2 rfl
          | some old =>
            simp only [hold, if_true, Option.some.injEq] at hv
            rw [← hv, hcolor, has_color_or]
            exact Or.inr ((has_color_bit hi i).2 rfl)
        · simp only [hvr, if_false] at hv
          exact ht.word v mask hv

theorem rounds_nil (tag : diff_model_tag) (gen : Nat → Nat → ℚ) (G : Graph) (m k : Nat)
    (s : State) (h : s.frontier = []) : rounds tag gen G m k s = .ok s := by
  cases k <;> simp [rounds, h]

theorem rounds_add (tag : diff_model_tag) (gen : Nat → Nat → ℚ) (G : Graph) (m : Nat) :
    ∀ (i d : Nat) (s : State),
      rounds tag gen G m (i + d) s =
        match rounds tag gen G m i s with
        | .error e => .error e
        | .ok s1 => rounds tag gen G m d s1 := by
  intro i
  induction i with
  | zero =>
    intro d s
    simp only [Nat.zero_add, rounds]
  | succ i ih =>
    intro d s
    have he : i + 1 + d = (i + d) + 1 := by omega
    rw [he]
    by_cases hf : s.frontier = []
    · rw [rounds_nil tag gen G m _ s hf, rounds_nil tag gen G m _ s hf]
      exact (rounds_nil tag gen G m _ s hf).symm
    · have hlen : s.frontier.length ≠ 0 := fun h => hf (List.length_eq_zero.1 h)
      simp only [rounds, hlen, ne_eq, not_false_eq_true, if_true]
      cases hr : round tag gen G m s with
      | error e => rfl
      | ok s1 => exact ih d s1

theorem main_loop_rounds (tag : diff_model_tag) (gen : Nat → Nat → ℚ) (G : Graph) (m : Nat) :
    ∀ (fuel : Nat) (s : State),
      main_loop tag gen G m fuel s =
        match rounds tag gen G m fuel s with
        | .error e => .error e
        | .ok s1 => if s1.frontier.length ≠ 0 then .error .fuel else .ok s1 := by
  intro fuel
  induction fuel with
  | zero =>
    intro s
    simp only [main_loop, rounds]
  | succ fuel ih =>
    intro s
    by_cases hf : s.frontier = []
    · rw [rounds_nil tag gen G m _ s hf, main_loop_nil tag gen G m _ s hf]
      simp [hf]
    · have hlen : s.frontier.length ≠ 0 := fun h => hf (List.length_eq_zero.1 h)
      simp only [main_loop, rounds, hlen, ne_eq, not_false_eq_true, if_true]
      cases hr : round tag gen G m s with
      | error e => rfl
      | ok s1 => exact ih s1

/-- A rule for the sequence of loop heads: a predicate on (number of rounds, state) that each
round takes from `k` to `k + 1`, and that carries over to `k + 1` once the frontier is empty,
holds `d` rounds later; the rounds do not fail. -/
theorem rounds_spec (tag : diff_model_tag) (gen : Nat → Nat → ℚ) (G : Graph) (m : Nat)
    (O0 : Nat → List Nat) (root : Nat → Nat) (htag : tag ≠ .unrecognised) (hwf : G.wf)
    (hm : m ≤ 64) (P : Nat → State → Prop)
    (hround : ∀ k s s1, Safe G m O0 root (fires tag gen G) s → Tidy s → P k s →
      s.frontier ≠ [] → round tag gen G m s = .ok s1 → P (k + 1) s1)
    (hstay : ∀ k s, Safe G m O0 root (fires tag gen G) s → Tidy s → P k s →
      s.frontier = [] → P (k + 1) s) :
    ∀ (d k : Nat) (s : State), Safe G m O0 root (fires tag gen G) s → Tidy s → P k s →
      ∃ s1, rounds tag gen G m d s = .ok s1 ∧ Safe G m O0 root (fires tag gen G) s1 ∧
        Tidy s1 ∧ P (k + d) s1 ∧ mono s s1 := by
  intro d
  induction d with
  | zero =>
    intro k s hs ht hP
    exact ⟨s, rfl, hs, ht, hP, mono_refl s⟩
  | succ d ih =>
    intro k s hs ht hP
    have he : k + (d + 1) = k + 1 + d := by omega
    rw [he]
    by_cases hf : s.frontier = []
    · obtain ⟨s1, h1, hs1, ht1, hP1, hmono⟩ := ih (k + 1) s hs ht (hstay k s hs ht hP hf)
      rw [rounds_nil tag gen G m _ s hf] at h1 ⊢
      exact ⟨s1, h1, hs1, ht1, hP1, hmono⟩
    · obtain ⟨s1, h1, _⟩ := round_safe tag gen G m O0 root htag hwf hm s hs
      obtain ⟨hs1, ht1, hmono1, _⟩ := round_next tag gen G m O0 root htag hwf hm s s1 hs h1
      obtain ⟨s2, h2, hs2, ht2, hP2, hmono2⟩ := ih (k + 1) s1 hs1 ht1
        (hround k s s1 hs ht hP hf h1)
      have hlen : s.frontier.length ≠ 0 := fun h => hf (List.length_eq_zero.1 h)
      refine ⟨s2, ?_, hs2, ht2, hP2, mono_trans hmono1 hmono2⟩
      simp only [rounds, hlen, ne_eq, not_false_eq_true, if_true, h1]
      exact h2

theorem main_loop_ok_rounds (tag : diff_model_tag) (gen : Nat → Nat → ℚ) (G : Graph)
    (m fuel : Nat) (s s1 : State) (h : main_loop tag gen G m fuel s = .ok s1) :
    rounds tag gen G m fuel s = .ok s1 ∧ s1.frontier = [] := by
  rw [main_loop_rounds] at h
  cases hr : rounds tag gen G m fuel s with
  | error e =>
    rw [hr] at h
    exact Except.noConfusion h
  | ok s2 =>
    rw [hr] at h
    simp only at h
    split_ifs at h with hf
    simp only [Except.ok.injEq] at h
    subst h
    exact ⟨rfl, List.length_eq_zero.1 (not_not.1 hf)⟩

theorem loop_state_add (tag : diff_model_tag) (gen : Nat → Nat → ℚ) (G : Graph)
    (roots : List Nat) (O : Nat → List Nat) (k d : Nat) (s : State)
    (h : loop_state tag gen G roots O k = .ok s) :
    loop_state tag gen G roots O (k + d) = rounds tag gen G roots.length d s := by
  simp only [loop_state] at h ⊢
  cases hseed : seed_roots G roots.length roots (1 <<< 63) (State.init O) with
  | error e =>
    rw [hseed] at h
    exact Except.noConfusion h
  | ok s0 =>
    rw [hseed] at h
    simp only at h ⊢
    rw [rounds_add, h]

/-- The states at the head of the main loop of a call: every one exists (neither the seeding
nor a round fails), satisfies `Safe` and `Tidy`, and satisfies every predicate on (number of
rounds, state) that holds after the seeding and is kept from round to round. -/
theorem loop_state_spec (G : Graph) (roots : List Nat) (O : Nat → List Nat)
    (gen : Nat → Nat → ℚ) (tag : diff_model_tag) (P : Nat → State → Prop)
    (hm1 : 0 < roots.length) (hm : roots.length ≤ 64) (hr : ∀ r ∈ roots, r < G.num_nodes)
    (hwf : G.wf) (htag : tag ≠ .unrecognised)
    (hinit : ∀ s, Seeded G roots.length O (root_of roots) roots.length s → Tidy s → P 0 s)
    (hround : ∀ k s s1, Safe G roots.length O (root_of roots) (fires tag gen G) s → Tidy s →
      P k s → s.frontier ≠ [] → round tag gen G roots.length s = .ok s1 → P (k + 1) s1)
    (hstay : ∀ k s, Safe G roots.length O (root_of roots) (fires tag gen G) s → Tidy s →
      P k s → s.frontier = [] → P (k + 1) s) (k : Nat) :
    ∃ s, loop_state tag gen G roots O k = .ok s ∧
      Safe G roots.length O (root_of roots) (fires tag gen G) s ∧ Tidy s ∧ P k s := by
  obtain ⟨s0, h0, hseed⟩ := seed_roots_spec G roots.length O roots hm hr roots [] (1 <<< 63)
    (State.init O) rfl (by simp) (fun _ => rfl)
    (Seeded.init G roots.length (root_of roots) O)
  have ht0 : Tidy s0 := seed_roots_tidy G roots.length roots 0 (1 <<< 63) (State.init O) s0
    (by omega) (fun _ => rfl) (Tidy.initial O) h0
  obtain ⟨s, h1, hs, ht, hP, _⟩ := rounds_spec tag gen G roots.length O (root_of roots) htag hwf
    hm P hround hstay k 0 s0 (hseed.safe _) ht0 (hinit s0 hseed ht0)
  rw [Nat.zero_add] at hP
  exact ⟨s, by simp only [loop_state, h0, h1], hs, ht, hP⟩

/-- The main loop ends within `m * (num_nodes - 1) + 1` rounds: after so many rounds the
frontier is empty, and `BatchedBFS` returns the state then reached, with its slots sorted. -/
theorem loop_halts (fuel : Nat) (G : Graph) (roots : List Nat) (O : Nat → List Nat)
    (gen : Nat → Nat → ℚ) (tag : diff_model_tag)
    (hm1 : 0 < roots.length) (hm : roots.length ≤ 64) (hr : ∀ r ∈ roots, r < G.num_nodes)
    (hwf : G.wf) (htag : tag ≠ .unrecognised)
    (hfuel : roots.length * (G.num_nodes - 1) < fuel) :
    ∃ s, loop_state tag gen G roots O fuel = .ok s ∧ s.frontier = [] ∧
      BatchedBFS_rounds fuel G roots O gen tag = .ok (s.sorted roots.length) ∧
      ∀ d, BatchedBFS_rounds (fuel + d) G roots O gen tag = .ok (s.sorted roots.length) := by
  obtain ⟨s0, h0, hseed⟩ := seed_roots_spec G roots.length O roots hm hr roots [] (1 <<< 63)
    (State.init O) rfl (by simp) (fun _ => rfl)
    (Seeded.init G roots.length (root_of roots) O)
  have hsafe := hseed.safe (fires tag gen G)
  have htot := hseed.total_eq
  have hlt : total roots.length (State.init O) + roots.length * G.num_nodes
      < total roots.length s0 + fuel := by
    rw [htot]
    cases hn : G.num_nodes with
    | zero => simp; omega
    | succ n =>
      rw [hn] at hfuel
      simp only [Nat.add_sub_cancel] at hfuel
      rw [Nat.mul_succ]
      omega
  obtain ⟨s2, h2, _, _, _, _⟩ := main_loop_spec tag gen G roots.length O
    (root_of roots) htag hwf hm (fun _ => True) (fun _ _ _ _ _ => trivial) fuel s0 hsafe
    trivial hlt
  obtain ⟨hr2, hf2⟩ := main_loop_ok_rounds tag gen G roots.length fuel s0 s2 h2
  have hne : s0.frontier.length ≠ 0 := fun h => hseed.fne hm1 (List.length_eq_zero.1 h)
  have hlen2 : ¬ s2.frontier.length ≠ 0 := by simp [hf2]
  have hall : ∀ d, BatchedBFS_rounds (fuel + d) G roots O gen tag
      = .ok (s2.sorted roots.length) := by
    intro d
    have hrd : rounds tag gen G roots.length (fuel + d) s0 = .ok s2 := by
      rw [rounds_add, hr2]
      exact rounds_nil tag gen G roots.length d s2 hf2
    simp only [BatchedBFS_rounds, hm, not_true_eq_false, if_false, h0, hne, ne_eq,
      not_false_eq_true, main_loop_rounds, hrd, hf2, List.length_nil, State.sorted]
  exact ⟨s2, by simp only [loop_state, h0, hr2], hf2, hall 0, hall⟩

theorem loop_state_succ (tag : diff_model_tag) (gen : Nat → Nat → ℚ) (G : Graph)
    (roots : List Nat) (O : Nat → List Nat) (k : Nat) (s : State)
    (h : loop_state tag gen G roots O k = .ok s) :
    (s.frontier = [] → loop_state tag gen G roots O (k + 1) = .ok s) ∧
    (s.frontier ≠ [] →
      loop_state tag gen G roots O (k + 1) = round tag gen G roots.length s) := by
  rw [loop_state_add tag gen G roots O k 1 s h]
  constructor
  · intro hf
    exact rounds_nil tag gen G roots.length 1 s hf
  · intro hf
    have hlen : s.frontier.length ≠ 0 := fun h => hf (List.length_eq_zero.1 h)
    simp only [rounds, hlen, ne_eq, not_false_eq_true, if_true]
    cases round tag gen G roots.length s <;> rfl

theorem word_facts {G : Graph} {m : Nat} {O0 : Nat → List Nat} {root : Nat → Nat}
    {R : Nat → Nat → Prop} {s : State} (hs : Safe G m O0 root R s) (ht : Tidy s) (hm : m ≤ 64)
    {v mask : Nat} (h : s.color_map v = some mask) :
    mask ≠ 0 ∧ mask < 2 ^ 64 ∧ (∀ p, mask.testBit p = true → 64 - m ≤ p ∧ p < 64) ∧
      __builtin_clzl mask < m ∧ v < G.num_nodes ∧ ∀ c ∈ colors_below 64 mask, c < m := by
  have hlt := (hs.cmap v mask h).1
  have hcol : ∀ c, has_color mask c → c < m ∧ v < G.num_nodes :=
    fun c hc => hs.bound c v ((hs.cmap v mask h).2 c hc)
  obtain ⟨c0, hc0⟩ := ht.word v mask h
  have hne : mask ≠ 0 := by
    intro h0
    rw [h0] at hc0
    exact has_color_zero c0 hc0
  refine ⟨hne, hlt, ?_, ?_, (hcol c0 hc0).2, fun c hc => (hcol c ((mem_colors_below_64 _ _).1 hc)).1⟩
  · intro p hp
    have hp64 : p < 64 := by
      by_contra hge
      have h1 : mask < 2 ^ p := lt_of_lt_of_le hlt (Nat.pow_le_pow_right (by decide) (by omega))
      rw [Nat.testBit_lt_two_pow h1] at hp
      exact Bool.noConfusion hp
    have hc : has_color mask (63 - p) := by
      refine ⟨by omega, ?_⟩
      have : 63 - (63 - p) = p := by omega
      rw [this]
      exact hp
    have := (hcol _ hc).1
    omega
  · have h1 : 2 ^ Nat.log 2 mask ≤ mask := Nat.pow_log_le_self 2 hne
    have h2 : mask < 2 ^ (Nat.log 2 mask + 1) := Nat.lt_pow_succ_log_self (by decide) mask
    have hk : Nat.log 2 mask ≤ 63 := by
      by_contra hgt
      have : 2 ^ 64 ≤ 2 ^ Nat.log 2 mask := Nat.pow_le_pow_right (by decide) (by omega)
      omega
    rw [clz_of_top h1 h2 hk]
    have hc : has_color mask (63 - Nat.log 2 mask) := by
      refine ⟨by omega, ?_⟩
      have : 63 - (63 - Nat.log 2 mask) = Nat.log 2 mask := by omega
      rw [this]
      exact testBit_top h1 h2
    exact (hcol _ hc).1

/-- C19: index safety of `BatchedBFS`, for `1 <= m <= 64` roots and a graph whose roots and
neighbour ids are all below `num_nodes`.  The call returns normally, so that no access to
`visited_matrix[color][vertex]` or to an output slot `O + color` was out of bounds; at the head
of every round every frontier vertex has a word in `color_map`, and every word of `color_map`
is a non-zero 64-bit word with bits set only among the `m` most significant positions, whose
count of leading zeros is below `m`, stored for a vertex below `num_nodes`; the colours that
the expansion of the vertex extracts from the word are all below `m`. -/
theorem C19_index_safety (G : Graph) (roots : List Nat) (O : Nat → List Nat)
    (gen : Nat → Nat → ℚ) (tag : diff_model_tag)
    (hm1 : 1 ≤ roots.length) (hm : roots.length ≤ 64) (hr : ∀ r ∈ roots, r < G.num_nodes)
    (hwf : G.wf) (htag : tag = .independent_cascade_tag ∨ tag = .linear_threshold_tag) :
    (∃ s, BatchedBFS G roots O gen tag = .ok s) ∧
    ∀ k, ∃ s, loop_state tag gen G roots O k = .ok s ∧
      (∀ v ∈ s.frontier, ∃ mask, s.color_map v = some mask) ∧
      ∀ v mask, s.color_map v = some mask →
        mask ≠ 0 ∧ mask < 2 ^ 64 ∧
        (∀ p, mask.testBit p = true → 64 - roots.length ≤ p ∧ p < 64) ∧
        __builtin_clzl mask < roots.length ∧ v < G.num_nodes ∧
        (∀ c ∈ colors_below 64 mask, c < roots.length) ∧
        visit tag gen G roots.length v s
          = for_colors (expand tag gen G roots.length v) (colors_below 64 mask) s := by
  refine ⟨BatchedBFS_normal G roots O gen tag hm1 hm hr hwf (recognised htag), ?_⟩
  intro k
  obtain ⟨s, h1, hs, ht, _⟩ := loop_state_spec G roots O gen tag (fun _ _ => True) hm1 hm hr hwf
    (recognised htag) (fun _ _ _ => trivial) (fun _ _ _ _ _ _ _ _ => trivial)
    (fun _ _ _ _ _ _ => trivial) k
  refine ⟨s, h1, ?_, ?_⟩
  · intro v hv
    have := ht.entry v hv
    cases hcm : s.color_map v with
    | none => exact absurd hcm this
    | some mask => exact ⟨mask, rfl⟩
  · intro v mask hv
    obtain ⟨f1, f2, f3, f4, f5, f6⟩ := word_facts hs ht hm hv
    refine ⟨f1, f2, f3, f4, f5, f6, ?_⟩
    have hlt : (s.color_map v).getD 0 < 2 ^ 64 := by
      rw [hv]
      exact f2
    rw [visit_eq tag gen G roots.length v s (recognised htag) hlt, hv]
    rfl

theorem C19_witness :
    (∃ s, BatchedBFS path_a [3, 3, 1] (fun _ => []) (fun _ _ => 1 / 2)
        .independent_cascade_tag = .ok s) ∧
    ∀ k, ∃ s, loop_state .independent_cascade_tag (fun _ _ => 1 / 2) path_a [3, 3, 1]
        (fun _ => []) k = .ok s ∧
      (∀ v ∈ s.frontier, ∃ mask, s.color_map v = some mask) ∧
      ∀ v mask, s.color_map v = some mask →
        mask ≠ 0 ∧ mask < 2 ^ 64 ∧
        (∀ p, mask.testBit p = true → 64 - [3, 3, 1].length ≤ p ∧ p < 64) ∧
        __builtin_clzl mask < [3, 3, 1].length ∧ v < path_a.num_nodes ∧
        (∀ c ∈ colors_below 64 mask, c < [3, 3, 1].length) ∧
        visit .independent_cascade_tag (fun _ _ => 1 / 2) path_a [3, 3, 1].length v s
          = for_colors (expand .independent_cascade_tag (fun _ _ => 1 / 2) path_a
              [3, 3, 1].length v) (colors_below 64 mask) s :=
  C19_index_safety path_a [3, 3, 1] (fun _ => []) (fun _ _ => 1 / 2) .independent_cascade_tag
    (by decide) (by decide) (by decide) path_a_wf (Or.inl rfl)

theorem rounds_size (n m : Nat) : m * (n - 1) + 1 ≤ m * n + 1 :=
  Nat.succ_le_succ (Nat.mul_le_mul_left _ (Nat.sub_le _ _))

/-- C17: for every graph, batch of 1..64 in-range roots, recognised diffusion model and random
stream, the frontier loop of `BatchedBFS` terminates.  After `m * (num_nodes - 1) + 1` rounds
the frontier is empty and `BatchedBFS` returns; and at the head of the loop after any number
`k` of rounds, either the frontier is empty and the loop has halted, or the next round runs
and leaves a non-empty frontier exactly when it newly visited at least one (vertex, colour)
pair. -/
theorem C17_frontier_loop_terminates (G : Graph) (roots : List Nat) (O : Nat → List Nat)
    (gen : Nat → Nat → ℚ) (tag : diff_model_tag)
    (hm1 : 1 ≤ roots.length) (hm : roots.length ≤ 64) (hr : ∀ r ∈ roots, r < G.num_nodes)
    (hwf : G.wf) (htag : tag = .independent_cascade_tag ∨ tag = .linear_threshold_tag) :
    (∃ s, loop_state tag gen G roots O (roots.length * (G.num_nodes - 1) + 1) = .ok s ∧
      s.frontier = [] ∧ BatchedBFS G roots O gen tag = .ok (s.sorted roots.length)) ∧
    ∀ k, ∃ s, loop_state tag gen G roots O k = .ok s ∧
      (s.frontier = [] → loop_state tag gen G roots O (k + 1) = .ok s) ∧
      (s.frontier ≠ [] → ∃ s1, round tag gen G roots.length s = .ok s1 ∧
        loop_state tag gen G roots O (k + 1) = .ok s1 ∧
        (s1.frontier ≠ [] ↔
          ∃ c v, s.visited_matrix c v = false ∧ s1.visited_matrix c v = true)) := by
  constructor
  · obtain ⟨s, h1, h2, _, h4⟩ := loop_halts (roots.length * (G.num_nodes - 1) + 1) G roots O gen
      tag hm1 hm hr hwf (recognised htag) (Nat.lt_succ_self _)
    refine ⟨s, h1, h2, ?_⟩
    have h5 := h4 (roots.length * G.num_nodes + 1 - (roots.length * (G.num_nodes - 1) + 1))
    have he : roots.length * (G.num_nodes - 1) + 1
        + (roots.length * G.num_nodes + 1 - (roots.length * (G.num_nodes - 1) + 1))
        = roots.length * G.num_nodes + 1 := by
      have := rounds_size G.num_nodes roots.length
      omega
    rw [he] at h5
    exact h5
  · intro k
    obtain ⟨s, h1, hs, ht, _⟩ := loop_state_spec G roots O gen tag (fun _ _ => True) hm1 hm hr
      hwf (recognised htag) (fun _ _ _ => trivial) (fun _ _ _ _ _ _ _ _ => trivial)
      (fun _ _ _ _ _ _ => trivial) k
    obtain ⟨hstop, hgo⟩ := loop_state_succ tag gen G roots O k s h1
    refine ⟨s, h1, hstop, ?_⟩
    intro hf
    obtain ⟨s1, hr1, _⟩ := round_safe tag gen G roots.length O (root_of roots) (recognised htag)
      hwf hm s hs
    obtain ⟨hs1, ht1, _, hcar⟩ := round_next tag gen G roots.length O (root_of roots)
      (recognised htag) hwf hm s s1 hs hr1
    refine ⟨s1, hr1, by rw [hgo hf, hr1], ?_⟩
    constructor
    · intro hne
      obtain ⟨v, hv⟩ := List.exists_mem_of_ne_nil _ hne
      have hentry := ht1.entry v hv
      cases hcm : s1.color_map v with
      | none => exact absurd hcm hentry
      | some mask =>
        obtain ⟨c, hc⟩ := ht1.word v mask hcm
        obtain ⟨h2, h3⟩ := (hcar v c).1 ⟨mask, hcm, hc⟩
        exact ⟨c, v, h3, h2⟩
    · rintro ⟨c, v, h2, h3⟩
      obtain ⟨mask, hcm, _⟩ := (hcar v c).2 ⟨h3, h2⟩
      have hv : v ∈ s1.frontier := hs1.cfront v (by rw [hcm]; exact Option.some_ne_none _)
      exact List.ne_nil_of_mem hv

theorem C17_witness :
    (∃ s, loop_state .linear_threshold_tag (fun _ _ => 1 / 2) path_a [3, 0] (fun _ => [])
        ([3, 0].length * (path_a.num_nodes - 1) + 1) = .ok s ∧
      s.frontier = [] ∧
      BatchedBFS path_a [3, 0] (fun _ => []) (fun _ _ => 1 / 2) .linear_threshold_tag
        = .ok (s.sorted [3, 0].length)) ∧
    ∀ k, ∃ s, loop_state .linear_threshold_tag (fun _ _ => 1 / 2) path_a [3, 0] (fun _ => []) k
        = .ok s ∧
      (s.frontier = [] →
        loop_state .linear_threshold_tag (fun _ _ => 1 / 2) path_a [3, 0] (fun _ => []) (k + 1)
          = .ok s) ∧
      (s.frontier ≠ [] →
        ∃ s1, round .linear_threshold_tag (fun _ _ => 1 / 2) path_a [3, 0].length s = .ok s1 ∧
          loop_state .linear_threshold_tag (fun _ _ => 1 / 2) path_a [3, 0] (fun _ => [])
            (k + 1) = .ok s1 ∧
          (s1.frontier ≠ [] ↔
            ∃ c v, s.visited_matrix c v = false ∧ s1.visited_matrix c v = true)) :=
  C17_frontier_loop_terminates path_a [3, 0] (fun _ => []) (fun _ _ => 1 / 2)
    .linear_threshold_tag (by decide) (by decide) (by decide) path_a_wf (Or.inr rfl)

/-- C16: the invariant of the main loop of `BatchedBFS`, output slots empty on entry.  At the
head of the loop after any number `k` of rounds, for every colour `c < m` and vertex `v`, `v`
occurs in slot `c` exactly once if it is marked visited under `c` and not at all otherwise;
in the state any number `d` of rounds later every visited mark is still set; and a pair
(vertex, colour) carried by a frontier word at the head of round `k` is carried by no frontier
word `d > 0` rounds later. -/
theorem C16_main_loop_invariant (G : Graph) (roots : List Nat) (O : Nat → List Nat)
    (gen : Nat → Nat → ℚ) (tag : diff_model_tag)
    (hm1 : 1 ≤ roots.length) (hm : roots.length ≤ 64) (hr : ∀ r ∈ roots, r < G.num_nodes)
    (hwf : G.wf) (htag : tag = .independent_cascade_tag ∨ tag = .linear_threshold_tag)
    (hO : ∀ i, i < roots.length → O i = []) (k : Nat) :
    ∃ s, loop_state tag gen G roots O k = .ok s ∧
      (∀ c v, c < roots.length →
        (s.O c).count v = if s.visited_matrix c v = true then 1 else 0) ∧
      ∀ d, ∃ s1, loop_state tag gen G roots O (k + d) = .ok s1 ∧ mono s s1 ∧
        (0 < d → ∀ v c, carried s.color_map v c → ¬ carried s1.color_map v c) := by
  obtain ⟨s, h1, hs, ht, _⟩ := loop_state_spec G roots O gen tag (fun _ _ => True) hm1 hm hr hwf
    (recognised htag) (fun _ _ _ => trivial) (fun _ _ _ _ _ _ _ _ => trivial)
    (fun _ _ _ _ _ _ => trivial) k
  refine ⟨s, h1, ?_, ?_⟩
  · intro c v hc
    obtain ⟨l, hl, hnd, hmem⟩ := hs.out c hc
    rw [hO c hc, List.nil_append] at hl
    rw [hl, List.count_eq_of_nodup hnd]
    by_cases hv : s.visited_matrix c v = true
    · rw [if_pos ((hmem v).2 hv), if_pos hv]
    · rw [if_neg (fun h => hv ((hmem v).1 h)), if_neg hv]
  · intro d
    obtain ⟨s1, hr1, hs1, _, hP, hmono⟩ := rounds_spec tag gen G roots.length O (root_of roots)
      (recognised htag) hwf hm
      (fun j s1 => mono s s1 ∧
        (0 < j → ∀ v c, carried s1.color_map v c → s.visited_matrix c v = false))
      (by
        intro j s1 s2 hs1 _ hP _ hr2
        obtain ⟨_, _, hmono2, hcar⟩ := round_next tag gen G roots.length O (root_of roots)
          (recognised htag) hwf hm s1 s2 hs1 hr2
        refine ⟨mono_trans hP.1 hmono2, fun _ v c hc => ?_⟩
        have h3 := ((hcar v c).1 hc).2
        cases hv : s.visited_matrix c v with
        | false => rfl
        | true =>
          rw [hP.1 c v hv] at h3
          exact Bool.noConfusion h3)
      (by
        intro j s1 hs1 _ hP hf
        refine ⟨hP.1, fun _ v c hc => ?_⟩
        obtain ⟨mask, hcm, _⟩ := hc
        have hv : v ∈ s1.frontier := hs1.cfront v (by rw [hcm]; exact Option.some_ne_none _)
        rw [hf] at hv
        exact absurd hv (List.not_mem_nil _))
      d 0 s hs ht ⟨mono_refl s, fun h => absurd h (Nat.lt_irrefl 0)⟩
    refine ⟨s1, by rw [loop_state_add tag gen G roots O k d s h1, hr1], hmono, ?_⟩
    intro hd v c hc hc1
    rw [Nat.zero_add] at hP
    obtain ⟨mask, hcm, hcol⟩ := hc
    have h2 := (hs.cmap v mask hcm).2 c hcol
    rw [hP.2 hd v c hc1] at h2
    exact Bool.noConfusion h2

theorem C16_witness :
    ∃ s, loop_state .independent_cascade_tag (fun _ _ => 1 / 2) path_a [3, 3, 1] (fun _ => []) 2
        = .ok s ∧
      (∀ c v, c < [3, 3, 1].length →
        (s.O c).count v = if s.visited_matrix c v = true then 1 else 0) ∧
      ∀ d, ∃ s1, loop_state .independent_cascade_tag (fun _ _ => 1 / 2) path_a [3, 3, 1]
          (fun _ => []) (2 + d) = .ok s1 ∧ mono s s1 ∧
        (0 < d → ∀ v c, carried s.color_map v c → ¬ carried s1.color_map v c) :=
  C16_main_loop_invariant path_a [3, 3, 1] (fun _ => []) (fun _ _ => 1 / 2)
    .independent_cascade_tag (by decide) (by decide) (by decide) path_a_wf (Or.inl rfl)
    (fun _ _ => rfl) 2

/-! Linear threshold: every colour advances along a path. -/

theorem colors_below_nodup (mask : Nat) : ∀ k, k ≤ 64 → (colors_below k mask).Nodup := by
  intro k
  induction k with
  | zero => intro _; exact List.nodup_nil
  | succ k ih =>
    intro hk
    simp only [colors_below]
    split_ifs
    · refine List.nodup_cons.2 ⟨?_, ih (by omega)⟩
      intro hmem
      have := ((mem_colors_below k (by omega) mask (63 - k)).1 hmem).1
      omega
    · exact ih (by omega)

theorem lt_neighbors_cases (G : Graph) (m color : Nat) :
    ∀ (es : List Edge) (t : ℚ) (s s1 : State), lt_neighbors G m color es t s = .ok s1 →
      s1 = s ∨ ∃ e ∈ es, s1 = s.activate color e.vertex := by
  intro es
  induction es with
  | nil =>
    intro t s s1 h
    simp only [lt_neighbors, Except.ok.injEq] at h
    exact Or.inl h.symm
  | cons e es ih =>
    intro t s s1 h
    simp only [lt_neighbors] at h
    split_ifs at h with h1 h2 h3
    · rcases ih _ _ _ h with h4 | ⟨e1, he1, h4⟩
      · exact Or.inl h4
      · exact Or.inr ⟨e1, List.mem_cons_of_mem _ he1, h4⟩
    · simp only [Except.ok.injEq] at h
      exact Or.inr ⟨e, List.mem_cons_self _ _, h.symm⟩
    · simp only [Except.ok.injEq] at h
      exact Or.inl h.symm

theorem expand_lt_cases (gen : Nat → Nat → ℚ) (G : Graph) (m v c : Nat) (s s1 : State)
    (h : expand .linear_threshold_tag gen G m v c s = .ok s1) :
    s1 = (s.value gen c 0).2 ∨ ∃ u, G.edge v u ∧ s1 = (s.value gen c 0).2.activate c u := by
  simp only [expand] at h
  rcases lt_neighbors_cases G m c _ _ _ _ h with h1 | ⟨e, he, h1⟩
  · exact Or.inl h1
  · exact Or.inr ⟨e.vertex, ⟨e, he, rfl⟩, h1⟩

theorem expand_lt_step (gen : Nat → Nat → ℚ) (G : Graph) (m v c : Nat) (s s1 s2 : State)
    (hc : c < 64) (hcar : carried s.color_map v c)
    (h : expand .linear_threshold_tag gen G m v c s1 = .ok s2) :
    s2.color_map = s1.color_map ∧
    (∀ c1, c1 ≠ c → (untouched s s1 c1 → untouched s s2 c1) ∧
      (at_most_one G s s1 c1 → at_most_one G s s2 c1)) ∧
    (untouched s s1 c → at_most_one G s s2 c) := by
  rcases expand_lt_cases gen G m v c s1 s2 h with h1 | ⟨u, hu, h1⟩
  · subst h1
    exact ⟨rfl, fun c1 _ => ⟨id, id⟩, fun h2 => Or.inl h2⟩
  · subst h1
    have hO : ∀ c1, c1 ≠ c → ((s1.value gen c 0).2.activate c u).O c1 = s1.O c1 := by
      intro c1 hne
      simp [State.activate, State.value, hne]
    have hOc : ((s1.value gen c 0).2.activate c u).O c = s1.O c ++ [u] := by
      simp [State.activate, State.value]
    have hcar1 : ∀ w c1, carried ((s1.value gen c 0).2.activate c u).new_color_map w c1 ↔
        carried s1.new_color_map w c1 ∨ (w = u ∧ c1 = c) :=
      fun w c1 => carried_activate (s1.value gen c 0).2 c u w c1 hc
    have hun : ∀ c1, c1 ≠ c → untouched s s1 c1 →
        untouched s ((s1.value gen c 0).2.activate c u) c1 := by
      intro c1 hne h2
      refine ⟨by rw [hO c1 hne]; exact h2.1, fun w hw => ?_⟩
      rcases (hcar1 w c1).1 hw with h3 | ⟨_, h3⟩
      · exact h2.2 w h3
      · exact hne h3
    refine ⟨rfl, fun c1 hne => ⟨hun c1 hne, ?_⟩, ?_⟩
    · rintro (h2 | ⟨v1, u1, h3, h4, h5, h6⟩)
      · exact Or.inl (hun c1 hne h2)
      · refine Or.inr ⟨v1, u1, h3, h4, by rw [hO c1 hne]; exact h5, fun w => ?_⟩
        rw [hcar1 w c1, ← h6 w]
        constructor
        · rintro (h7 | ⟨_, h7⟩)
          · exact h7
          · exact absurd h7 hne
        · exact fun h7 => Or.inl h7
    · intro h2
      refine Or.inr ⟨v, u, hcar, hu, by rw [hOc, h2.1], fun w => ?_⟩
      rw [hcar1 w c]
      constructor
      · rintro (h7 | ⟨h7, _⟩)
        · exact absurd h7 (h2.2 w)
        · exact h7
      · exact fun h7 => Or.inr ⟨h7, rfl⟩

theorem for_colors_lt (gen : Nat → Nat → ℚ) (G : Graph) (m v : Nat) (s : State) :
    ∀ (cs : List Nat) (s1 s2 : State), cs.Nodup →
      (∀ c ∈ cs, c < 64 ∧ carried s.color_map v c) →
      for_colors (expand .linear_threshold_tag gen G m v) cs s1 = .ok s2 →
      (∀ c ∈ cs, untouched s s1 c) → (∀ c, at_most_one G s s1 c) →
      s2.color_map = s1.color_map ∧ (∀ c, at_most_one G s s2 c) ∧
        ∀ c, c ∉ cs → untouched s s1 c → untouched s s2 c := by
  intro cs
  induction cs with
  | nil =>
    intro s1 s2 _ _ h _ hall
    simp only [for_colors, Except.ok.injEq] at h
    subst h
    exact ⟨rfl, hall, fun _ _ h1 => h1⟩
  | cons c cs ih =>
    intro s1 s2 hnd hcs h hun hall
    simp only [for_colors] at h
    cases hexp : expand .linear_threshold_tag gen G m v c s1 with
    | error e =>
      rw [hexp] at h
      exact Except.noConfusion h
    | ok s3 =>
      rw [hexp] at h
      simp only at h
      obtain ⟨hnc, hnd1⟩ := List.nodup_cons.1 hnd
      obtain ⟨hc64, hcar⟩ := hcs c (List.mem_cons_self _ _)
      obtain ⟨e1, e2, e3⟩ := expand_lt_step gen G m v c s s1 s3 hc64 hcar hexp
      have hne : ∀ c1 ∈ cs, c1 ≠ c := fun c1 h1 h2 => hnc (h2 ▸ h1)
      obtain ⟨i1, i2, i3⟩ := ih s3 s2 hnd1 (fun c1 h1 => hcs c1 (List.mem_cons_of_mem _ h1)) h
        (fun c1 h1 => (e2 c1 (hne c1 h1)).1 (hun c1 (List.mem_cons_of_mem _ h1)))
        (fun c1 => by
          by_cases h1 : c1 = c
          · subst h1
            exact e3 (hun c1 (List.mem_cons_self _ _))
          · exact (e2 c1 h1).2 (hall c1))
      refine ⟨i1.trans e1, i2, fun c1 h1 h2 => ?_⟩
      have h3 : c1 ≠ c := fun h4 => h1 (h4 ▸ List.mem_cons_self _ _)
      exact i3 c1 (fun h4 => h1 (List.mem_cons_of_mem _ h4)) ((e2 c1 h3).1 h2)

theorem for_each_lt (gen : Nat → Nat → ℚ) (G : Graph) (m : Nat) (s : State)
    (hcm : colors_ok m s.color_map)
    (huniq : ∀ c v w, carried s.color_map v c → carried s.color_map w c → v = w) :
    ∀ (vs : List Nat) (s1 s2 : State), vs.Nodup → s1.color_map = s.color_map →
      for_each (visit .linear_threshold_tag gen G m) vs s1 = .ok s2 →
      (∀ v ∈ vs, ∀ c, carried s.color_map v c → untouched s s1 c) →
      (∀ c, at_most_one G s s1 c) → ∀ c, at_most_one G s s2 c := by
  intro vs
  induction vs with
  | nil =>
    intro s1 s2 _ _ h _ hall
    simp only [for_each, Except.ok.injEq] at h
    subst h
    exact hall
  | cons v vs ih =>
    intro s1 s2 hnd hc1 h hun hall
    obtain ⟨hnv, hnd1⟩ := List.nodup_cons.1 hnd
    have hv := colors_ok_getD hcm v
    have hlt : (s1.color_map v).getD 0 < 2 ^ 64 := by rw [hc1]; exact hv.1
    simp only [for_each] at h
    rw [visit_eq .linear_threshold_tag gen G m v s1 (by decide) hlt, hc1] at h
    cases hfc : for_colors (expand .linear_threshold_tag gen G m v)
        (colors_below 64 ((s.color_map v).getD 0)) s1 with
    | error e =>
      rw [hfc] at h
      exact Except.noConfusion h
    | ok s3 =>
      rw [hfc] at h
      simp only at h
      have hcs : ∀ c ∈ colors_below 64 ((s.color_map v).getD 0),
          c < 64 ∧ carried s.color_map v c := by
        intro c hc
        have h1 := (mem_colors_below_64 _ _).1 hc
        exact ⟨h1.1, (hv.2 c h1).2⟩
      obtain ⟨i1, i2, i3⟩ := for_colors_lt gen G m v s _ s1 s3 (colors_below_nodup _ 64 (le_refl _))
        hcs hfc (fun c hc => hun v (List.mem_cons_self _ _) c (hcs c hc).2) hall
      refine ih s3 s2 hnd1 (i1.trans hc1) h ?_ i2
      intro w hw c hcar
      refine i3 c ?_ (hun w (List.mem_cons_of_mem _ hw) c hcar)
      intro hc
      have : v = w := huniq c v w (hcs c hc).2 hcar
      exact hnv (this ▸ hw)

/-- One round under linear threshold, when every colour is carried by at most one frontier
vertex: slot `c` is unchanged and the next frontier does not carry `c`, or slot `c` has got one
vertex `u`, a neighbour of the vertex that carried `c`, and `u` is the only vertex for which
the next frontier carries `c`. -/
theorem round_lt (gen : Nat → Nat → ℚ) (G : Graph) (m : Nat) (O0 : Nat → List Nat)
    (root : Nat → Nat) (R : Nat → Nat → Prop) (s s1 : State) (hs : Safe G m O0 root R s)
    (ht : Tidy s)
    (huniq : ∀ c v w, carried s.color_map v c → carried s.color_map w c → v = w)
    (h : round .linear_threshold_tag gen G m s = .ok s1) (c : Nat) :
    (s1.O c = s.O c ∧ ∀ w, ¬ carried s1.color_map w c) ∨
    ∃ v u, carried s.color_map v c ∧ G.edge v u ∧ s1.O c = s.O c ++ [u] ∧
      ∀ w, carried s1.color_map w c ↔ w = u := by
  simp only [round] at h
  cases hfe : for_each (visit .linear_threshold_tag gen G m) s.frontier
      { s with new_frontier := [], new_color_map := fun _ => none } with
  | error e =>
    rw [hfe] at h
    exact Except.noConfusion h
  | ok s2 =>
    rw [hfe] at h
    simp only [Except.ok.injEq] at h
    subst h
    exact for_each_lt gen G m s hs.colors_ok huniq s.frontier
      { s with new_frontier := [], new_color_map := fun _ => none } s2 ht.nodup rfl hfe
      (fun v _ c _ => ⟨rfl, fun w hw => carried_none w c hw⟩)
      (fun c => Or.inl ⟨rfl, fun w hw => carried_none w c hw⟩) c

theorem Trail.unique {G : Graph} {O0 : Nat → List Nat} {root : Nat → Nat} {k : Nat}
    {s : State} {c : Nat} (h : Trail G O0 root k s c) (v w : Nat)
    (hv : carried s.color_map v c) (hw : carried s.color_map w c) : v = w := by
  obtain ⟨p, _, _, _, h4, _⟩ := h
  have := (h4 v hv).symm.trans (h4 w hw)
  exact Option.some.inj this

theorem Trail.seeded {G : Graph} {m : Nat} {O0 : Nat → List Nat} {root : Nat → Nat}
    {s : State} (h : Seeded G m O0 root m s) {c : Nat} (hc : c < m) :
    Trail G O0 root 0 s c := by
  refine ⟨[root c], ?_, rfl, List.chain'_singleton _, ?_, le_refl _, fun _ => ?_⟩
  · rw [h.out c hc, if_pos hc]
  · rintro v ⟨mask, hmask, hcol⟩
    rw [((h.cmap v mask hmask).2 c hcol).2]
    rfl
  · obtain ⟨mask, hmask, hcol⟩ := h.chas c hc
    exact ⟨root c, mask, hmask, hcol⟩

theorem Trail.stay {G : Graph} {O0 : Nat → List Nat} {root : Nat → Nat} {k : Nat}
    {s : State} {c : Nat} (h : Trail G O0 root k s c) (hnone : ∀ v, ¬ carried s.color_map v c) :
    Trail G O0 root (k + 1) s c := by
  obtain ⟨p, h1, h2, h3, h4, h5, h6⟩ := h
  refine ⟨p, h1, h2, h3, h4, by omega, fun h7 => ?_⟩
  have h8 : p.length ≠ k + 1 := fun h9 => by
    obtain ⟨v, hv⟩ := h6 h9
    exact hnone v hv
  omega

theorem Trail.step {G : Graph} {O0 : Nat → List Nat} {root : Nat → Nat} {k : Nat}
    {s s1 : State} {c : Nat} (h : Trail G O0 root k s c)
    (hr : (s1.O c = s.O c ∧ ∀ w, ¬ carried s1.color_map w c) ∨
      ∃ v u, carried s.color_map v c ∧ G.edge v u ∧ s1.O c = s.O c ++ [u] ∧
        ∀ w, carried s1.color_map w c ↔ w = u) :
    Trail G O0 root (k + 1) s1 c := by
  obtain ⟨p, h1, h2, h3, h4, h5, h6⟩ := h
  rcases hr with ⟨e1, e2⟩ | ⟨v, u, e1, e2, e3, e4⟩
  · refine ⟨p, by rw [e1, h1], h2, h3, fun v hv => absurd hv (e2 v), by omega, fun h7 => ?_⟩
    omega
  · have hne : p ≠ [] := by
      intro h7
      rw [h7] at h2
      exact Option.noConfusion h2
    refine ⟨p ++ [u], by rw [e3, h1, List.append_assoc], ?_, ?_, ?_, ?_, fun _ => ?_⟩
    · rw [List.head?_append_of_ne_nil _ hne]
      exact h2
    · refine List.Chain'.append h3 (List.chain'_singleton u) ?_
      intro x hx y hy
      rw [h4 v e1] at hx
      simp only [Option.mem_def, Option.some.injEq] at hx
      simp only [List.head?_cons, Option.mem_def, Option.some.injEq] at hy
      subst hx hy
      exact e2
    · intro w hw
      rw [(e4 w).1 hw]
      simp
    · simp only [List.length_append, List.length_singleton]
      omega
    · exact ⟨u, (e4 u).2 rfl⟩

/-- C20: under linear threshold, for every graph, batch of 1..64 in-range roots and random
stream, at the head of the loop after any number `k` of rounds: for every colour `i < m` at
most one frontier vertex carries colour `i`, and the vertices that the call has pushed on slot
`i`, in emission order, form a simple path that starts at root `i` and in which each vertex is
a neighbour of its predecessor; once the frontier is empty (the loop has ended within `k`
rounds, and `BatchedBFS` returns this state with its slots sorted) that path has at most `k`
vertices. -/
theorem C20_linear_threshold_slots_are_paths (G : Graph) (roots : List Nat)
    (O : Nat → List Nat) (gen : Nat → Nat → ℚ)
    (hm1 : 1 ≤ roots.length) (hm : roots.length ≤ 64) (hr : ∀ r ∈ roots, r < G.num_nodes)
    (hwf : G.wf) (k : Nat) :
    ∃ s, loop_state .linear_threshold_tag gen G roots O k = .ok s ∧
      (s.frontier = [] →
        BatchedBFS G roots O gen .linear_threshold_tag = .ok (s.sorted roots.length)) ∧
      ∀ i, i < roots.length →
        (∀ v w, v ∈ s.frontier → w ∈ s.frontier → carried s.color_map v i →
          carried s.color_map w i → v = w) ∧
        ∃ p, s.O i = O i ++ p ∧ p.head? = some (root_of roots i) ∧ List.Chain' G.edge p ∧
          p.Nodup ∧ (s.frontier = [] → p.length ≤ k) := by
  have htag : diff_model_tag.linear_threshold_tag ≠ .unrecognised := by decide
  obtain ⟨s, h1, hs, ht, hP⟩ := loop_state_spec G roots O gen .linear_threshold_tag
    (fun j s => ∀ c, c < roots.length → Trail G O (root_of roots) j s c) hm1 hm hr hwf htag
    (fun s hseed _ c hc => Trail.seeded hseed hc)
    (by
      intro j s s1 hs ht hP _ hr1 c hc
      have huniq : ∀ c v w, carried s.color_map v c → carried s.color_map w c → v = w := by
        intro c1 v w hv hw
        obtain ⟨mask, hmask, hcol⟩ := hv
        have hc1 : c1 < roots.length := (hs.bound c1 v ((hs.cmap v mask hmask).2 c1 hcol)).1
        exact (hP c1 hc1).unique v w ⟨mask, hmask, hcol⟩ hw
      exact (hP c hc).step (round_lt gen G roots.length O (root_of roots) _ s s1 hs ht huniq hr1 c))
    (by
      intro j s hs _ hP hf c hc
      refine (hP c hc).stay ?_
      rintro v ⟨mask, hmask, _⟩
      have hv : v ∈ s.frontier := hs.cfront v (by rw [hmask]; exact Option.some_ne_none _)
      rw [hf] at hv
      exact absurd hv (List.not_mem_nil _))
    k
  refine ⟨s, h1, ?_, ?_⟩
  · intro hf
    obtain ⟨s2, h2, hf2, _, h4⟩ := loop_halts (roots.length * (G.num_nodes - 1) + 1) G roots O
      gen .linear_threshold_tag hm1 hm hr hwf htag (Nat.lt_succ_self _)
    have e1 := loop_state_add .linear_threshold_tag gen G roots O k
      (roots.length * (G.num_nodes - 1) + 1) s h1
    have e2 := loop_state_add .linear_threshold_tag gen G roots O
      (roots.length * (G.num_nodes - 1) + 1) k s2 h2
    rw [rounds_nil _ _ _ _ _ s hf] at e1
    rw [rounds_nil _ _ _ _ _ s2 hf2, Nat.add_comm, e1] at e2
    simp only [Except.ok.injEq] at e2
    subst e2
    have h5 := h4 (roots.length * G.num_nodes + 1 - (roots.length * (G.num_nodes - 1) + 1))
    have he : roots.length * (G.num_nodes - 1) + 1
        + (roots.length * G.num_nodes + 1 - (roots.length * (G.num_nodes - 1) + 1))
        = roots.length * G.num_nodes + 1 := by
      have := rounds_size G.num_nodes roots.length
      omega
    rw [he] at h5
    exact h5
  · intro i hi
    refine ⟨fun v w _ _ hv hw => (hP i hi).unique v w hv hw, ?_⟩
    obtain ⟨p, p1, p2, p3, p4, p5, p6⟩ := hP i hi
    obtain ⟨l, hl, hnd, _⟩ := hs.out i hi
    have hpl : p = l := List.append_cancel_left (p1.symm.trans hl)
    refine ⟨p, p1, p2, p3, hpl ▸ hnd, fun hf => ?_⟩
    have h8 : p.length ≠ k + 1 := fun h9 => by
      obtain ⟨v, mask, hmask, _⟩ := p6 h9
      have hv : v ∈ s.frontier := hs.cfront v (by rw [hmask]; exact Option.some_ne_none _)
      rw [hf] at hv
      exact absurd hv (List.not_mem_nil _)
    omega

theorem C20_witness :
    ∃ s, loop_state .linear_threshold_tag (fun _ _ => 1 / 2) path_a [3, 0] (fun _ => []) 4
        = .ok s ∧
      (s.frontier = [] →
        BatchedBFS path_a [3, 0] (fun _ => []) (fun _ _ => 1 / 2) .linear_threshold_tag
          = .ok (s.sorted [3, 0].length)) ∧
      ∀ i, i < [3, 0].length →
        (∀ v w, v ∈ s.frontier → w ∈ s.frontier → carried s.color_map v i →
          carried s.color_map w i → v = w) ∧
        ∃ p, s.O i = (fun _ => []) i ++ p ∧ p.head? = some (root_of [3, 0] i) ∧
          List.Chain' path_a.edge p ∧ p.Nodup ∧ (s.frontier = [] → p.length ≤ 4) :=
  C20_linear_threshold_slots_are_paths path_a [3, 0] (fun _ => []) (fun _ _ => 1 / 2)
    (by decide) (by decide) (by decide) path_a_wf 4

/-! The variant `BatchedBFSNeighborColor`. -/

end ripples

namespace im

/-- The guard `x < std::log2(num_nodes)` in exact arithmetic, for a non-empty graph. -/
theorem guard_iff (x n : Nat) (hn : 0 < n) :
    (x : ℝ) < Real.logb 2 (n : ℝ) ↔ 2 ^ x < n := by
  rw [Real.lt_logb_iff_rpow_lt (by norm_num) (by exact_mod_cast hn)]
  rw [Real.rpow_natCast]
  exact_mod_cast Iff.rfl

/-- C9 (Scenario D): for every graph with `num_nodes < 2` and every `k`, `epsilon`, `l`, the
bound-search loop of `Sampling` executes zero iterations (it ends in its start state: no RR set
generated, generator untouched, oracle not invoked) and the value `LB` passed to `Theta`
is 0. -/
theorem C9_small_graph_no_iteration {R γ : Type} (E : Env R γ) (k : Nat) (epsilon l : ℚ)
    (generator : γ) (h : E.num_nodes < 2) :
    (∃ st, bound_search E k (sqrt_2 * epsilon) l E.num_nodes (Search.start generator) = some st ∧
      st.ran = [] ∧ st.RR = [] ∧ st.generator = generator ∧ st.LB = 0) ∧
    ∃ r, Sampling E k epsilon l generator = some r ∧ r.ran = [] ∧ r.LB = 0 ∧
      r.Theta = E.Theta epsilon l k 0 E.num_nodes := by
  have hg : ¬ 2 ^ (Search.start generator : Search R γ).x < E.num_nodes := by
    simp only [Search.start]
    omega
  have hbs : bound_search E k (sqrt_2 * epsilon) l E.num_nodes (Search.start generator)
      = some (Search.start generator) := by
    cases E.num_nodes <;> simp only [bound_search, hg, if_false]
  refine ⟨⟨_, hbs, rfl, rfl, rfl, rfl⟩, ?_⟩
  simp only [Sampling, hbs]
  split_ifs
  · exact ⟨_, rfl, rfl, rfl, rfl⟩
  · exact ⟨_, rfl, rfl, rfl, rfl⟩

theorem C9_witness :
    (∃ st, bound_search single_vertex 3 (sqrt_2 * (1 / 2)) 1 single_vertex.num_nodes
        (Search.start ()) = some st ∧
      st.ran = [] ∧ st.RR = [] ∧ st.generator = () ∧ st.LB = 0) ∧
    ∃ r, Sampling single_vertex 3 (1 / 2) 1 () = some r ∧ r.ran = [] ∧ r.LB = 0 ∧
      r.Theta = single_vertex.Theta (1 / 2) 1 3 0 single_vertex.num_nodes :=
  C9_small_graph_no_iteration single_vertex 3 (1 / 2) 1 () (by decide)

theorem omp_bound {R γ : Type} (E : Env R γ) (epsilonPrime l : ℚ) (k : Nat)
    (h : increasing_omp E epsilonPrime l k) (x : Nat) (hx : x < 2 ^ 63) :
    E.ThetaPrime_omp x epsilonPrime l k E.num_nodes + (2 ^ 63 - 1 - x) < 2 ^ 64 := by
  have key : ∀ d y, y + d = 2 ^ 63 - 1 →
      E.ThetaPrime_omp y epsilonPrime l k E.num_nodes + d < 2 ^ 64 := by
    intro d
    induction d with
    | zero =>
      intro y hy
      exact h.1 y (by omega)
    | succ d ih =>
      intro y hy
      have h1 := ih (y + 1) (by omega)
      have h2 := h.2 y (y + 1) (by omega) (by omega)
      omega
  exact key (2 ^ 63 - 1 - x) x (by omega)

theorem ThetaPrime_fits {R γ : Type} (E : Env R γ) (epsilonPrime l : ℚ) (k : Nat)
    (h : increasing_omp E epsilonPrime l k) (x : Nat) (hx : x + 1 < 2 ^ 63) :
    E.ThetaPrime_omp x epsilonPrime l k E.num_nodes / E.world_size + 1 < 2 ^ 64 := by
  have h1 := omp_bound E epsilonPrime l k h x (by omega)
  have h2 : E.ThetaPrime_omp x epsilonPrime l k E.num_nodes / E.world_size
      ≤ E.ThetaPrime_omp x epsilonPrime l k E.num_nodes := Nat.div_le_self _ _
  omega

theorem ThetaPrime_mono {R γ : Type} (E : Env R γ) (epsilonPrime l : ℚ) (k : Nat)
    (h : increasing_omp E epsilonPrime l k) (x y : Nat) (hxy : x ≤ y) (hy : y + 1 < 2 ^ 63) :
    ThetaPrime E x epsilonPrime l k E.num_nodes ≤ ThetaPrime E y epsilonPrime l k E.num_nodes := by
  rw [ThetaPrime, ThetaPrime, Nat.mod_eq_of_lt (ThetaPrime_fits E epsilonPrime l k h x (by omega)),
    Nat.mod_eq_of_lt (ThetaPrime_fits E epsilonPrime l k h y hy)]
  rcases Nat.eq_or_lt_of_le hxy with heq | hlt
  · rw [heq]
  · have := h.2 x y hlt (by omega)
    exact Nat.succ_le_succ (Nat.div_le_div_right (le_of_lt this))

/-- C14, as stated, fails: with two processes and the strictly increasing shared-memory
requirement `x + 1`, the distributed requirement is 2 both for `x = 1` and for `x = 2`. -/
theorem C14_counterexample :
    increasing_omp two_ranks 1 1 1 ∧ 1 ≤ two_ranks.world_size ∧
    ¬ ThetaPrime two_ranks 1 1 1 1 two_ranks.num_nodes
        < ThetaPrime two_ranks 2 1 1 1 two_ranks.num_nodes := by
  refine ⟨⟨?_, ?_⟩, by decide, by decide⟩
  · intro x hx
    simp only [two_ranks]
    omega
  · intro x y hxy _
    simp only [two_ranks]
    omega

/-- C14, amended: assuming the shared-memory `ThetaPrime` is strictly increasing in the
iteration index, the distributed overload `ThetaPrime_omp(x) / world_size + 1` is non-decreasing
in `x` for every `world_size >= 1` (over the indices `x <= y` with `y + 1` an `ssize_t` value),
and strictly increasing when `world_size = 1`. -/
theorem C14_amended_nondecreasing {R γ : Type} (E : Env R γ) (epsilonPrime l : ℚ) (k : Nat)
    (h : increasing_omp E epsilonPrime l k) (_ : 1 ≤ E.world_size) (x y : Nat) (hxy : x < y)
    (hy : y + 1 < 2 ^ 63) :
    ThetaPrime E x epsilonPrime l k E.num_nodes ≤ ThetaPrime E y epsilonPrime l k E.num_nodes ∧
    (E.world_size = 1 →
      ThetaPrime E x epsilonPrime l k E.num_nodes < ThetaPrime E y epsilonPrime l k E.num_nodes) := by
  refine ⟨ThetaPrime_mono E epsilonPrime l k h x y (le_of_lt hxy) hy, ?_⟩
  intro h1
  rw [ThetaPrime, ThetaPrime, Nat.mod_eq_of_lt (ThetaPrime_fits E epsilonPrime l k h x (by omega)),
    Nat.mod_eq_of_lt (ThetaPrime_fits E epsilonPrime l k h y hy), h1, Nat.div_one, Nat.div_one]
  have := h.2 x y hxy (by omega)
  omega

theorem C14_amended_witness :
    ThetaPrime two_ranks 1 1 1 1 two_ranks.num_nodes
      ≤ ThetaPrime two_ranks 3 1 1 1 two_ranks.num_nodes ∧
    (two_ranks.world_size = 1 →
      ThetaPrime two_ranks 1 1 1 1 two_ranks.num_nodes
        < ThetaPrime two_ranks 3 1 1 1 two_ranks.num_nodes) :=
  C14_amended_nondecreasing two_ranks 1 1 1
    ⟨fun x _ => by simp only [two_ranks]; omega, fun x y _ _ => by simp only [two_ranks]; omega⟩
    (by decide) 1 3 (by decide) (by decide)

theorem size_sub_eq (a n : Nat) (ha : a < 2 ^ 64) (hn : n ≤ a) : size_sub a n = a - n := by
  have h1 : n < 2 ^ 64 := lt_of_le_of_lt hn ha
  rw [size_sub, Nat.mod_eq_of_lt ha, Nat.mod_eq_of_lt h1]
  have h2 : a + 2 ^ 64 - n = (a - n) + 2 ^ 64 := by omega
  rw [h2, Nat.add_mod_right]
  exact Nat.mod_eq_of_lt (by omega)

theorem search_body_RR {R γ : Type} (E : Env R γ) (k : Nat) (epsilonPrime l : ℚ)
    (st : Search R γ) :
    (search_body E k epsilonPrime l st).1.RR
      = st.RR ++ (E.GenerateRRRSets
          (size_sub (ThetaPrime E st.x epsilonPrime l k E.num_nodes) st.RR.length)
          st.generator).1 := by
  simp only [search_body]
  split_ifs <;> rfl

theorem search_body_x {R γ : Type} (E : Env R γ) (k : Nat) (epsilonPrime l : ℚ)
    (st : Search R γ) (h : (search_body E k epsilonPrime l st).2 = false) :
    (search_body E k epsilonPrime l st).1.x = st.x + 1 := by
  simp only [search_body] at h ⊢
  split_ifs at h ⊢ with h1
  rfl

theorem bound_search_extends {R γ : Type} (E : Env R γ) (k : Nat) (epsilonPrime l : ℚ) :
    ∀ (fuel : Nat) (st st1 : Search R γ),
      bound_search E k epsilonPrime l fuel st = some st1 → st.RR <+: st1.RR := by
  intro fuel
  induction fuel with
  | zero =>
    intro st st1 h
    simp only [bound_search] at h
    split_ifs at h
    cases h
    exact List.prefix_refl _
  | succ fuel ih =>
    intro st st1 h
    simp only [bound_search] at h
    have hp : st.RR <+: (search_body E k epsilonPrime l st).1.RR := by
      rw [search_body_RR]
      exact List.prefix_append _ _
    split_ifs at h
    · cases h
      exact hp
    · exact List.IsPrefix.trans hp (ih _ _ h)
    · cases h
      exact List.prefix_refl _

theorem bound_search_returns {R γ : Type} (E : Env R γ) (k : Nat) (epsilonPrime l : ℚ) :
    ∀ (fuel : Nat) (st : Search R γ), E.num_nodes ≤ 2 ^ (st.x + fuel) →
      ∃ st1, bound_search E k epsilonPrime l fuel st = some st1 := by
  intro fuel
  induction fuel with
  | zero =>
    intro st h
    have hg : ¬ 2 ^ st.x < E.num_nodes := not_lt.2 h
    exact ⟨st, by simp only [bound_search, hg, if_false]⟩
  | succ fuel ih =>
    intro st h
    simp only [bound_search]
    split_ifs with h1 h2
    · exact ⟨_, rfl⟩
    · have hx := search_body_x E k epsilonPrime l st (by simpa using h2)
      exact ih _ (by
        rw [hx]
        have : st.x + 1 + fuel = st.x + (fuel + 1) := by omega
        rw [this]
        exact h)
    · exact ⟨_, rfl⟩

/-- C11: throughout `Sampling` the RR-set pool is append-only: the pool before an iteration of
the bound search is a prefix of the pool after it, hence the pool with which the search starts
from any state is a prefix of the pool with which it ends, and that pool is a prefix of the
returned one; and, assuming `GenerateRRRSets` returns exactly the requested number of sets,
`Sampling` returns a pool of at least `thetaLocal = theta / world_size + 1` members, which is
the pool of the bound search, unchanged, when that already had so many. -/
theorem C11_pool_append_only {R γ : Type} (E : Env R γ) (k : Nat) (epsilon l : ℚ)
    (generator : γ) (hexact : exact_generation E) :
    (∀ st, st.RR <+: (search_body E k (sqrt_2 * epsilon) l st).1.RR ∧
      st.RR.length ≤ (search_body E k (sqrt_2 * epsilon) l st).1.RR.length) ∧
    (∀ fuel st st1, bound_search E k (sqrt_2 * epsilon) l fuel st = some st1 →
      st.RR <+: st1.RR) ∧
    ∃ st r, bound_search E k (sqrt_2 * epsilon) l E.num_nodes (Search.start generator) = some st ∧
      Sampling E k epsilon l generator = some r ∧
      r.Theta = E.Theta epsilon l k st.LB E.num_nodes ∧
      st.RR <+: r.RR ∧ st.RR.length ≤ r.RR.length ∧
      thetaLocal E r.Theta ≤ r.RR.length ∧
      (thetaLocal E r.Theta ≤ st.RR.length → r.RR = st.RR) := by
  have hbody : ∀ st : Search R γ, st.RR <+: (search_body E k (sqrt_2 * epsilon) l st).1.RR := by
    intro st
    rw [search_body_RR]
    exact List.prefix_append _ _
  refine ⟨fun st => ⟨hbody st, (hbody st).length_le⟩,
    bound_search_extends E k (sqrt_2 * epsilon) l, ?_⟩
  obtain ⟨st, hst⟩ := bound_search_returns E k (sqrt_2 * epsilon) l E.num_nodes
    (Search.start generator)
    (le_of_lt (lt_of_lt_of_le (Nat.lt_two_pow _)
      (Nat.pow_le_pow_right (by decide) (Nat.le_add_left _ _))))
  by_cases hlt : thetaLocal E (E.Theta epsilon l k st.LB E.num_nodes) > st.RR.length
  · have hlt2 : (E.Theta epsilon l k st.LB E.num_nodes / E.world_size + 1) % 2 ^ 64
        > st.RR.length := hlt
    refine ⟨st,
      { RR := st.RR ++ (E.GenerateRRRSets (size_sub
            ((E.Theta epsilon l k st.LB E.num_nodes / E.world_size + 1) % 2 ^ 64) st.RR.length)
            st.generator).1
        generator := (E.GenerateRRRSets (size_sub
            ((E.Theta epsilon l k st.LB E.num_nodes / E.world_size + 1) % 2 ^ 64) st.RR.length)
            st.generator).2
        Theta := E.Theta epsilon l k st.LB E.num_nodes, LB := st.LB, ran := st.ran },
      hst, by simp only [Sampling, hst, hlt2, if_true], rfl,
      List.prefix_append _ _, ?_, ?_, ?_⟩
    · simp only [List.length_append]
      omega
    · have hfit : thetaLocal E (E.Theta epsilon l k st.LB E.num_nodes) < 2 ^ 64 :=
        Nat.mod_lt _ (by positivity)
      have hsub := size_sub_eq _ _ hfit (le_of_lt hlt)
      simp only [thetaLocal] at hsub hlt ⊢
      simp only [List.length_append, hexact _ _, hsub]
      omega
    · intro h
      exact absurd h (not_le.2 hlt)
  · have hlt2 : ¬ (E.Theta epsilon l k st.LB E.num_nodes / E.world_size + 1) % 2 ^ 64
        > st.RR.length := hlt
    refine ⟨st,
      { RR := st.RR, generator := st.generator,
        Theta := E.Theta epsilon l k st.LB E.num_nodes, LB := st.LB, ran := st.ran },
      hst, by simp only [Sampling, hst, hlt2, if_false], rfl,
      List.prefix_refl _, le_refl _, not_lt.1 hlt, fun _ => rfl⟩

theorem C11_witness :
    ∃ st r, bound_search three_ranks 2 (sqrt_2 * (1 / 2)) 1 three_ranks.num_nodes
        (Search.start ()) = some st ∧
      Sampling three_ranks 2 (1 / 2) 1 () = some r ∧
      st.RR <+: r.RR ∧ thetaLocal three_ranks r.Theta ≤ r.RR.length := by
  obtain ⟨st, r, h1, h2, _, h4, _, h6, _⟩ :=
    (C11_pool_append_only three_ranks 2 (1 / 2) 1 ()
      (fun count _ => by simp [three_ranks])).2.2
  exact ⟨st, r, h1, h2, h4, h6⟩

theorem ThetaPrime_lt {R γ : Type} (E : Env R γ) (x : Nat) (epsilonPrime l : ℚ)
    (k num_nodes : Nat) : ThetaPrime E x epsilonPrime l k num_nodes < 2 ^ 64 :=
  Nat.mod_lt _ (by positivity)

theorem pool_length {R γ : Type} (E : Env R γ) (k : Nat) (epsilonPrime l : ℚ) (generator : γ)
    (hexact : exact_generation E) (hinc : increasing_omp E epsilonPrime l k) :
    ∀ x, x + 2 < 2 ^ 63 →
      (pool E k epsilonPrime l generator (x + 1)).1.length
        = ThetaPrime E (x + 1) epsilonPrime l k E.num_nodes := by
  intro x
  induction x with
  | zero =>
    intro _
    simp only [pool, List.length_append, List.length_nil, hexact _ _, Nat.zero_add]
    rw [size_sub_eq _ _ (ThetaPrime_lt E _ _ _ _ _) (Nat.zero_le _)]
    rfl
  | succ x ih =>
    intro hx
    have h1 := ih (by omega)
    have h2 := ThetaPrime_mono E epsilonPrime l k hinc (x + 1) (x + 1 + 1) (by omega) (by omega)
    rw [pool]
    simp only [List.length_append, hexact _ _, h1]
    rw [size_sub_eq _ _ (ThetaPrime_lt E _ _ _ _ _) h2]
    omega

theorem iteration_lt_64 (x n : Nat) (hn : n < 2 ^ 64) (hx : 2 ^ x < n) : x < 64 := by
  by_contra h
  have h1 : 2 ^ 64 ≤ 2 ^ x := Nat.pow_le_pow_right (by decide) (by omega)
  omega

/-- C18: in every iteration `x` of the bound search (`x >= 1` and `x < log2(num_nodes)`, on the
pool left by the iterations before it), assuming `GenerateRRRSets` returns exactly the
requested number of sets and the wrapped `ThetaPrime` is strictly increasing in `x`, the
current pool size is at most `thetaPrime(x)`, so that the 64-bit difference
`thetaPrime(x) - RR.size()` is the true difference, and after the insertion the pool has
exactly `thetaPrime(x)` members. -/
theorem C18_requested_count_never_wraps {R γ : Type} (E : Env R γ) (k : Nat)
    (epsilonPrime l : ℚ) (generator : γ) (hexact : exact_generation E)
    (hinc : increasing_omp E epsilonPrime l k) (hn : E.num_nodes < 2 ^ 64) (x : Nat)
    (hx1 : 1 ≤ x) (hx : 2 ^ x < E.num_nodes) :
    (head E k epsilonPrime l generator x).RR.length
      ≤ ThetaPrime E x epsilonPrime l k E.num_nodes ∧
    size_sub (ThetaPrime E x epsilonPrime l k E.num_nodes)
        (head E k epsilonPrime l generator x).RR.length
      = ThetaPrime E x epsilonPrime l k E.num_nodes
        - (head E k epsilonPrime l generator x).RR.length ∧
    (search_body E k epsilonPrime l (head E k epsilonPrime l generator x)).1.RR.length
      = ThetaPrime E x epsilonPrime l k E.num_nodes ∧
    (pool E k epsilonPrime l generator x).1.length
      = ThetaPrime E x epsilonPrime l k E.num_nodes := by
  have hx64 := iteration_lt_64 x E.num_nodes hn hx
  obtain ⟨y, rfl⟩ : ∃ y, x = y + 1 := ⟨x - 1, by omega⟩
  have hle : (pool E k epsilonPrime l generator y).1.length
      ≤ ThetaPrime E (y + 1) epsilonPrime l k E.num_nodes := by
    rcases Nat.eq_zero_or_pos y with h0 | hpos
    · subst h0
      simp [pool]
    · obtain ⟨z, rfl⟩ : ∃ z, y = z + 1 := ⟨y - 1, by omega⟩
      rw [pool_length E k epsilonPrime l generator hexact hinc z (by omega)]
      exact ThetaPrime_mono E epsilonPrime l k hinc (z + 1) (z + 1 + 1) (by omega) (by omega)
  have hsub := size_sub_eq _ _ (ThetaPrime_lt E (y + 1) epsilonPrime l k E.num_nodes) hle
  have hpool := pool_length E k epsilonPrime l generator hexact hinc y (by omega)
  refine ⟨hle, hsub, ?_, hpool⟩
  rw [search_body_RR]
  simp only [head, Nat.add_sub_cancel, List.length_append, hexact _ _, hsub]
  omega

theorem C18_witness :
    (head three_ranks 2 1 1 () 3).RR.length ≤ ThetaPrime three_ranks 3 1 1 2 three_ranks.num_nodes ∧
    size_sub (ThetaPrime three_ranks 3 1 1 2 three_ranks.num_nodes)
        (head three_ranks 2 1 1 () 3).RR.length
      = ThetaPrime three_ranks 3 1 1 2 three_ranks.num_nodes
        - (head three_ranks 2 1 1 () 3).RR.length ∧
    (search_body three_ranks 2 1 1 (head three_ranks 2 1 1 () 3)).1.RR.length
      = ThetaPrime three_ranks 3 1 1 2 three_ranks.num_nodes ∧
    (pool three_ranks 2 1 1 () 3).1.length = ThetaPrime three_ranks 3 1 1 2 three_ranks.num_nodes :=
  C18_requested_count_never_wraps three_ranks 2 1 1 ()
    (fun count _ => by simp [three_ranks])
    ⟨fun x hx => by simp only [three_ranks]; omega,
     fun x y _ _ => by simp only [three_ranks]; omega⟩
    (by decide) 3 (by decide) (by decide)

theorem IMM_stream_eq (W T r t j : Nat) : IMM_stream W T r t j = r + W * (t + T * j) := rfl

theorem leapfrog_unique (W r a r1 a1 : Nat) (hr : r < W) (hr1 : r1 < W)
    (h : r + W * a = r1 + W * a1) : r = r1 ∧ a = a1 := by
  have h1 : (r + W * a) % W = (r1 + W * a1) % W := by rw [h]
  rw [Nat.add_mul_mod_self_left, Nat.add_mul_mod_self_left, Nat.mod_eq_of_lt hr,
    Nat.mod_eq_of_lt hr1] at h1
  subst h1
  have h2 : W * a = W * a1 := Nat.add_left_cancel h
  exact ⟨rfl, Nat.eq_of_mul_eq_mul_left (lt_of_le_of_lt (Nat.zero_le _) hr) h2⟩

/-- C13: with `split(count, index)` the leapfrog partition, the streams that `IMM` assigns by
`gen.split(W, r)` followed on the copy of thread `t` by `split(T, t)` are pairwise disjoint over
the pairs (rank `r < W`, thread `t < T`): two of them that yield the same position of the base
stream are the same stream (and yield it at the same index), and together they cover the base
stream. -/
theorem C13_rank_thread_streams_partition (W T : Nat) (hW : 0 < W) (hT : 0 < T) :
    (∀ r t j r1 t1 j1, r < W → t < T → r1 < W → t1 < T →
      IMM_stream W T r t j = IMM_stream W T r1 t1 j1 → r = r1 ∧ t = t1 ∧ j = j1) ∧
    (∀ p, ∃ r t j, r < W ∧ t < T ∧ IMM_stream W T r t j = p) := by
  constructor
  · intro r t j r1 t1 j1 hr ht hr1 ht1 h
    rw [IMM_stream_eq, IMM_stream_eq] at h
    obtain ⟨h1, h2⟩ := leapfrog_unique W r _ r1 _ hr hr1 h
    obtain ⟨h3, h4⟩ := leapfrog_unique T t _ t1 _ ht ht1 h2
    exact ⟨h1, h3, h4⟩
  · intro p
    refine ⟨p % W, p / W % T, p / W / T, Nat.mod_lt _ hW, Nat.mod_lt _ hT, ?_⟩
    rw [IMM_stream_eq, Nat.mod_add_div, Nat.mod_add_div]

theorem C13_witness :
    (∀ r t j r1 t1 j1, r < 2 → t < 3 → r1 < 2 → t1 < 3 →
      IMM_stream 2 3 r t j = IMM_stream 2 3 r1 t1 j1 → r = r1 ∧ t = t1 ∧ j = j1) ∧
    (∀ p, ∃ r t j, r < 2 ∧ t < 3 ∧ IMM_stream 2 3 r t j = p) :=
  C13_rank_thread_streams_partition 2 3 (by decide) (by decide)

end im
